import Mathlib

/-!
# zfs-rewrite-resume: a shallow embedding of `zfs-rewrite-resume.c`

The program walks the directory trees named on its command line breadth-first
and hands every regular file to `zfs rewrite`, optionally skipping files until
a resume path is met (`-c`) or only simulating the walk (`-n`).

Modelling conventions.

* C strings are Lean `String`s; `strlen` is `String.length` (one `Char` stands
  for one byte), `strcmp(a, b) == 0` is `a = b`, `snprintf` with `%s` is `++`.
* The file system and the child process are the `World`: `lstat`, the listing
  `opendir`/`readdir` produce, and the value `system` returns.  The world does
  not change during a run.
* The global variables set by option parsing (`zfs_opts`, `xdev_flag`,
  `dry_run_flag`, `resume_file`) form `Config`; the ones mutated by the walk
  (`process_files`, `dir_queue`, `dir_capacity`) form `State`, which also carries
  the `trace`: the calls and the output of the run, oldest first.
* `exit(status)` is the `Ctl.exit` result, which every caller propagates.
* The `while` loop that drains the queue takes fuel: one unit per iteration.
* `realloc` and `strdup` are taken to succeed, and `size_t`/`int` arithmetic
  not to wrap.
-/

namespace ZfsRewriteResume

/-! ## Constants -/

/-- The constant `PATH_MAX` of `<limits.h>` (Linux). -/
def PATH_MAX : Nat := 4096

/-- The constant `EXIT_SUCCESS` of `<stdlib.h>`. -/
def EXIT_SUCCESS : Nat := 0

/-- The constant `EXIT_FAILURE` of `<stdlib.h>`. -/
def EXIT_FAILURE : Nat := 1

/-! ## The world: file system and child process -/

/-- What `st_mode` says of an entry: `S_ISREG`, `S_ISDIR`, or neither
(symbolic link, device, socket, fifo). -/
inductive FileType where
  | reg
  | dir
  | other
deriving DecidableEq, Repr

/-- The two fields of `struct stat` the program reads. -/
structure Stat where
  st_mode : FileType
  st_dev : Nat
deriving DecidableEq, Repr

/-- The environment of a run.  `lstat p` is `none` when `lstat(p, &st) != 0`;
`readdir p` is `none` when `opendir(p)` fails and otherwise the `d_name`s that
successive `readdir` calls return; `system k cmd` is what the call number `k`
(counted from 0) of `system(cmd)` returns. -/
structure World where
  lstat : String → Option Stat
  readdir : String → Option (List String)
  system : Nat → String → Int

/-! ## Trace -/

/-- The diagnostics written to `stderr`, one constructor per `fprintf`. -/
inductive Msg where
  | commandTooLong (path : String)
  | commandFailed (path : String) (ret : Int)
  | dryRunFound
  | resumeFound (path : String)
  | opendirFailed (path : String)
  | pathTooLong (path : String) (name : String)
  | lstatFailed (fullpath : String)
  | cannotStatInitial (path : String)
  | usage (prog : String)
  | missingTarget
  | resumeEnabled (resume : String)
  | dryRunActive
  | cannotStatQueued (dir : String)
  | dryRunNotFound (resume : String)
  | realRunNotFound (resume : Option String)
  | allComplete
deriving DecidableEq, Repr

/-- One entry of the trace: a call of one of the program's functions, a
dequeue of the drain loop, a `system` call with its result, a line on
`stdout`, or a diagnostic on `stderr`. -/
inductive Event where
  | process_path (path : String)
  | handle_directory (path : String) (parent_dev : Nat)
  | handle_file (path : String)
  | execute_rewrite (path : String)
  | add_to_dir_queue (path : String)
  | dequeue (path : String)
  | system (command : String) (ret : Int)
  | stdout (line : String)
  | stderr (msg : Msg)
deriving DecidableEq, Repr

/-! ## Global state -/

/-- The globals fixed by option parsing. -/
structure Config where
  zfs_opts : String
  xdev_flag : Bool
  dry_run_flag : Bool
  resume_file : Option String
deriving DecidableEq, Repr

/-- The globals the walk mutates, and the trace.  `dir_count` is the length of
`dir_queue`: the array only grows, the drain loop reads it by index. -/
structure State where
  process_files : Bool
  dir_queue : List String
  dir_capacity : Nat
  trace : List Event
deriving DecidableEq, Repr

/-- The result of a call: it returns a value, or the process has exited. -/
inductive Ctl (α : Type) where
  | ret (a : α) (s : State)
  | exit (status : Nat) (s : State)
deriving Repr

/-- Append one event to the trace. -/
def State.emit (s : State) (e : Event) : State :=
  { s with trace := s.trace ++ [e] }

/-- The number of `system` calls recorded in a trace. -/
def sysCalls : List Event → Nat
  | [] => 0
  | Event.system _ _ :: t => sysCalls t + 1
  | _ :: t => sysCalls t

/-- The test `strstr(hay, needle) != NULL`: `needle` occurs in `hay`. -/
def strstr (hay needle : String) : Bool :=
  hay.data.tails.any (fun t => needle.data.isPrefixOf t)

/-! ## The functions of the program -/

/-- The function `add_to_dir_queue`: grow the array when full, append a copy
of `path`. -/
def add_to_dir_queue (path : String) (s : State) : State :=
  let s := s.emit (Event.add_to_dir_queue path)
  let cap :=
    if s.dir_queue.length ≥ s.dir_capacity then
      (if s.dir_capacity = 0 then 16 else s.dir_capacity * 2)
    else s.dir_capacity
  { s with dir_capacity := cap, dir_queue := s.dir_queue ++ [path] }

/-- The command line `execute_rewrite` formats. -/
def rewrite_command (cfg : Config) (path : String) : String :=
  "zfs rewrite " ++ cfg.zfs_opts ++ " -- \"" ++ path ++ "\""

/-- The function `execute_rewrite`: build the command, run it unless it does
not fit the buffer, report a non-zero result. -/
def execute_rewrite (w : World) (cfg : Config) (path : String) (s : State) : State :=
  let s := s.emit (Event.execute_rewrite path)
  let command := rewrite_command cfg path
  if command.length ≥ PATH_MAX + 1024 then
    s.emit (Event.stderr (Msg.commandTooLong path))
  else
    let ret := w.system (sysCalls s.trace) command
    let s := s.emit (Event.system command ret)
    if ret ≠ 0 then s.emit (Event.stderr (Msg.commandFailed path ret)) else s

/-- The function `handle_file`: the dry-run branch prints and exits at the
resume point; the real-run branch leaves skipping at the resume point and
runs the command when processing is on.  (`process_files` is only ever off
when `resume_file` is set, so the second `strcmp` never sees `NULL`.) -/
def handle_file (w : World) (cfg : Config) (path : String) (s : State) : Ctl Unit :=
  let s := s.emit (Event.handle_file path)
  if cfg.dry_run_flag then
    let s := if strstr cfg.zfs_opts "-v" then s.emit (Event.stdout path) else s
    if cfg.resume_file = some path then
      Ctl.exit EXIT_SUCCESS (s.emit (Event.stderr Msg.dryRunFound))
    else
      Ctl.ret () s
  else
    let s :=
      if !s.process_files then
        (if cfg.resume_file = some path then
          { s.emit (Event.stderr (Msg.resumeFound path)) with process_files := true }
        else s)
      else s
    if s.process_files then Ctl.ret () (execute_rewrite w cfg path s)
    else Ctl.ret () s

/-- One iteration of the `readdir` loop of `handle_directory`, for the entry
called `name`. -/
def handle_directory_entry (w : World) (cfg : Config) (path : String) (parent_dev : Nat)
    (name : String) (s : State) : Ctl Unit :=
  if name = "." ∨ name = ".." then Ctl.ret () s
  else
    let fullpath := path ++ "/" ++ name
    if fullpath.length ≥ PATH_MAX then
      Ctl.ret () (s.emit (Event.stderr (Msg.pathTooLong path name)))
    else
      match w.lstat fullpath with
      | none => Ctl.ret () (s.emit (Event.stderr (Msg.lstatFailed fullpath)))
      | some st =>
        if cfg.xdev_flag && st.st_dev != parent_dev then Ctl.ret () s
        else
          match st.st_mode with
          | FileType.reg => handle_file w cfg fullpath s
          | FileType.dir => Ctl.ret () (add_to_dir_queue fullpath s)
          | FileType.other => Ctl.ret () s

/-- The `readdir` loop of `handle_directory` over the remaining entries. -/
def handle_directory_loop (w : World) (cfg : Config) (path : String) (parent_dev : Nat) :
    List String → State → Ctl Unit
  | [], s => Ctl.ret () s
  | name :: rest, s =>
    match handle_directory_entry w cfg path parent_dev name s with
    | Ctl.ret _ s1 => handle_directory_loop w cfg path parent_dev rest s1
    | Ctl.exit status s1 => Ctl.exit status s1

/-- The function `handle_directory`: returns 1 when the directory cannot be
opened, else runs the loop and returns 0. -/
def handle_directory (w : World) (cfg : Config) (path : String) (parent_dev : Nat)
    (s : State) : Ctl Int :=
  let s := s.emit (Event.handle_directory path parent_dev)
  match w.readdir path with
  | none => Ctl.ret 1 (s.emit (Event.stderr (Msg.opendirFailed path)))
  | some names =>
    match handle_directory_loop w cfg path parent_dev names s with
    | Ctl.ret _ s1 => Ctl.ret 0 s1
    | Ctl.exit status s1 => Ctl.exit status s1

/-- The function `process_path`, called on each command-line operand. -/
def process_path (w : World) (cfg : Config) (path : String) (s : State) : Ctl Int :=
  let s := s.emit (Event.process_path path)
  match w.lstat path with
  | none => Ctl.ret 1 (s.emit (Event.stderr (Msg.cannotStatInitial path)))
  | some st =>
    match st.st_mode with
    | FileType.reg =>
      match handle_file w cfg path s with
      | Ctl.ret _ s1 => Ctl.ret 0 s1
      | Ctl.exit status s1 => Ctl.exit status s1
    | FileType.dir =>
      match handle_directory w cfg path st.st_dev s with
      | Ctl.ret _ s1 => Ctl.ret 0 s1
      | Ctl.exit status s1 => Ctl.exit status s1
    | FileType.other => Ctl.ret 0 s

/-- What `getopt(argc, argv, "l:o:vxc:nh")` returns on successive calls. -/
inductive Opt where
  | l (optarg : String)
  | o (optarg : String)
  | v
  | x
  | c (optarg : String)
  | n
  | h
  | unknown
deriving DecidableEq, Repr

/-- The function `usage`: print the help text, `exit(EXIT_FAILURE)`. -/
def usage (prog_name : String) (s : State) : Ctl Unit :=
  Ctl.exit EXIT_FAILURE (s.emit (Event.stderr (Msg.usage prog_name)))

/-- The globals as initialised at program start. -/
def Config.init : Config :=
  { zfs_opts := "", xdev_flag := false, dry_run_flag := false, resume_file := none }

/-- The globals as initialised at program start. -/
def State.init : State :=
  { process_files := true, dir_queue := [], dir_capacity := 0, trace := [] }

/-- The option loop of `main`.  `snprintf` into `temp_opts[64]` keeps at most
63 characters. -/
def main_getopt (prog : String) : List Opt → Config → State → Ctl Config
  | [], cfg, s => Ctl.ret cfg s
  | opt :: rest, cfg, s =>
    match opt with
    | Opt.l optarg =>
      main_getopt prog rest
        { cfg with zfs_opts := cfg.zfs_opts ++ ("-l " ++ optarg ++ " ").take 63 } s
    | Opt.o optarg =>
      main_getopt prog rest
        { cfg with zfs_opts := cfg.zfs_opts ++ ("-o " ++ optarg ++ " ").take 63 } s
    | Opt.v => main_getopt prog rest { cfg with zfs_opts := cfg.zfs_opts ++ "-v " } s
    | Opt.x => main_getopt prog rest { cfg with xdev_flag := true } s
    | Opt.c optarg => main_getopt prog rest { cfg with resume_file := some optarg } s
    | Opt.n => main_getopt prog rest { cfg with dry_run_flag := true } s
    | Opt.h => Ctl.exit EXIT_FAILURE (s.emit (Event.stderr (Msg.usage prog)))
    | Opt.unknown => Ctl.exit EXIT_FAILURE (s.emit (Event.stderr (Msg.usage prog)))

/-- The loop of `main` over the operands `argv[optind..]`. -/
def main_roots (w : World) (cfg : Config) : List String → State → Ctl Unit
  | [], s => Ctl.ret () s
  | path :: rest, s =>
    match process_path w cfg path s with
    | Ctl.ret _ s1 => main_roots w cfg rest s1
    | Ctl.exit status s1 => Ctl.exit status s1

/-- The loop of `main` that drains the queue, from `current_dir_idx`; one unit
of fuel per iteration, `none` when the fuel runs out. -/
def main_drain (w : World) (cfg : Config) : Nat → Nat → State → Option (Ctl Unit)
  | fuel, current_dir_idx, s =>
    match s.dir_queue[current_dir_idx]? with
    | none => some (Ctl.ret () s)
    | some dir_to_process =>
      match fuel with
      | 0 => none
      | fuel + 1 =>
        let s := s.emit (Event.dequeue dir_to_process)
        match w.lstat dir_to_process with
        | none =>
          main_drain w cfg fuel (current_dir_idx + 1)
            (s.emit (Event.stderr (Msg.cannotStatQueued dir_to_process)))
        | some st =>
          match handle_directory w cfg dir_to_process st.st_dev s with
          | Ctl.ret _ s1 => main_drain w cfg fuel (current_dir_idx + 1) s1
          | Ctl.exit status s1 => some (Ctl.exit status s1)

/-- The end of `main`, after the queue is drained: the exit status. -/
def main_finish (cfg : Config) (s : State) : Nat × State :=
  if cfg.dry_run_flag ∧ cfg.resume_file.isSome then
    (EXIT_FAILURE, s.emit (Event.stderr (Msg.dryRunNotFound (cfg.resume_file.getD ""))))
  else if !s.process_files then
    (EXIT_FAILURE, s.emit (Event.stderr (Msg.realRunNotFound cfg.resume_file)))
  else
    (EXIT_SUCCESS, s.emit (Event.stderr Msg.allComplete))

/-- The start of `main` after the operand check: the two notices, and the
gate set to skipping for a real run with a resume path. -/
def main_start (cfg : Config) (s : State) : State :=
  let s := match cfg.resume_file with
    | some r => if !cfg.dry_run_flag then s.emit (Event.stderr (Msg.resumeEnabled r)) else s
    | none => s
  let s := if cfg.dry_run_flag then s.emit (Event.stderr Msg.dryRunActive) else s
  if cfg.resume_file.isSome && !cfg.dry_run_flag then { s with process_files := false } else s

/-- The function `main` from the operand check on, with the globals as the
option loop left them: the exit status and the final state, `none` when the
fuel runs out. -/
def main_run (w : World) (cfg : Config) (prog : String) (roots : List String) (fuel : Nat)
    (s : State) : Option (Nat × State) :=
  if roots = [] then
    some (EXIT_FAILURE,
      (s.emit (Event.stderr Msg.missingTarget)).emit (Event.stderr (Msg.usage prog)))
  else
    match main_roots w cfg roots (main_start cfg s) with
    | Ctl.exit status s1 => some (status, s1)
    | Ctl.ret _ s1 =>
      match main_drain w cfg fuel 0 s1 with
      | none => none
      | some (Ctl.exit status s2) => some (status, s2)
      | some (Ctl.ret _ s2) => some (main_finish cfg s2)

/-- The function `main`: `prog` is `argv[0]`, `opts` what `getopt` yields,
`roots` the operands. -/
def main (w : World) (prog : String) (opts : List Opt) (roots : List String) (fuel : Nat) :
    Option (Nat × State) :=
  match main_getopt prog opts Config.init State.init with
  | Ctl.exit status s => some (status, s)
  | Ctl.ret cfg s => main_run w cfg prog roots fuel s

/-! ## Observations on a trace -/

/-- The paths handed to `handle_file`, in order: the files the walk emits. -/
def emitted : List Event → List String
  | [] => []
  | Event.handle_file p :: t => p :: emitted t
  | _ :: t => emitted t

/-- The paths handed to `execute_rewrite`, in order: the files forwarded to
the external action. -/
def forwarded : List Event → List String
  | [] => []
  | Event.execute_rewrite p :: t => p :: forwarded t
  | _ :: t => forwarded t

/-- The paths at which the gate left skipping, in order: one per
"Found resume point" diagnostic, which `handle_file` prints exactly when it
sets `process_files`. -/
def found : List Event → List String
  | [] => []
  | Event.stderr (Msg.resumeFound p) :: t => p :: found t
  | _ :: t => found t

/-! ## The walk without the gate -/

/-- What the walk does with one directory entry: hand a regular file to
`handle_file`, or append a directory to the queue. -/
inductive Item where
  | file (path : String)
  | dir (path : String)
deriving DecidableEq, Repr

/-- The item, when there is one, that `handle_directory_entry` produces for
the entry `name` of `path`. -/
def entryItem (w : World) (xdev : Bool) (path : String) (parent_dev : Nat) (name : String) :
    Option Item :=
  if name = "." ∨ name = ".." then none
  else
    let fullpath := path ++ "/" ++ name
    if fullpath.length ≥ PATH_MAX then none
    else
      match w.lstat fullpath with
      | none => none
      | some st =>
        if xdev && st.st_dev != parent_dev then none
        else
          match st.st_mode with
          | FileType.reg => some (Item.file fullpath)
          | FileType.dir => some (Item.dir fullpath)
          | FileType.other => none

/-- The items of one call of `handle_directory`. -/
def dirItems (w : World) (xdev : Bool) (path : String) (parent_dev : Nat) : List Item :=
  match w.readdir path with
  | none => []
  | some names => names.filterMap (entryItem w xdev path parent_dev)

/-- The items of one call of `process_path`. -/
def rootItems (w : World) (xdev : Bool) (path : String) : List Item :=
  match w.lstat path with
  | none => []
  | some st =>
    match st.st_mode with
    | FileType.reg => [Item.file path]
    | FileType.dir => dirItems w xdev path st.st_dev
    | FileType.other => []

/-- The items of one iteration of the drain loop, for the queued path `dir`. -/
def queuedItems (w : World) (xdev : Bool) (dir : String) : List Item :=
  match w.lstat dir with
  | none => []
  | some st => dirItems w xdev dir st.st_dev

/-- The regular files among items, in order. -/
def files : List Item → List String
  | [] => []
  | Item.file p :: t => p :: files t
  | Item.dir _ :: t => files t

/-- The directories among items, in order. -/
def dirs : List Item → List String
  | [] => []
  | Item.file _ :: t => dirs t
  | Item.dir p :: t => p :: dirs t

/-- The items of the drain loop run on the pending directories with the given
fuel, and whether the queue was drained within the fuel. -/
def drainItems (w : World) (xdev : Bool) : Nat → List String → List Item × Bool
  | _, [] => ([], true)
  | 0, _ :: _ => ([], false)
  | fuel + 1, d :: rest =>
    let here := queuedItems w xdev d
    let later := drainItems w xdev fuel (rest ++ dirs here)
    (here ++ later.1, later.2)

/-- The items of the operand loop. -/
def rootsItems (w : World) (xdev : Bool) : List String → List Item
  | [] => []
  | r :: rest => rootItems w xdev r ++ rootsItems w xdev rest

/-- The items of the whole walk with the given fuel, and whether the walk
was completed within the fuel. -/
def walkItems (w : World) (xdev : Bool) (roots : List String) (fuel : Nat) : List Item × Bool :=
  let first := rootsItems w xdev roots
  let later := drainItems w xdev fuel (dirs first)
  (first ++ later.1, later.2)

/-! ## The gate on items -/

/-- What the claims observe of a state. -/
structure Abs where
  pf : Bool
  queue : List String
  emitted : List String
  forwarded : List String
  found : List String
deriving DecidableEq, Repr

/-- The observation of a state. -/
def State.abs (s : State) : Abs :=
  { pf := s.process_files, queue := s.dir_queue, emitted := emitted s.trace,
    forwarded := forwarded s.trace, found := found s.trace }

/-- The effect of one item on the observation. -/
def feed (cfg : Config) : Item → Abs → Abs
  | Item.dir p, a => { a with queue := a.queue ++ [p] }
  | Item.file p, a =>
    if cfg.dry_run_flag then { a with emitted := a.emitted ++ [p] }
    else
      let pf := a.pf || decide (cfg.resume_file = some p)
      { a with pf := pf, emitted := a.emitted ++ [p],
               forwarded := a.forwarded ++ (if pf then [p] else []),
               found := a.found ++ (if a.pf then [] else if pf then [p] else []) }

/-- The effect of a list of items on the observation. -/
def feedAll (cfg : Config) : List Item → Abs → Abs
  | [], a => a
  | i :: t, a => feedAll cfg t (feed cfg i a)

/-- Whether the item makes `handle_file` exit: a dry run meeting the resume
path. -/
def halts (cfg : Config) : Item → Bool
  | Item.file p => cfg.dry_run_flag && decide (cfg.resume_file = some p)
  | Item.dir _ => false

/-- The items up to and including the first one that halts the run. -/
def cutAt (cfg : Config) : List Item → List Item
  | [] => []
  | i :: t => if halts cfg i then [i] else i :: cutAt cfg t

/-- The trace of a run that exited in `handle_file`: it ends with the call on
the resume path, the optional verbose line and the diagnostic. -/
def EndsAtMatch (cfg : Config) (t : List Event) : Prop :=
  ∃ pre r, cfg.resume_file = some r ∧ cfg.dry_run_flag = true ∧
    t = pre ++ (Event.handle_file r ::
      ((if strstr cfg.zfs_opts "-v" then [Event.stdout r] else []) ++
        [Event.stderr Msg.dryRunFound]))

/-- The result `r` of a call started in `s` is what feeding the items `L`
through the gate gives. -/
def Sim {α : Type} (cfg : Config) (s : State) (L : List Item) : Ctl α → Prop
  | Ctl.ret _ s1 => (∀ i ∈ L, halts cfg i = false) ∧ s1.abs = feedAll cfg L s.abs
  | Ctl.exit status s1 =>
    (∃ i ∈ L, halts cfg i = true) ∧ status = EXIT_SUCCESS ∧
      s1.abs = feedAll cfg (cutAt cfg L) s.abs ∧ EndsAtMatch cfg s1.trace

/-- The result of the drain loop is what the items of `drainItems` give: out
of fuel exactly when the items ran out of fuel before any of them halted. -/
def DrainSim (cfg : Config) (s : State) (ref : List Item × Bool) : Option (Ctl Unit) → Prop
  | none => ref.2 = false ∧ ∀ i ∈ ref.1, halts cfg i = false
  | some (Ctl.ret a s1) => ref.2 = true ∧ Sim cfg s ref.1 (Ctl.ret a s1)
  | some (Ctl.exit c s1) => Sim cfg s ref.1 (Ctl.exit c s1 : Ctl Unit)

/-- The observation of the state in which `main` starts the walk. -/
def startAbs (cfg : Config) : Abs :=
  { pf := !(cfg.resume_file.isSome && !cfg.dry_run_flag), queue := [], emitted := [],
    forwarded := [], found := [] }

/-- The result of `main_run` is what the items of `walkItems` give: out of
fuel when the items ran out of fuel before one of them halted; an exit in
`handle_file` when one halts; else the status `main_finish` computes. -/
def RunSim (cfg : Config) (ref : List Item × Bool) : Option (Nat × State) → Prop
  | none => ref.2 = false ∧ ∀ i ∈ ref.1, halts cfg i = false
  | some (code, s) =>
    ((∃ i ∈ ref.1, halts cfg i = true) ∧ code = EXIT_SUCCESS ∧
        s.abs = feedAll cfg (cutAt cfg ref.1) (startAbs cfg) ∧ EndsAtMatch cfg s.trace) ∨
    ((∀ i ∈ ref.1, halts cfg i = false) ∧ ref.2 = true ∧
        s.abs = feedAll cfg ref.1 (startAbs cfg) ∧ code = (main_finish cfg s).1)

/-! ## Example worlds -/

/-- The state a call ends in, returned or exited. -/
def Ctl.state {α : Type} : Ctl α → State
  | Ctl.ret _ s => s
  | Ctl.exit _ s => s

/-- The tree `/a/{f1, f2, sub/{f3}}` on one volume, listed in that order;
every command succeeds. -/
def exampleWorld : World where
  lstat p :=
    if p = "/a" then some { st_mode := FileType.dir, st_dev := 1 }
    else if p = "/a/f1" then some { st_mode := FileType.reg, st_dev := 1 }
    else if p = "/a/f2" then some { st_mode := FileType.reg, st_dev := 1 }
    else if p = "/a/sub" then some { st_mode := FileType.dir, st_dev := 1 }
    else if p = "/a/sub/f3" then some { st_mode := FileType.reg, st_dev := 1 }
    else none
  readdir p :=
    if p = "/a" then some [".", "..", "f1", "f2", "sub"]
    else if p = "/a/sub" then some [".", "..", "f3"]
    else none
  system _ _ := 0

/-- A real run without pass-through options, with the given resume path. -/
def realConfig (resume : Option String) : Config :=
  { zfs_opts := "", xdev_flag := false, dry_run_flag := false, resume_file := resume }

/-- A dry run without pass-through options, with the given resume path. -/
def dryConfig (resume : Option String) : Config :=
  { zfs_opts := "", xdev_flag := false, dry_run_flag := true, resume_file := resume }

/-- The result of a run, or a failure with the initial state when the fuel
ran out. -/
def runOf (w : World) (cfg : Config) (roots : List String) (fuel : Nat) : Nat × State :=
  (main_run w cfg "zfs-rewrite-resume" roots fuel State.init).getD (EXIT_FAILURE, State.init)

/-- A world with a second volume: `/a/{f1, mnt/{g}}`, where `/a/mnt` is a
mount point, `/a` on volume 1, `/a/mnt` and `/a/mnt/g` on volume 2. -/
def mountWorld : World where
  lstat p :=
    if p = "/a" then some { st_mode := FileType.dir, st_dev := 1 }
    else if p = "/a/f1" then some { st_mode := FileType.reg, st_dev := 1 }
    else if p = "/a/mnt" then some { st_mode := FileType.dir, st_dev := 2 }
    else if p = "/a/mnt/g" then some { st_mode := FileType.reg, st_dev := 2 }
    else none
  readdir p :=
    if p = "/a" then some [".", "..", "f1", "mnt"]
    else if p = "/a/mnt" then some [".", "..", "g"]
    else none
  system _ _ := 0

/-- The path `c` is a subdirectory of `p`: an entry of the listing of `p`,
other than `.` and `..`, that `lstat` classifies as a directory. -/
def IsSubdir (w : World) (p c : String) : Prop :=
  ∃ names n, w.readdir p = some names ∧ n ∈ names ∧ n ≠ "." ∧ n ≠ ".." ∧
    c = p ++ "/" ++ n ∧ ∃ st, w.lstat c = some st ∧ st.st_mode = FileType.dir

/-- The world holds finite trees only: the listings are lists, and some rank
decreases from every directory to each of its subdirectories, so that no
chain of subdirectories is infinite. -/
def FiniteTree (w : World) : Prop :=
  ∃ rank : String → Nat, ∀ p c, IsSubdir w p c → rank c < rank p

/-! ## Reading the trace -/

/-- The trace entry an item leaves: the call of `handle_file` or of
`add_to_dir_queue`. -/
def Item.event : Item → Event
  | Item.file p => Event.handle_file p
  | Item.dir p => Event.add_to_dir_queue p

/-- The entries of the trace below `handle_file`: the call of
`execute_rewrite`, the command, and what is printed. -/
def isOutput : Event → Bool
  | Event.execute_rewrite _ => true
  | Event.system _ _ => true
  | Event.stdout _ => true
  | Event.stderr _ => true
  | _ => false

/-- The entries of the trace that mark a step of the two loops of `main`: an
operand handed to `process_path`, a queued directory dequeued. -/
def isWalk : Event → Bool
  | Event.process_path _ => true
  | Event.dequeue _ => true
  | _ => false

/-- The entry `e` stems from the call `handle_directory D dev`: the call
itself or one of its items. -/
def FromDir (w : World) (xdev : Bool) (D : String) (dev : Nat) (e : Event) : Prop :=
  e = Event.handle_directory D dev ∨ ∃ i ∈ dirItems w xdev D dev, e = i.event

/-- The entry `e` stems from the call of `process_path` on the operand `p`. -/
def FromRoot (w : World) (xdev : Bool) (p : String) (e : Event) : Prop :=
  e = Event.process_path p ∨
    (e = Event.handle_file p ∧ ∃ st, w.lstat p = some st ∧ st.st_mode = FileType.reg) ∨
    ∃ st, w.lstat p = some st ∧ st.st_mode = FileType.dir ∧ FromDir w xdev p st.st_dev e

/-- The entry `e` stems from the iteration of the drain loop on the queued
path `d`. -/
def FromQueued (w : World) (xdev : Bool) (d : String) (e : Event) : Prop :=
  e = Event.dequeue d ∨ ∃ st, w.lstat d = some st ∧ FromDir w xdev d st.st_dev e

/-- The trace `t2` extends the trace `t1` by entries that all satisfy `P`. -/
def Ext (P : Event → Prop) (t1 t2 : List Event) : Prop :=
  ∃ Δ, t2 = t1 ++ Δ ∧ ∀ e ∈ Δ, P e

/-- Whether a call returned. -/
def Ctl.returned {α : Type} : Ctl α → Bool
  | Ctl.ret _ _ => true
  | Ctl.exit _ _ => false

/-- The steps of the two loops of `main` in a trace, in order. -/
def walkOrder (t : List Event) : List Event :=
  t.filter isWalk

/-! ## The reference level-order traversal -/

/-- The classifier of the specification: kind and volume of a path, without
following links; `none` on a lookup failure. -/
def classify (w : World) (path : String) : Option Stat :=
  w.lstat path

/-- Reference, one entry of a listing: `.` and `..` are skipped, an entry that
cannot be classified is skipped, with the cross-mount restriction an entry on
another volume than `vol` is skipped, a regular file is emitted, a directory
is queued, anything else is skipped. -/
def levelEntry (w : World) (crossMount : Bool) (dir : String) (vol : Nat) (name : String) :
    Option Item :=
  if name = "." ∨ name = ".." then none
  else
    match classify w (dir ++ "/" ++ name) with
    | none => none
    | some st =>
      if crossMount && st.st_dev != vol then none
      else
        match st.st_mode with
        | FileType.reg => some (Item.file (dir ++ "/" ++ name))
        | FileType.dir => some (Item.dir (dir ++ "/" ++ name))
        | FileType.other => none

/-- Reference, processing a directory: its entries in listing order; an
unreadable directory has none. -/
def levelList (w : World) (crossMount : Bool) (dir : String) (vol : Nat) : List Item :=
  match w.readdir dir with
  | none => []
  | some names => names.filterMap (levelEntry w crossMount dir vol)

/-- Reference, the contribution of one root: a regular file contributes
itself, a directory is processed with its own volume as the boundary. -/
def levelRoot (w : World) (crossMount : Bool) (root : String) : List Item :=
  match classify w root with
  | none => []
  | some st =>
    match st.st_mode with
    | FileType.reg => [Item.file root]
    | FileType.dir => levelList w crossMount root st.st_dev
    | FileType.other => []

/-- Reference, the contributions of the roots in caller order. -/
def levelRoots (w : World) (crossMount : Bool) : List String → List Item
  | [] => []
  | r :: rest => levelRoot w crossMount r ++ levelRoots w crossMount rest

/-- Reference, draining the queue first in, first out: the files of the
directory at the head, then the rest of the queue followed by the
subdirectories of the head, in listing order. -/
def levelDrain (w : World) (crossMount : Bool) : Nat → List String → Option (List String)
  | _, [] => some []
  | 0, _ :: _ => none
  | fuel + 1, d :: rest =>
    let here := match classify w d with
      | none => []
      | some st => levelList w crossMount d st.st_dev
    (levelDrain w crossMount fuel (rest ++ dirs here)).map (fun later => files here ++ later)

/-- Reference level-order traversal: the files of the roots in caller order,
then those of the queued directories in queue order. -/
def levelOrder (w : World) (crossMount : Bool) (roots : List String) (fuel : Nat) :
    Option (List String) :=
  (levelDrain w crossMount fuel (dirs (levelRoots w crossMount roots))).map
    (fun later => files (levelRoots w crossMount roots) ++ later)

/-- The system call `lstat` fails on a path that does not fit `PATH_MAX`
(`ENAMETOOLONG`). -/
def LstatBounded (w : World) : Prop :=
  ∀ p, PATH_MAX ≤ p.length → w.lstat p = none

/-! ## Paths and well-formed listings -/

/-- The path `b` lies below the path `a`: it is `a`, a slash, and more. -/
def Below (a b : String) : Prop :=
  ∃ s, b = a ++ "/" ++ s

/-- The listings of the world are those of a file system: no name occurs
twice in a listing and no name contains a slash. -/
def WellFormed (w : World) : Prop :=
  ∀ p names, w.readdir p = some names → names.Nodup ∧ ∀ n ∈ names, '/' ∉ n.data

/-- The operands do not overlap: none occurs twice and none lies below
another. -/
def Separate (roots : List String) : Prop :=
  roots.Nodup ∧ ∀ r1 ∈ roots, ∀ r2 ∈ roots, ¬ Below r1 r2

/-- A unit of work of the walk: an operand handed to `process_path`, or a
queued directory handed to the drain loop. -/
inductive Work where
  | root (p : String)
  | queued (p : String)
deriving DecidableEq, Repr

/-- The path of a unit of work. -/
def Work.path : Work → String
  | Work.root p => p
  | Work.queued p => p

/-- The items of a unit of work. -/
def workItems (w : World) (xdev : Bool) : Work → List Item
  | Work.root p => rootItems w xdev p
  | Work.queued p => queuedItems w xdev p

/-- The items of the walk as one loop over a list of pending work: the head
is processed, the directories it finds are appended as queued work. -/
def workDrain (w : World) (xdev : Bool) : Nat → List Work → List Item
  | _, [] => []
  | 0, _ :: _ => []
  | fuel + 1, x :: rest =>
    workItems w xdev x ++
      workDrain w xdev fuel (rest ++ (dirs (workItems w xdev x)).map Work.queued)

/-- The work the walk gets to: the operands, and the directories found by
processing work it gets to. -/
inductive Visited (w : World) (xdev : Bool) (roots : List String) : Work → Prop where
  | root (r : String) (h : r ∈ roots) : Visited w xdev roots (Work.root r)
  | kid (x : Work) (c : String) (hx : Visited w xdev roots x)
      (hc : c ∈ dirs (workItems w xdev x)) : Visited w xdev roots (Work.queued c)

/-- The path of an item. -/
def Item.path : Item → String
  | Item.file p => p
  | Item.dir p => p

/-- The item `i` is what processing the directory `D`, of volume `dev`, makes
of the entry `n` of its listing. -/
def EntryOf (w : World) (xdev : Bool) (D : String) (dev : Nat) (n : String) (i : Item) :
    Prop :=
  (∃ names, w.readdir D = some names ∧ n ∈ names) ∧ n ≠ "." ∧ n ≠ ".." ∧
    i.path = D ++ "/" ++ n ∧
    ∃ st, w.lstat (D ++ "/" ++ n) = some st ∧ (xdev = true → st.st_dev = dev) ∧
      ((st.st_mode = FileType.reg ∧ i = Item.file (D ++ "/" ++ n)) ∨
        (st.st_mode = FileType.dir ∧ i = Item.dir (D ++ "/" ++ n)))

/-- The invariant of the loop over pending work, with `done` the work
already processed: no path occurs twice among processed and pending work;
each unit is an operand or a directory found by a processed unit; all of it
is visited. -/
structure BfsInv (w : World) (xdev : Bool) (roots : List String) (done pend : List Work) :
    Prop where
  nodup : ((done ++ pend).map Work.path).Nodup
  origin : ∀ x ∈ done ++ pend, (∃ r ∈ roots, x = Work.root r) ∨
    ∃ d ∈ done, ∃ c ∈ dirs (workItems w xdev d), x = Work.queued c
  visited : ∀ x ∈ done ++ pend, Visited w xdev roots x

/-! ## Variants of a world -/

/-- The world `w` with the results of the external action replaced by `sys`. -/
def World.withSystem (w : World) (sys : Nat → String → Int) : World :=
  { w with system := sys }

/-- What a run shows of its result: the exit status and the observation of the
final state, `none` when the fuel ran out. -/
def observe (r : Option (Nat × State)) : Option (Nat × Abs) :=
  r.map (fun x => (x.1, x.2.abs))

/-- The world `w` with the directory `D` readable and empty. -/
def World.emptied (w : World) (D : String) : World :=
  { w with readdir := fun p => if p = D then some [] else w.readdir p }

/-- Whether `lstat` classifies the path as neither a regular file nor a
directory: a symbolic link, a device, a socket. -/
def isOther (w : World) (p : String) : Bool :=
  match w.lstat p with
  | some st => decide (st.st_mode = FileType.other)
  | none => false

/-- The world `w` with every entry that is neither a regular file nor a
directory removed: absent from the listings, and unknown to `lstat`. -/
def World.stripped (w : World) : World :=
  { w with
    lstat := fun p => if isOther w p then none else w.lstat p
    readdir := fun p =>
      (w.readdir p).map (fun names => names.filter (fun n => !isOther w (p ++ "/" ++ n))) }

/-- The tree of `exampleWorld` with `/a/sub` unreadable. -/
def unreadableWorld : World :=
  { exampleWorld with
    readdir := fun p => if p = "/a" then some [".", "..", "f1", "f2", "sub"] else none }

/-- The tree `/a/{f1, link, sub/{f3}}` with `/a/link` a symbolic link to the
directory `/a/sub`; listing a path through the link gives the listing of the
target. -/
def linkWorld : World where
  lstat p :=
    if p = "/a" then some { st_mode := FileType.dir, st_dev := 1 }
    else if p = "/a/f1" then some { st_mode := FileType.reg, st_dev := 1 }
    else if p = "/a/link" then some { st_mode := FileType.other, st_dev := 1 }
    else if p = "/a/sub" then some { st_mode := FileType.dir, st_dev := 1 }
    else if p = "/a/sub/f3" then some { st_mode := FileType.reg, st_dev := 1 }
    else if p = "/a/link/f3" then some { st_mode := FileType.reg, st_dev := 1 }
    else none
  readdir p :=
    if p = "/a" then some [".", "..", "f1", "link", "sub"]
    else if p = "/a/sub" then some [".", "..", "f3"]
    else if p = "/a/link" then some [".", "..", "f3"]
    else none
  system _ _ := 0

/-- The volume id the classifier reports for a path, 0 when the lookup
fails. -/
def volumeOf (w : World) (p : String) : Nat :=
  match classify w p with
  | some st => st.st_dev
  | none => 0

/-- Queue of the specification, step 2: an entry is a path with its
mount-boundary reference.  A dequeued directory is processed with the
reference it was enqueued with, and the directories it finds are appended
with the volume id of the directory that enqueues them. -/
def parentBoundaryDrain (w : World) (xdev : Bool) :
    Nat → List (String × Nat) → List Item × Bool
  | _, [] => ([], true)
  | 0, _ :: _ => ([], false)
  | fuel + 1, (d, ref) :: rest =>
    let here := dirItems w xdev d ref
    let later := parentBoundaryDrain w xdev fuel
      (rest ++ (dirs here).map (fun c => (c, volumeOf w d)))
    (here ++ later.1, later.2)

/-- Step 1 of the specification with the queue of step 2: the items of the
roots, and the queue entries they leave, each with the volume id of the
root that enqueued it. -/
def parentBoundaryRoots (w : World) (xdev : Bool) :
    List String → List Item × List (String × Nat)
  | [] => ([], [])
  | r :: rest =>
    let here := rootItems w xdev r
    let more := parentBoundaryRoots w xdev rest
    (here ++ more.1, (dirs here).map (fun c => (c, volumeOf w r)) ++ more.2)

/-- The walk in which every queued directory is processed with the volume
id of the directory that enqueued it. -/
def parentBoundaryWalk (w : World) (xdev : Bool) (roots : List String) (fuel : Nat) :
    List Item × Bool :=
  let first := parentBoundaryRoots w xdev roots
  let later := parentBoundaryDrain w xdev fuel first.2
  (first.1 ++ later.1, later.2)

/-! ## The gate on a sequence of paths -/

/-- The calls `handle_file(p)` for the paths of a list, in order, as the two
loops of the walk issue them; an exit in one of them ends the sequence. -/
def handle_files (w : World) (cfg : Config) : List String → State → Ctl Unit
  | [], s => Ctl.ret () s
  | p :: rest, s =>
    match handle_file w cfg p s with
    | Ctl.ret _ s1 => handle_files w cfg rest s1
    | Ctl.exit status s1 => Ctl.exit status s1

/-- The tree `/a/{f1}`, in which the directory also answers to the spelling
`/a/` and the file to `/a//f1`, as path resolution has it. -/
def slashWorld : World where
  lstat p :=
    if p = "/a" ∨ p = "/a/" then some { st_mode := FileType.dir, st_dev := 1 }
    else if p = "/a/f1" ∨ p = "/a//f1" then some { st_mode := FileType.reg, st_dev := 1 }
    else none
  readdir p :=
    if p = "/a" ∨ p = "/a/" then some [".", "..", "f1"]
    else none
  system _ _ := 0

/-- The lines printed on standard output, in order. -/
def printed : List Event → List String
  | [] => []
  | Event.stdout line :: t => line :: printed t
  | _ :: t => printed t

/-! ## The commands of a run -/

/-- The commands handed to `system`, in order. -/
def commands : List Event → List String
  | [] => []
  | Event.system c _ :: t => c :: commands t
  | _ :: t => commands t

/-- Whether the entry is the diagnostic of `execute_rewrite` for a command
that does not fit its buffer. -/
def isTooLong : Event → Bool
  | Event.stderr (Msg.commandTooLong _) => true
  | _ => false

/-- The trace `t2` extends `t1` by entries in which every call of
`execute_rewrite` reached the external command: the commands run are those
formatted for the forwarded paths, in order, and no command was too long. -/
def Reaches (cfg : Config) (t1 t2 : List Event) : Prop :=
  ∃ Δ, t2 = t1 ++ Δ ∧ commands Δ = (forwarded Δ).map (rewrite_command cfg) ∧
    ∀ e ∈ Δ, isTooLong e = false

/-- Whether the entry is neither a call of `execute_rewrite`, nor a command,
nor the diagnostic for a command that is too long. -/
def isNeutral : Event → Bool
  | Event.execute_rewrite _ => false
  | Event.system _ _ => false
  | Event.stderr (Msg.commandTooLong _) => false
  | _ => true

/-- A real run with the pass-through option `-v`, as the option loop leaves
it, and no resume path. -/
def verboseConfig : Config :=
  { zfs_opts := "-v ", xdev_flag := false, dry_run_flag := false, resume_file := none }

/-! ## Work tagged with its operand -/

/-- The key of a unit of work tagged with the index of the operand it stems
from: the index and the path. -/
def tagKey (y : Nat × Work) : Nat × String := (y.1, y.2.path)

/-- The operands as pending work, each tagged with its index. -/
def tagRoots (roots : List String) : List (Nat × Work) :=
  roots.enum.map (fun y => (y.1, Work.root y.2))

/-- The directories the loop over pending work queues, each with the index
of the operand it was reached from. -/
def tagDrain (w : World) (xdev : Bool) : Nat → List (Nat × Work) → List (Nat × String)
  | _, [] => []
  | 0, _ :: _ => []
  | fuel + 1, y :: rest =>
    (dirs (workItems w xdev y.2)).map (fun c => (y.1, c)) ++
      tagDrain w xdev fuel
        (rest ++ (dirs (workItems w xdev y.2)).map (fun c => (y.1, Work.queued c)))

/-- The invariant of the loop over tagged pending work, with `done` the work
already processed: no path occurs twice with the same operand index; each
unit is its operand or a directory found by a processed unit of the same
index; each unit is its operand or lies below it. -/
structure TagInv (w : World) (xdev : Bool) (roots : List String)
    (done pend : List (Nat × Work)) : Prop where
  nodup : ((done ++ pend).map tagKey).Nodup
  origin : ∀ y ∈ done ++ pend, (∃ r, roots[y.1]? = some r ∧ y.2 = Work.root r) ∨
    ∃ d ∈ done, d.1 = y.1 ∧ ∃ c ∈ dirs (workItems w xdev d.2), y.2 = Work.queued c
  under : ∀ y ∈ done ++ pend,
    ∃ r, roots[y.1]? = some r ∧ (y.2.path = r ∨ Below r y.2.path)

/-! ## Lemmas: observations -/

@[simp] theorem emitted_append (a b : List Event) : emitted (a ++ b) = emitted a ++ emitted b := by
  induction a with
  | nil => rfl
  | cons e t ih => cases e <;> simp [emitted, ih]

@[simp] theorem forwarded_append (a b : List Event) :
    forwarded (a ++ b) = forwarded a ++ forwarded b := by
  induction a with
  | nil => rfl
  | cons e t ih => cases e <;> simp [forwarded, ih]

@[simp] theorem found_append (a b : List Event) : found (a ++ b) = found a ++ found b := by
  induction a with
  | nil => rfl
  | cons e t ih =>
    cases e with
    | stderr m => cases m <;> simp [found, ih]
    | _ => simp [found, ih]

@[simp] theorem files_append (a b : List Item) : files (a ++ b) = files a ++ files b := by
  induction a with
  | nil => rfl
  | cons e t ih => cases e <;> simp [files, ih]

@[simp] theorem dirs_append (a b : List Item) : dirs (a ++ b) = dirs a ++ dirs b := by
  induction a with
  | nil => rfl
  | cons e t ih => cases e <;> simp [dirs, ih]

theorem feedAll_append (cfg : Config) (a b : List Item) (x : Abs) :
    feedAll cfg (a ++ b) x = feedAll cfg b (feedAll cfg a x) := by
  induction a generalizing x with
  | nil => rfl
  | cons e t ih => simp [feedAll, ih]

theorem cutAt_of_no_halt (cfg : Config) (L : List Item) (h : ∀ i ∈ L, halts cfg i = false) :
    cutAt cfg L = L := by
  induction L with
  | nil => rfl
  | cons e t ih =>
    have he : halts cfg e = false := h e (by simp)
    simp [cutAt, he, ih (fun i hi => h i (by simp [hi]))]

theorem cutAt_append_of_no_halt (cfg : Config) (a b : List Item)
    (h : ∀ i ∈ a, halts cfg i = false) : cutAt cfg (a ++ b) = a ++ cutAt cfg b := by
  induction a with
  | nil => rfl
  | cons e t ih =>
    have he : halts cfg e = false := h e (by simp)
    simp [cutAt, he, ih (fun i hi => h i (by simp [hi]))]

theorem cutAt_append_of_halt (cfg : Config) (a b : List Item)
    (h : ∃ i ∈ a, halts cfg i = true) : cutAt cfg (a ++ b) = cutAt cfg a := by
  induction a with
  | nil => simp at h
  | cons e t ih =>
    by_cases he : halts cfg e = true
    · simp [cutAt, he]
    · obtain ⟨i, hi, hh⟩ := h
      have : ∃ i ∈ t, halts cfg i = true := by
        rcases List.mem_cons.1 hi with rfl | hi
        · exact absurd hh he
        · exact ⟨i, hi, hh⟩
      simp [cutAt, he, ih this]

/-! ## Lemmas: composing simulations -/

theorem Sim.nil {α : Type} (cfg : Config) (s : State) (a : α) : Sim cfg s [] (Ctl.ret a s) := by
  simp [Sim, feedAll]

theorem Sim.seq {α β : Type} {cfg : Config} {s s1 : State} {L1 L2 : List Item} {a : α}
    {r : Ctl β} (h1 : Sim cfg s L1 (Ctl.ret a s1)) (h2 : Sim cfg s1 L2 r) :
    Sim cfg s (L1 ++ L2) r := by
  obtain ⟨hn, ha⟩ := h1
  cases r with
  | ret b s2 =>
    obtain ⟨hn2, ha2⟩ := h2
    refine ⟨?_, ?_⟩
    · intro i hi
      rcases List.mem_append.1 hi with hi | hi
      · exact hn i hi
      · exact hn2 i hi
    · rw [feedAll_append, ← ha, ha2]
  | exit c s2 =>
    obtain ⟨⟨i, hi, hh⟩, hc, ha2, he⟩ := h2
    refine ⟨⟨i, List.mem_append_right _ hi, hh⟩, hc, ?_, he⟩
    rw [cutAt_append_of_no_halt cfg _ _ hn, feedAll_append, ← ha, ha2]

theorem Sim.halt {α β : Type} {cfg : Config} {s s1 : State} {L1 : List Item} {c : Nat}
    (h1 : Sim cfg s L1 (Ctl.exit c s1 : Ctl α)) (L2 : List Item) :
    Sim cfg s (L1 ++ L2) (Ctl.exit c s1 : Ctl β) := by
  obtain ⟨⟨i, hi, hh⟩, hc, ha, he⟩ := h1
  exact ⟨⟨i, List.mem_append_left _ hi, hh⟩, hc,
    by rw [cutAt_append_of_halt cfg _ _ ⟨i, hi, hh⟩, ha], he⟩

/-! ## Lemmas: each function against the gate on items -/

theorem execute_rewrite_abs (w : World) (cfg : Config) (p : String) (s : State) :
    (execute_rewrite w cfg p s).abs =
      { s.abs with forwarded := s.abs.forwarded ++ [p] } := by
  unfold execute_rewrite
  simp only [State.emit]
  split
  · simp [State.abs, emitted, forwarded, found]
  · split <;> simp [State.abs, emitted, forwarded, found]

theorem handle_file_sim (w : World) (cfg : Config) (p : String) (s : State) :
    Sim cfg s [Item.file p] (handle_file w cfg p s) := by
  unfold handle_file
  by_cases hd : cfg.dry_run_flag = true
  · by_cases hr : cfg.resume_file = some p
    · simp only [hd, hr, if_true]
      refine ⟨⟨Item.file p, by simp, by simp [halts, hd, hr]⟩, rfl, ?_, ?_⟩
      · have hh : halts cfg (Item.file p) = true := by simp [halts, hd, hr]
        simp only [cutAt, hh, if_true, feedAll, feed, hd]
        split <;> simp [State.abs, State.emit, emitted, forwarded, found]
      · refine ⟨s.trace, p, hr, hd, ?_⟩
        split <;> simp [State.emit]
    · simp only [hd, hr, if_true, if_false]
      refine ⟨?_, ?_⟩
      · intro i hi
        simp at hi
        subst hi
        simp [halts, hr]
      · simp only [feedAll, feed, hd, if_true]
        split <;> simp [State.abs, State.emit, emitted, forwarded, found]
  · have hd2 : cfg.dry_run_flag = false := by simpa using hd
    simp only [hd2, Bool.false_eq_true, if_false]
    have hh : ∀ i ∈ [Item.file p], halts cfg i = false := by
      intro i hi
      simp at hi
      subst hi
      simp [halts, hd2]
    by_cases hp : s.process_files = true
    · have e1 : (s.emit (Event.handle_file p)).process_files = true := by simp [State.emit, hp]
      simp only [e1, Bool.not_true, Bool.false_eq_true, if_false, if_true]
      refine ⟨hh, ?_⟩
      rw [execute_rewrite_abs]
      simp [feedAll, feed, hd2, State.abs, State.emit, emitted, forwarded, found, hp]
    · have hp2 : s.process_files = false := by simpa using hp
      have e1 : (s.emit (Event.handle_file p)).process_files = false := by
        simp [State.emit, hp2]
      simp only [e1, Bool.not_false, if_true]
      by_cases hr : cfg.resume_file = some p
      · simp only [hr, if_true]
        refine ⟨hh, ?_⟩
        rw [execute_rewrite_abs]
        simp [feedAll, feed, hd2, State.abs, State.emit, emitted, forwarded, found, hp2, hr]
      · simp only [hr, if_false, e1, Bool.false_eq_true]
        refine ⟨hh, ?_⟩
        simp [feedAll, feed, hd2, State.abs, State.emit, emitted, forwarded, found, hp2, hr]

theorem emit_abs_stderr (s : State) (m : Msg) (h : ∀ p, m ≠ Msg.resumeFound p) :
    (s.emit (Event.stderr m)).abs = s.abs := by
  cases m <;> simp_all [State.abs, State.emit, emitted, forwarded, found]

theorem add_to_dir_queue_abs (p : String) (s : State) :
    (add_to_dir_queue p s).abs = { s.abs with queue := s.abs.queue ++ [p] } := by
  simp [add_to_dir_queue, State.abs, State.emit, emitted, forwarded, found]

theorem Sim.skip {α : Type} (cfg : Config) {s s1 : State} (a : α) (h : s1.abs = s.abs) :
    Sim cfg s [] (Ctl.ret a s1) := by
  simp [Sim, feedAll, h]

theorem Sim.toInt {cfg : Config} {s : State} {L : List Item} {r : Ctl Unit} (v : Int)
    (h : Sim cfg s L r) :
    Sim cfg s L (match r with
      | Ctl.ret _ s1 => Ctl.ret v s1
      | Ctl.exit status s1 => (Ctl.exit status s1 : Ctl Int)) := by
  cases r <;> exact h

theorem Sim.of_abs {α : Type} {cfg : Config} {s t : State} {L : List Item} {r : Ctl α}
    (h : Sim cfg s L r) (e : t.abs = s.abs) : Sim cfg t L r := by
  cases r <;> simpa [Sim, e] using h

theorem handle_directory_entry_sim (w : World) (cfg : Config) (path : String) (dev : Nat)
    (name : String) (s : State) :
    Sim cfg s (entryItem w cfg.xdev_flag path dev name).toList
      (handle_directory_entry w cfg path dev name s) := by
  unfold handle_directory_entry entryItem
  by_cases hn : name = "." ∨ name = ".."
  · simp only [hn, if_true]
    exact Sim.nil cfg s ()
  · simp only [hn, if_false]
    by_cases hl : (path ++ "/" ++ name).length ≥ PATH_MAX
    · simp only [hl, if_true]
      exact Sim.skip cfg () (emit_abs_stderr _ _ (by simp))
    · simp only [hl, if_false]
      cases hst : w.lstat (path ++ "/" ++ name) with
      | none => exact Sim.skip cfg () (emit_abs_stderr _ _ (by simp))
      | some st =>
        simp only []
        by_cases hx : (cfg.xdev_flag && st.st_dev != dev) = true
        · simp only [hx, if_true]
          exact Sim.nil cfg s ()
        · simp only [hx, if_false]
          cases hm : st.st_mode with
          | reg => exact handle_file_sim w cfg _ s
          | dir =>
            simp only [Option.toList]
            refine ⟨?_, ?_⟩
            · intro i hi
              simp at hi
              subst hi
              rfl
            · rw [add_to_dir_queue_abs]
              rfl
          | other => exact Sim.nil cfg s ()

theorem handle_directory_loop_sim (w : World) (cfg : Config) (path : String) (dev : Nat)
    (names : List String) (s : State) :
    Sim cfg s (names.filterMap (entryItem w cfg.xdev_flag path dev))
      (handle_directory_loop w cfg path dev names s) := by
  induction names generalizing s with
  | nil => exact Sim.nil cfg s ()
  | cons name rest ih =>
    have h1 := handle_directory_entry_sim w cfg path dev name s
    have hL : (name :: rest).filterMap (entryItem w cfg.xdev_flag path dev) =
        (entryItem w cfg.xdev_flag path dev name).toList ++
          rest.filterMap (entryItem w cfg.xdev_flag path dev) := by
      cases h : entryItem w cfg.xdev_flag path dev name <;> simp [List.filterMap_cons, h]
    rw [hL]
    unfold handle_directory_loop
    cases hr : handle_directory_entry w cfg path dev name s with
    | ret a s1 =>
      rw [hr] at h1
      exact Sim.seq h1 (ih s1)
    | exit c s1 =>
      rw [hr] at h1
      exact Sim.halt h1 _

theorem emit_abs_ghost (s : State) (e : Event)
    (h1 : ∀ p, e ≠ Event.handle_file p) (h2 : ∀ p, e ≠ Event.execute_rewrite p)
    (h3 : ∀ m, e ≠ Event.stderr m) :
    (s.emit e).abs = s.abs := by
  cases e <;> simp_all [State.abs, State.emit, emitted, forwarded, found]

theorem handle_directory_sim (w : World) (cfg : Config) (path : String) (dev : Nat)
    (s : State) :
    Sim cfg s (dirItems w cfg.xdev_flag path dev) (handle_directory w cfg path dev s) := by
  unfold handle_directory dirItems
  have e0 : (s.emit (Event.handle_directory path dev)).abs = s.abs :=
    emit_abs_ghost _ _ (by simp) (by simp) (by simp)
  cases hrd : w.readdir path with
  | none =>
    exact Sim.skip cfg 1 (by rw [emit_abs_stderr _ _ (by simp), e0])
  | some names =>
    simp only []
    have h := handle_directory_loop_sim w cfg path dev names
      (s.emit (Event.handle_directory path dev))
    exact (Sim.toInt 0 h).of_abs e0.symm

theorem process_path_sim (w : World) (cfg : Config) (path : String) (s : State) :
    Sim cfg s (rootItems w cfg.xdev_flag path) (process_path w cfg path s) := by
  unfold process_path rootItems
  have e0 : (s.emit (Event.process_path path)).abs = s.abs :=
    emit_abs_ghost _ _ (by simp) (by simp) (by simp)
  cases hst : w.lstat path with
  | none => exact Sim.skip cfg 1 (by rw [emit_abs_stderr _ _ (by simp), e0])
  | some st =>
    simp only []
    cases hm : st.st_mode with
    | reg =>
      exact (Sim.toInt 0 (handle_file_sim w cfg path _)).of_abs e0.symm
    | dir =>
      have h := handle_directory_sim w cfg path st.st_dev (s.emit (Event.process_path path))
      simp only []
      cases hr : handle_directory w cfg path st.st_dev (s.emit (Event.process_path path)) with
      | ret a s1 => rw [hr] at h; exact Sim.of_abs (r := Ctl.ret 0 s1) h e0.symm
      | exit c s1 => rw [hr] at h; exact Sim.of_abs (r := (Ctl.exit c s1 : Ctl Int)) h e0.symm
    | other => exact Sim.skip cfg 0 e0

theorem main_roots_sim (w : World) (cfg : Config) (roots : List String) (s : State) :
    Sim cfg s (rootsItems w cfg.xdev_flag roots) (main_roots w cfg roots s) := by
  induction roots generalizing s with
  | nil => exact Sim.nil cfg s ()
  | cons r rest ih =>
    unfold main_roots rootsItems
    have h1 := process_path_sim w cfg r s
    cases hr : process_path w cfg r s with
    | ret a s1 =>
      rw [hr] at h1
      exact Sim.seq h1 (ih s1)
    | exit c s1 =>
      rw [hr] at h1
      exact Sim.halt h1 _

theorem feedAll_queue (cfg : Config) (L : List Item) (a : Abs) :
    (feedAll cfg L a).queue = a.queue ++ dirs L := by
  induction L generalizing a with
  | nil => simp [feedAll, dirs]
  | cons i t ih =>
    cases i with
    | file p =>
      by_cases hd : cfg.dry_run_flag = true <;> simp [feedAll, ih, dirs, feed, hd]
    | dir p => simp [feedAll, ih, dirs, feed]

theorem feedAll_emitted (cfg : Config) (L : List Item) (a : Abs) :
    (feedAll cfg L a).emitted = a.emitted ++ files L := by
  induction L generalizing a with
  | nil => simp [feedAll, files]
  | cons i t ih =>
    cases i with
    | file p =>
      by_cases hd : cfg.dry_run_flag = true <;> simp [feedAll, ih, files, feed, hd]
    | dir p => simp [feedAll, ih, files, feed]

theorem drainSim_seq {cfg : Config} {s s1 : State} {L1 : List Item} {a : Unit}
    {ref : List Item × Bool} {r : Option (Ctl Unit)}
    (h1 : Sim cfg s L1 (Ctl.ret a s1)) (h2 : DrainSim cfg s1 ref r) :
    DrainSim cfg s (L1 ++ ref.1, ref.2) r := by
  cases r with
  | none =>
    refine ⟨h2.1, ?_⟩
    intro i hi
    rcases List.mem_append.1 hi with hi | hi
    · exact h1.1 i hi
    · exact h2.2 i hi
  | some r =>
    cases r with
    | ret b s2 => exact ⟨h2.1, Sim.seq h1 h2.2⟩
    | exit c s2 =>
      have h3 : Sim cfg s1 ref.1 (Ctl.exit c s2 : Ctl Unit) := h2
      exact Sim.seq h1 h3

theorem main_drain_sim (w : World) (cfg : Config) (fuel idx : Nat) (s : State) :
    DrainSim cfg s (drainItems w cfg.xdev_flag fuel (s.dir_queue.drop idx))
      (main_drain w cfg fuel idx s) := by
  induction fuel generalizing idx s with
  | zero =>
    unfold main_drain
    cases hq : s.dir_queue[idx]? with
    | none =>
      have : s.dir_queue.drop idx = [] := by
        rw [List.drop_eq_nil_iff]
        exact List.getElem?_eq_none_iff.1 hq
      rw [this]
      exact ⟨rfl, Sim.nil cfg s ()⟩
    | some d =>
      have hlt : idx < s.dir_queue.length := (List.getElem?_eq_some_iff.1 hq).1
      have : s.dir_queue.drop idx = d :: s.dir_queue.drop (idx + 1) := by
        rw [List.drop_eq_getElem_cons hlt]
        congr
        exact (List.getElem?_eq_some_iff.1 hq).2
      rw [this]
      exact ⟨rfl, by simp [drainItems]⟩
  | succ fuel ih =>
    unfold main_drain
    cases hq : s.dir_queue[idx]? with
    | none =>
      have : s.dir_queue.drop idx = [] := by
        rw [List.drop_eq_nil_iff]
        exact List.getElem?_eq_none_iff.1 hq
      rw [this]
      exact ⟨rfl, Sim.nil cfg s ()⟩
    | some d =>
      have hlt : idx < s.dir_queue.length := (List.getElem?_eq_some_iff.1 hq).1
      have hdrop : s.dir_queue.drop idx = d :: s.dir_queue.drop (idx + 1) := by
        rw [List.drop_eq_getElem_cons hlt]
        congr
        exact (List.getElem?_eq_some_iff.1 hq).2
      rw [hdrop]
      simp only [drainItems]
      have e0 : (s.emit (Event.dequeue d)).abs = s.abs :=
        emit_abs_ghost _ _ (by simp) (by simp) (by simp)
      cases hst : w.lstat d with
      | none =>
        simp only []
        have e1 : ((s.emit (Event.dequeue d)).emit
            (Event.stderr (Msg.cannotStatQueued d))).abs = s.abs := by
          rw [emit_abs_stderr _ _ (by simp), e0]
        have hqi : queuedItems w cfg.xdev_flag d = [] := by simp [queuedItems, hst]
        have h2 := ih (idx + 1) ((s.emit (Event.dequeue d)).emit
            (Event.stderr (Msg.cannotStatQueued d)))
        have hq2 : ((s.emit (Event.dequeue d)).emit
            (Event.stderr (Msg.cannotStatQueued d))).dir_queue = s.dir_queue := rfl
        rw [hq2] at h2
        rw [hqi]
        simp only [dirs, List.append_nil, List.nil_append]
        have := drainSim_seq (Sim.skip cfg () e1) h2
        simpa using this
      | some st =>
        simp only []
        have hqi : queuedItems w cfg.xdev_flag d = dirItems w cfg.xdev_flag d st.st_dev := by
          simp [queuedItems, hst]
        have h1 := (handle_directory_sim w cfg d st.st_dev (s.emit (Event.dequeue d))).of_abs
          e0.symm
        rw [hqi]
        cases hr : handle_directory w cfg d st.st_dev (s.emit (Event.dequeue d)) with
        | ret a s1 =>
          rw [hr] at h1
          simp only []
          have hq1 : s1.dir_queue = s.dir_queue ++ dirs (dirItems w cfg.xdev_flag d st.st_dev) := by
            have := congrArg Abs.queue h1.2
            rw [feedAll_queue] at this
            exact this
          have h2 := ih (idx + 1) s1
          rw [hq1, List.drop_append_of_le_length (by omega)] at h2
          exact drainSim_seq (a := ()) h1 h2
        | exit c s1 =>
          rw [hr] at h1
          exact Sim.halt (β := Unit) h1
            (drainItems w cfg.xdev_flag fuel (List.drop (idx + 1) s.dir_queue ++
              dirs (dirItems w cfg.xdev_flag d st.st_dev))).1

theorem main_finish_fst (cfg : Config) (s t : State) (h : t.process_files = s.process_files) :
    (main_finish cfg t).1 = (main_finish cfg s).1 := by
  unfold main_finish
  rw [h]
  split
  · rfl
  · split <;> rfl

theorem main_finish_abs (cfg : Config) (s : State) : (main_finish cfg s).2.abs = s.abs := by
  unfold main_finish
  split
  · exact emit_abs_stderr _ _ (by simp)
  · split <;> exact emit_abs_stderr _ _ (by simp)

theorem main_start_abs (cfg : Config) : (main_start cfg State.init).abs = startAbs cfg := by
  unfold main_start startAbs
  cases hr : cfg.resume_file <;> cases hd : cfg.dry_run_flag <;>
    simp [State.abs, State.emit, State.init, emitted, forwarded, found]

theorem main_run_eq (w : World) (cfg : Config) (prog : String) (roots : List String)
    (fuel : Nat) (s : State) (hroots : roots ≠ []) :
    main_run w cfg prog roots fuel s =
      match main_roots w cfg roots (main_start cfg s) with
      | Ctl.exit status s1 => some (status, s1)
      | Ctl.ret _ s1 =>
        match main_drain w cfg fuel 0 s1 with
        | none => none
        | some (Ctl.exit status s2) => some (status, s2)
        | some (Ctl.ret _ s2) => some (main_finish cfg s2) := by
  unfold main_run
  rw [if_neg hroots]

theorem main_run_sim (w : World) (cfg : Config) (prog : String) (roots : List String)
    (fuel : Nat) (hroots : roots ≠ []) :
    RunSim cfg (walkItems w cfg.xdev_flag roots fuel)
      (main_run w cfg prog roots fuel State.init) := by
  rw [main_run_eq w cfg prog roots fuel State.init hroots]
  have h1 := main_roots_sim w cfg roots (main_start cfg State.init)
  have ha := main_start_abs cfg
  unfold walkItems
  cases hr : main_roots w cfg roots (main_start cfg State.init) with
  | exit c s1 =>
    rw [hr] at h1
    have h2 : Sim cfg (main_start cfg State.init) (rootsItems w cfg.xdev_flag roots ++
        (drainItems w cfg.xdev_flag fuel (dirs (rootsItems w cfg.xdev_flag roots))).1)
        (Ctl.exit c s1 : Ctl Unit) := Sim.halt h1 _
    obtain ⟨h21, h22, h23, h24⟩ := h2
    exact Or.inl ⟨h21, h22, by rw [h23, ha], h24⟩
  | ret a s1 =>
    rw [hr] at h1
    have hq : s1.dir_queue = dirs (rootsItems w cfg.xdev_flag roots) := by
      have := congrArg Abs.queue h1.2
      rw [feedAll_queue, ha] at this
      simpa [startAbs] using this
    have h2 := main_drain_sim w cfg fuel 0 s1
    rw [List.drop_zero, hq] at h2
    have h3 := drainSim_seq h1 h2
    simp only []
    cases hd : main_drain w cfg fuel 0 s1 with
    | none =>
      rw [hd] at h3
      exact h3
    | some r =>
      rw [hd] at h3
      cases r with
      | exit c s2 =>
        obtain ⟨h21, h22, h23, h24⟩ := h3
        exact Or.inl ⟨h21, h22, by rw [h23, ha], h24⟩
      | ret b s2 =>
        obtain ⟨h31, h32, h33⟩ := h3
        refine Or.inr ⟨h32, h31, ?_, ?_⟩
        · exact (main_finish_abs cfg s2).trans (by rw [h33, ha])
        · have : (main_finish cfg s2).2.process_files = s2.process_files :=
            congrArg Abs.pf (main_finish_abs cfg s2)
          exact (main_finish_fst cfg s2 _ this).symm

theorem main_getopt_state (prog : String) (opts : List Opt) (cfg cfg2 : Config)
    (s s2 : State) (h : main_getopt prog opts cfg s = Ctl.ret cfg2 s2) : s2 = s := by
  induction opts generalizing cfg with
  | nil =>
    simp only [main_getopt, Ctl.ret.injEq] at h
    exact h.2.symm
  | cons o rest ih =>
    cases o <;> simp only [main_getopt] at h
    · exact ih _ h
    · exact ih _ h
    · exact ih _ h
    · exact ih _ h
    · exact ih _ h
    · exact ih _ h
    · exact absurd h (by simp)
    · exact absurd h (by simp)

/-- When the option loop returns, `main` is `main_run` on the globals the
loop has set, from the initial state. -/
theorem main_eq_main_run (w : World) (prog : String) (opts : List Opt) (roots : List String)
    (fuel : Nat) (cfg : Config) (s : State)
    (h : main_getopt prog opts Config.init State.init = Ctl.ret cfg s) :
    main w prog opts roots fuel = main_run w cfg prog roots fuel State.init := by
  have hs := main_getopt_state prog opts _ _ _ _ h
  subst hs
  unfold main
  rw [h]

/-! ## Lemmas: the gate on a list of items -/

theorem halts_real (cfg : Config) (hd : cfg.dry_run_flag = false) (i : Item) :
    halts cfg i = false := by
  cases i <;> simp [halts, hd]

theorem feedAll_dry (cfg : Config) (hd : cfg.dry_run_flag = true) (L : List Item) (a : Abs) :
    feedAll cfg L a =
      { a with queue := a.queue ++ dirs L, emitted := a.emitted ++ files L } := by
  induction L generalizing a with
  | nil => simp [feedAll, dirs, files]
  | cons i t ih => cases i <;> simp [feedAll, feed, hd, ih, dirs, files]

theorem feedAll_on (cfg : Config) (hd : cfg.dry_run_flag = false) (L : List Item) (a : Abs)
    (hp : a.pf = true) :
    feedAll cfg L a =
      { a with queue := a.queue ++ dirs L, emitted := a.emitted ++ files L,
               forwarded := a.forwarded ++ files L } := by
  induction L generalizing a with
  | nil => simp [feedAll, dirs, files]
  | cons i t ih =>
    cases i with
    | file p =>
      simp only [feedAll, feed, hd, hp, Bool.false_eq_true, if_false, Bool.true_or, if_true]
      rw [ih _ rfl]
      simp [files, dirs, hp]
    | dir p =>
      simp only [feedAll, feed]
      rw [ih]
      · simp [files, dirs]
      · exact hp

theorem feedAll_off (cfg : Config) (hd : cfg.dry_run_flag = false) (L : List Item) (a : Abs)
    (hp : a.pf = false) (hmiss : ∀ p ∈ files L, cfg.resume_file ≠ some p) :
    feedAll cfg L a =
      { a with queue := a.queue ++ dirs L, emitted := a.emitted ++ files L } := by
  induction L generalizing a with
  | nil => simp [feedAll, dirs, files]
  | cons i t ih =>
    cases i with
    | file p =>
      have h1 : cfg.resume_file ≠ some p := hmiss p (by simp [files])
      have h2 : ∀ q ∈ files t, cfg.resume_file ≠ some q :=
        fun q hq => hmiss q (by simp [files, hq])
      simp only [feedAll, feed, hd, hp, Bool.false_eq_true, if_false, Bool.false_or, h1,
        decide_False]
      rw [ih]
      · simp [files, dirs, hp]
      · rfl
      · exact h2
    | dir p =>
      simp only [feedAll, feed]
      rw [ih]
      · simp [files, dirs]
      · exact hp
      · exact fun q hq => hmiss q (by simpa [files] using hq)

theorem feedAll_hit (cfg : Config) (hd : cfg.dry_run_flag = false) (r : String)
    (hr : cfg.resume_file = some r) (L : List Item) (a : Abs) (hp : a.pf = false)
    (hin : r ∈ files L) :
    feedAll cfg L a =
      { pf := true, queue := a.queue ++ dirs L, emitted := a.emitted ++ files L,
        forwarded := a.forwarded ++ (files L).dropWhile (fun p => p != r),
        found := a.found ++ [r] } := by
  induction L generalizing a with
  | nil => simp [files] at hin
  | cons i t ih =>
    cases i with
    | file p =>
      by_cases hpr : p = r
      · subst hpr
        simp only [feedAll, feed, hd, hp, Bool.false_eq_true, if_false, Bool.false_or, hr,
          decide_True, if_true]
        rw [feedAll_on cfg hd t _ rfl]
        simp [files, dirs, List.dropWhile]
      · have h1 : cfg.resume_file ≠ some p := by
          rw [hr]
          intro h
          exact hpr (Option.some.inj h).symm
        have h2 : r ∈ files t := by
          simp only [files, List.mem_cons] at hin
          rcases hin with h | h
          · exact absurd h.symm hpr
          · exact h
        simp only [feedAll, feed, hd, hp, Bool.false_eq_true, if_false, Bool.false_or, h1,
          decide_False]
        have hpr2 : (p != r) = true := by simpa using hpr
        rw [ih]
        · simp [files, dirs, List.dropWhile, hpr2]
        · rfl
        · exact h2
    | dir p =>
      simp only [feedAll, feed]
      rw [ih]
      · simp [files, dirs]
      · exact hp
      · simpa [files] using hin

theorem dropWhile_ne_eq_drop (r : String) (E : List String) (k : Nat)
    (hk : E[k]? = some r) (hfirst : ∀ j, j < k → E[j]? ≠ some r) :
    E.dropWhile (fun p => p != r) = E.drop k := by
  induction E generalizing k with
  | nil => simp at hk
  | cons e t ih =>
    cases k with
    | zero =>
      simp at hk
      subst hk
      simp [List.dropWhile]
    | succ k =>
      have he : e ≠ r := by
        have := hfirst 0 (by omega)
        simpa using this
      have := ih k (by simpa using hk) (fun j hj => by
        have := hfirst (j + 1) (by omega)
        simpa using this)
      have he2 : (e != r) = true := by simpa using he
      simp [List.dropWhile, he2, this]

/-! ## Lemmas: the real run -/

theorem main_run_no_roots (w : World) (cfg : Config) (prog : String) (fuel : Nat)
    (code : Nat) (s : State)
    (h : main_run w cfg prog [] fuel State.init = some (code, s)) :
    code = EXIT_FAILURE ∧ s.abs = State.init.abs := by
  unfold main_run at h
  simp only [if_true, Option.some.injEq, Prod.mk.injEq] at h
  obtain ⟨h1, h2⟩ := h
  subst h1 h2
  refine ⟨rfl, ?_⟩
  rw [emit_abs_stderr _ _ (by simp), emit_abs_stderr _ _ (by simp)]

theorem main_run_real (w : World) (cfg : Config) (prog : String) (roots : List String)
    (fuel : Nat) (code : Nat) (s : State) (hd : cfg.dry_run_flag = false)
    (hroots : roots ≠ [])
    (h : main_run w cfg prog roots fuel State.init = some (code, s)) :
    (walkItems w cfg.xdev_flag roots fuel).2 = true ∧
      s.abs = feedAll cfg (walkItems w cfg.xdev_flag roots fuel).1 (startAbs cfg) ∧
      code = (main_finish cfg s).1 := by
  have hs := main_run_sim w cfg prog roots fuel hroots
  rw [h] at hs
  rcases hs with ⟨⟨i, _, hi⟩, _⟩ | ⟨_, h2, h3, h4⟩
  · rw [halts_real cfg hd i] at hi
    exact absurd hi (by simp)
  · exact ⟨h2, h3, h4⟩

theorem startAbs_pf_none (cfg : Config) (h : cfg.resume_file = none) :
    (startAbs cfg).pf = true := by
  simp [startAbs, h]

theorem startAbs_pf_resume (cfg : Config) (r : String) (h : cfg.resume_file = some r)
    (hd : cfg.dry_run_flag = false) : (startAbs cfg).pf = false := by
  simp [startAbs, h, hd]

theorem abs_emitted (s : State) : s.abs.emitted = emitted s.trace := rfl

theorem abs_forwarded (s : State) : s.abs.forwarded = forwarded s.trace := rfl

theorem abs_found (s : State) : s.abs.found = found s.trace := rfl

theorem abs_pf (s : State) : s.abs.pf = s.process_files := rfl

theorem abs_queue (s : State) : s.abs.queue = s.dir_queue := rfl

theorem handle_file_mode (w : World) (cfg : Config) (p : String) (s : State) :
    (handle_file w cfg p s).state.process_files = s.process_files ∨
      (s.process_files = false ∧ (handle_file w cfg p s).state.process_files = true ∧
        cfg.resume_file = some p ∧ cfg.dry_run_flag = false) := by
  have h := handle_file_sim w cfg p s
  cases hr : handle_file w cfg p s with
  | ret a s1 =>
    rw [hr] at h
    have hpf := congrArg Abs.pf h.2
    simp only [feedAll, feed, abs_pf] at hpf
    simp only [Ctl.state]
    by_cases hd : cfg.dry_run_flag = true
    · left
      simpa [hd] using hpf
    · simp only [hd, if_false] at hpf
      cases hs : s.process_files with
      | true => left; simpa [hs, abs_pf] using hpf
      | false =>
        by_cases hres : cfg.resume_file = some p
        · right
          refine ⟨rfl, ?_, hres, by simpa using hd⟩
          simpa [hs, abs_pf, hres] using hpf
        · left
          simpa [hs, abs_pf, hres] using hpf
  | exit c s1 =>
    rw [hr] at h
    obtain ⟨⟨i, hi, hh⟩, _, h3, _⟩ := h
    simp at hi
    subst hi
    have hd : cfg.dry_run_flag = true := by
      simp [halts] at hh
      exact hh.1
    have hpf := congrArg Abs.pf h3
    simp only [cutAt, hh, if_true, feedAll, feed, hd, abs_pf] at hpf
    left
    exact hpf

theorem feedAll_pf_on (cfg : Config) (L : List Item) (a : Abs) (h : a.pf = true) :
    (feedAll cfg L a).pf = true := by
  by_cases hd : cfg.dry_run_flag = true
  · rw [feedAll_dry cfg hd]
    exact h
  · rw [feedAll_on cfg (by simpa using hd) L a h]
    exact h

theorem Sim.pf_on {α : Type} {cfg : Config} {s : State} {L : List Item} {r : Ctl α}
    (h : Sim cfg s L r) (hp : s.process_files = true) : r.state.process_files = true := by
  cases r with
  | ret a s1 =>
    have := congrArg Abs.pf h.2
    rw [abs_pf, feedAll_pf_on cfg L _ (by simpa [abs_pf] using hp)] at this
    exact this
  | exit c s1 =>
    have := congrArg Abs.pf h.2.2.1
    rw [abs_pf, feedAll_pf_on cfg _ _ (by simpa [abs_pf] using hp)] at this
    exact this

theorem main_run_abs (w : World) (cfg : Config) (prog : String) (roots : List String)
    (fuel : Nat) (code : Nat) (s : State) (hroots : roots ≠ [])
    (hrun : main_run w cfg prog roots fuel State.init = some (code, s)) :
    ∃ L, s.abs = feedAll cfg L (startAbs cfg) := by
  have hs := main_run_sim w cfg prog roots fuel hroots
  rw [hrun] at hs
  rcases hs with ⟨_, _, h, _⟩ | ⟨_, _, h, _⟩
  · exact ⟨_, h⟩
  · exact ⟨_, h⟩

/-- The gate part of the observation after the whole walk. -/
theorem run_found (w : World) (cfg : Config) (prog : String) (roots : List String)
    (fuel : Nat) (code : Nat) (s : State) (hroots : roots ≠ [])
    (hrun : main_run w cfg prog roots fuel State.init = some (code, s)) :
    (found s.trace = [] ∧ s.process_files = (main_start cfg State.init).process_files ∧
        (cfg.dry_run_flag = false → ∀ r, cfg.resume_file = some r → r ∉ emitted s.trace)) ∨
      (∃ r, cfg.resume_file = some r ∧ cfg.dry_run_flag = false ∧ found s.trace = [r] ∧
        (main_start cfg State.init).process_files = false ∧ s.process_files = true ∧
        r ∈ emitted s.trace) := by
  obtain ⟨L, h⟩ := main_run_abs w cfg prog roots fuel code s hroots hrun
  have hstart : (main_start cfg State.init).process_files = (startAbs cfg).pf := by
    rw [← abs_pf, main_start_abs]
  rw [hstart]
  by_cases hd : cfg.dry_run_flag = true
  · left
    rw [feedAll_dry cfg hd] at h
    refine ⟨?_, ?_, ?_⟩
    · rw [← abs_found, h]; rfl
    · rw [← abs_pf, h]
    · intro hd2
      rw [hd] at hd2
      exact absurd hd2 (by simp)
  · have hd2 : cfg.dry_run_flag = false := by simpa using hd
    cases hres : cfg.resume_file with
    | none =>
      left
      have hp := startAbs_pf_none cfg hres
      rw [feedAll_on cfg hd2 _ _ hp] at h
      refine ⟨?_, ?_, ?_⟩
      · rw [← abs_found, h]; rfl
      · rw [← abs_pf, h]
      · intro _ r hr
        exact absurd hr (by simp)
    | some r =>
      have hp := startAbs_pf_resume cfg r hres hd2
      by_cases hin : r ∈ files L
      · right
        rw [feedAll_hit cfg hd2 r hres _ _ hp hin] at h
        refine ⟨r, rfl, hd2, ?_, hp, ?_, ?_⟩
        · rw [← abs_found, h]; simp [startAbs]
        · rw [← abs_pf, h]
        · rw [← abs_emitted, h]; simpa [startAbs] using hin
      · left
        have hmiss : ∀ p ∈ files L, cfg.resume_file ≠ some p := by
          intro p hp2 hcontra
          rw [hres] at hcontra
          exact hin (Option.some.inj hcontra ▸ hp2)
        rw [feedAll_off cfg hd2 _ _ hp hmiss] at h
        refine ⟨?_, ?_, ?_⟩
        · rw [← abs_found, h]; rfl
        · rw [← abs_pf, h]
        · intro _ r2 hr2
          have : r2 = r := (Option.some.inj hr2).symm
          subst this
          rw [← abs_emitted, h]
          simpa [startAbs] using hin

/-! ## Lemmas: termination -/

theorem entryItem_dir (w : World) (xdev : Bool) (p : String) (dev : Nat) (n c : String)
    (h : entryItem w xdev p dev n = some (Item.dir c)) :
    n ≠ "." ∧ n ≠ ".." ∧ c = p ++ "/" ++ n ∧ (p ++ "/" ++ n).length < PATH_MAX ∧
      ∃ st, w.lstat c = some st ∧ st.st_mode = FileType.dir ∧
        (xdev = true → st.st_dev = dev) := by
  unfold entryItem at h
  split at h
  · exact absurd h (by simp)
  · rename_i hn
    simp only [] at h
    split at h
    · exact absurd h (by simp)
    · rename_i hl
      split at h
      · exact absurd h (by simp)
      · rename_i st hst
        split at h
        · exact absurd h (by simp)
        · rename_i hx
          split at h
          · exact absurd h (by simp)
          · rename_i hm
            have hc : p ++ "/" ++ n = c := by
              simpa using h
            subst hc
            refine ⟨fun e => hn (Or.inl e), fun e => hn (Or.inr e), rfl, by omega, st, hst, hm, ?_⟩
            intro hxd
            simpa [hxd] using hx
          · exact absurd h (by simp)

theorem mem_dirs (L : List Item) (c : String) : c ∈ dirs L ↔ Item.dir c ∈ L := by
  induction L with
  | nil => simp [dirs]
  | cons i t ih => cases i <;> simp [dirs, ih]

theorem mem_files (L : List Item) (c : String) : c ∈ files L ↔ Item.file c ∈ L := by
  induction L with
  | nil => simp [files]
  | cons i t ih => cases i <;> simp [files, ih]

theorem dirItems_subdir (w : World) (xdev : Bool) (p : String) (dev : Nat) (c : String)
    (h : c ∈ dirs (dirItems w xdev p dev)) : IsSubdir w p c := by
  rw [mem_dirs] at h
  unfold dirItems at h
  cases hrd : w.readdir p with
  | none => simp [hrd] at h
  | some names =>
    simp only [hrd, List.mem_filterMap] at h
    obtain ⟨n, hn, he⟩ := h
    obtain ⟨h1, h2, h3, _, st, h5, h6, _⟩ := entryItem_dir w xdev p dev n c he
    exact ⟨names, n, hrd, hn, h1, h2, h3, st, h5, h6⟩

theorem queuedItems_subdir (w : World) (xdev : Bool) (d c : String)
    (h : c ∈ dirs (queuedItems w xdev d)) : IsSubdir w d c := by
  unfold queuedItems at h
  cases hst : w.lstat d with
  | none => simp [hst, dirs] at h
  | some st =>
    simp only [hst] at h
    exact dirItems_subdir w xdev d st.st_dev c h

/-- Under a rank, some cost bounds on every directory of rank below `n` one
more than the costs of the directories it enqueues. -/
theorem cost_exists (w : World) (xdev : Bool) (rank : String → Nat)
    (hrank : ∀ p c, IsSubdir w p c → rank c < rank p) (n : Nat) :
    ∃ cost : String → Nat, ∀ d, rank d < n →
      1 + ((dirs (queuedItems w xdev d)).map cost).sum ≤ cost d := by
  induction n with
  | zero => exact ⟨fun _ => 0, fun d h => absurd h (by omega)⟩
  | succ n ih =>
    obtain ⟨cost, hcost⟩ := ih
    refine ⟨fun d => 1 + ((dirs (queuedItems w xdev d)).map cost).sum, ?_⟩
    intro d hd
    have : ((dirs (queuedItems w xdev d)).map
        (fun d => 1 + ((dirs (queuedItems w xdev d)).map cost).sum)).sum ≤
        ((dirs (queuedItems w xdev d)).map cost).sum := by
      apply List.sum_le_sum
      intro c hc
      have hlt := hrank d c (queuedItems_subdir w xdev d c hc)
      exact hcost c (by omega)
    show 1 + ((dirs (queuedItems w xdev d)).map
        (fun d => 1 + ((dirs (queuedItems w xdev d)).map cost).sum)).sum ≤
      1 + ((dirs (queuedItems w xdev d)).map cost).sum
    omega

theorem drainItems_done (w : World) (xdev : Bool) (rank : String → Nat)
    (hrank : ∀ p c, IsSubdir w p c → rank c < rank p) (n : Nat) (cost : String → Nat)
    (hcost : ∀ d, rank d < n → 1 + ((dirs (queuedItems w xdev d)).map cost).sum ≤ cost d)
    (fuel : Nat) (pending : List String) (hp : ∀ d ∈ pending, rank d < n)
    (hfuel : (pending.map cost).sum ≤ fuel) :
    (drainItems w xdev fuel pending).2 = true := by
  induction fuel generalizing pending with
  | zero =>
    cases pending with
    | nil => rfl
    | cons d rest =>
      have := hcost d (hp d (by simp))
      simp only [List.map_cons, List.sum_cons] at hfuel
      omega
  | succ fuel ih =>
    cases pending with
    | nil => rfl
    | cons d rest =>
      simp only [drainItems]
      apply ih
      · intro c hc
        rcases List.mem_append.1 hc with hc | hc
        · exact hp c (by simp [hc])
        · have h1 := hrank d c (queuedItems_subdir w xdev d c hc)
          have h2 := hp d (by simp)
          omega
      · have := hcost d (hp d (by simp))
        simp only [List.map_cons, List.sum_cons] at hfuel
        simp only [List.map_append, List.sum_append]
        omega

theorem list_bound (rank : String → Nat) (l : List String) :
    ∃ n, ∀ d ∈ l, rank d < n := by
  induction l with
  | nil => exact ⟨0, by simp⟩
  | cons a t ih =>
    obtain ⟨n, hn⟩ := ih
    refine ⟨max n (rank a + 1), ?_⟩
    intro d hd
    rcases List.mem_cons.1 hd with rfl | hd
    · omega
    · have := hn d hd
      omega

theorem walkItems_done (w : World) (hfin : FiniteTree w) (xdev : Bool) (roots : List String) :
    ∃ fuel, (walkItems w xdev roots fuel).2 = true := by
  obtain ⟨rank, hrank⟩ := hfin
  obtain ⟨n, hn⟩ := list_bound rank (dirs (rootsItems w xdev roots))
  obtain ⟨cost, hcost⟩ := cost_exists w xdev rank hrank n
  exact ⟨_, drainItems_done w xdev rank hrank n cost hcost _ _ hn (le_refl _)⟩

theorem main_run_returns (w : World) (cfg : Config) (prog : String) (roots : List String)
    (fuel : Nat) (h : (walkItems w cfg.xdev_flag roots fuel).2 = true) :
    ∃ code s, main_run w cfg prog roots fuel State.init = some (code, s) := by
  by_cases hroots : roots = []
  · subst hroots
    refine ⟨EXIT_FAILURE, (State.init.emit (Event.stderr Msg.missingTarget)).emit
      (Event.stderr (Msg.usage prog)), ?_⟩
    unfold main_run
    rw [if_pos rfl]
  · have hs := main_run_sim w cfg prog roots fuel hroots
    cases hr : main_run w cfg prog roots fuel State.init with
    | none =>
      rw [hr] at hs
      rw [hs.1] at h
      exact absurd h (by simp)
    | some x => exact ⟨x.1, x.2, rfl⟩

theorem main_run_terminates (w : World) (hfin : FiniteTree w) (cfg : Config) (prog : String)
    (roots : List String) :
    ∃ fuel code s, main_run w cfg prog roots fuel State.init = some (code, s) := by
  obtain ⟨fuel, h⟩ := walkItems_done w hfin cfg.xdev_flag roots
  exact ⟨fuel, main_run_returns w cfg prog roots fuel h⟩

theorem exampleWorld_finite : FiniteTree exampleWorld := by
  refine ⟨fun p => if p = "/a" then 1 else 0, ?_⟩
  rintro p c ⟨names, n, hrd, hn, h1, h2, hc, st, hst, hm⟩
  simp only [exampleWorld] at hrd hst
  split at hrd
  · rename_i hp
    subst hp
    simp only [Option.some.injEq] at hrd
    subst hrd
    simp only [List.mem_cons, List.mem_singleton, List.not_mem_nil, or_false] at hn
    rcases hn with rfl | rfl | rfl | rfl | rfl
    · exact absurd rfl h1
    · exact absurd rfl h2
    · subst hc
      simp at hst
      subst hst
      simp at hm
    · subst hc
      simp at hst
      subst hst
      simp at hm
    · subst hc
      decide
  · split at hrd
    · rename_i hp
      subst hp
      simp only [Option.some.injEq] at hrd
      subst hrd
      simp only [List.mem_cons, List.mem_singleton, List.not_mem_nil, or_false] at hn
      rcases hn with rfl | rfl | rfl
      · exact absurd rfl h1
      · exact absurd rfl h2
      · subst hc
        simp at hst
        subst hst
        simp at hm
    · exact absurd hrd (by simp)

/-! ## Lemmas: more fuel changes nothing -/

theorem main_drain_mono (w : World) (cfg : Config) (fuel idx : Nat) (s : State)
    (r : Ctl Unit) (h : main_drain w cfg fuel idx s = some r) (fuel2 : Nat)
    (hle : fuel ≤ fuel2) : main_drain w cfg fuel2 idx s = some r := by
  induction fuel generalizing idx s fuel2 with
  | zero =>
    unfold main_drain at h
    cases hq : s.dir_queue[idx]? with
    | none =>
      rw [hq] at h
      unfold main_drain
      rw [hq]
      exact h
    | some d =>
      rw [hq] at h
      exact absurd h (by simp)
  | succ fuel ih =>
    unfold main_drain at h
    cases hq : s.dir_queue[idx]? with
    | none =>
      rw [hq] at h
      unfold main_drain
      rw [hq]
      exact h
    | some d =>
      rw [hq] at h
      obtain ⟨f2, rfl⟩ : ∃ f2, fuel2 = f2 + 1 := ⟨fuel2 - 1, by omega⟩
      unfold main_drain
      rw [hq]
      simp only [] at h ⊢
      cases hst : w.lstat d with
      | none =>
        rw [hst] at h
        exact ih _ _ h f2 (by omega)
      | some st =>
        rw [hst] at h
        simp only [] at h ⊢
        cases hr : handle_directory w cfg d st.st_dev (s.emit (Event.dequeue d)) with
        | ret a s1 =>
          rw [hr] at h
          exact ih _ _ h f2 (by omega)
        | exit c s1 =>
          rw [hr] at h
          exact h

theorem main_run_mono (w : World) (cfg : Config) (prog : String) (roots : List String)
    (fuel : Nat) (s : State) (x : Nat × State)
    (h : main_run w cfg prog roots fuel s = some x) (fuel2 : Nat) (hle : fuel ≤ fuel2) :
    main_run w cfg prog roots fuel2 s = some x := by
  unfold main_run at h ⊢
  split
  · rename_i hr
    rw [if_pos hr] at h
    exact h
  · rename_i hr
    rw [if_neg hr] at h
    cases hm : main_roots w cfg roots (main_start cfg s) with
    | exit c s1 =>
      rw [hm] at h
      exact h
    | ret a s1 =>
      rw [hm] at h
      simp only [] at h ⊢
      cases hd : main_drain w cfg fuel 0 s1 with
      | none =>
        rw [hd] at h
        exact absurd h (by simp)
      | some r =>
        rw [main_drain_mono w cfg fuel 0 s1 r hd fuel2 hle]
        rw [hd] at h
        exact h

/-- Two runs that return return the same: the result does not depend on the
fuel. -/
theorem main_run_det (w : World) (cfg : Config) (prog : String) (roots : List String)
    (f1 f2 : Nat) (s : State) (x y : Nat × State)
    (h1 : main_run w cfg prog roots f1 s = some x)
    (h2 : main_run w cfg prog roots f2 s = some y) : x = y := by
  have a := main_run_mono w cfg prog roots f1 s x h1 (max f1 f2) (le_max_left _ _)
  have b := main_run_mono w cfg prog roots f2 s y h2 (max f1 f2) (le_max_right _ _)
  rw [a] at b
  exact Option.some.inj b

/-! ## Lemmas: the dry run -/

theorem halts_file_iff (cfg : Config) (r p : String) (hd : cfg.dry_run_flag = true)
    (hr : cfg.resume_file = some r) : halts cfg (Item.file p) = true ↔ p = r := by
  simp [halts, hd, hr, eq_comm]

theorem halts_mem_files (cfg : Config) (r : String) (hd : cfg.dry_run_flag = true)
    (hr : cfg.resume_file = some r) (L : List Item) :
    (∃ i ∈ L, halts cfg i = true) ↔ r ∈ files L := by
  constructor
  · rintro ⟨i, hi, hh⟩
    cases i with
    | file p =>
      have := (halts_file_iff cfg r p hd hr).1 hh
      subst this
      exact (mem_files L p).2 hi
    | dir p => simp [halts] at hh
  · intro h
    exact ⟨Item.file r, (mem_files L r).1 h, (halts_file_iff cfg r r hd hr).2 rfl⟩

theorem halts_none (cfg : Config) (hr : cfg.resume_file = none) (i : Item) :
    halts cfg i = false := by
  cases i <;> simp [halts, hr]

theorem files_cutAt (cfg : Config) (r : String) (hd : cfg.dry_run_flag = true)
    (hr : cfg.resume_file = some r) (L : List Item) (h : r ∈ files L) :
    files (cutAt cfg L) = (files L).takeWhile (fun p => p != r) ++ [r] := by
  induction L with
  | nil => simp [files] at h
  | cons i t ih =>
    cases i with
    | file p =>
      by_cases hp : p = r
      · subst hp
        have hh := (halts_file_iff cfg p p hd hr).2 rfl
        simp [cutAt, hh, files, List.takeWhile]
      · have hh : halts cfg (Item.file p) = false := by
          cases hx : halts cfg (Item.file p) with
          | false => rfl
          | true => exact absurd ((halts_file_iff cfg r p hd hr).1 hx) hp
        have h2 : r ∈ files t := by
          simp only [files, List.mem_cons] at h
          rcases h with h | h
          · exact absurd h.symm hp
          · exact h
        have hp2 : (p != r) = true := by simpa using hp
        simp [cutAt, hh, files, List.takeWhile, hp2, ih h2]
    | dir p =>
      have hh : halts cfg (Item.dir p) = false := rfl
      simp only [cutAt, hh, files]
      exact ih (by simpa [files] using h)

theorem emitted_of_ends (cfg : Config) (t : List Event) (h : EndsAtMatch cfg t) :
    ∃ pre r, cfg.resume_file = some r ∧
      t = pre ++ (Event.handle_file r ::
        ((if strstr cfg.zfs_opts "-v" then [Event.stdout r] else []) ++
          [Event.stderr Msg.dryRunFound])) ∧
      emitted t = emitted pre ++ [r] := by
  obtain ⟨pre, r, hr, _, ht⟩ := h
  refine ⟨pre, r, hr, ht, ?_⟩
  rw [ht]
  split <;> simp [emitted]

theorem mem_emitted_of_ends (cfg : Config) (t : List Event) (h : EndsAtMatch cfg t) :
    ∃ r, cfg.resume_file = some r ∧ cfg.dry_run_flag = true ∧ r ∈ emitted t := by
  obtain ⟨pre, r, hr, hd, ht⟩ := h
  refine ⟨r, hr, hd, ?_⟩
  rw [ht]
  simp [emitted]

/-- The exit status of a run with operands, by cases on the resume path. -/
theorem exit_status_cases (w : World) (cfg : Config) (prog : String) (roots : List String)
    (fuel : Nat) (code : Nat) (s : State) (hroots : roots ≠ [])
    (hrun : main_run w cfg prog roots fuel State.init = some (code, s)) :
    (code = EXIT_SUCCESS ∧
        (cfg.resume_file = none ∨ ∃ r, cfg.resume_file = some r ∧ r ∈ emitted s.trace)) ∨
      (code = EXIT_FAILURE ∧ ∃ r, cfg.resume_file = some r ∧ r ∉ emitted s.trace) := by
  have hs := main_run_sim w cfg prog roots fuel hroots
  rw [hrun] at hs
  rcases hs with ⟨_, hc, _, hend⟩ | ⟨hno, _, habs, hc⟩
  · obtain ⟨r, hr, _, hin⟩ := mem_emitted_of_ends cfg s.trace hend
    exact Or.inl ⟨hc, Or.inr ⟨r, hr, hin⟩⟩
  · by_cases hd : cfg.dry_run_flag = true
    · cases hres : cfg.resume_file with
      | none =>
        left
        refine ⟨?_, Or.inl rfl⟩
        rw [hc]
        unfold main_finish
        have hpf : s.process_files = true := by
          rw [← abs_pf, habs, feedAll_dry cfg hd]
          simp [startAbs, hd]
        simp [hres, hpf]
      | some r =>
        right
        refine ⟨?_, r, rfl, ?_⟩
        · rw [hc]
          unfold main_finish
          simp [hres, hd]
        · intro hin
          rw [← abs_emitted, habs, feedAll_emitted] at hin
          have hin2 : r ∈ files (walkItems w cfg.xdev_flag roots fuel).1 := by
            simpa [startAbs] using hin
          obtain ⟨i, hi, hh⟩ := (halts_mem_files cfg r hd hres _).2 hin2
          rw [hno i hi] at hh
          exact absurd hh (by simp)
    · have hd2 : cfg.dry_run_flag = false := by simpa using hd
      have hfin : (main_finish cfg s).1 =
          if s.process_files = true then EXIT_SUCCESS else EXIT_FAILURE := by
        unfold main_finish
        cases hp : s.process_files <;> simp [hd2]
      rw [hfin] at hc
      have hstart : (main_start cfg State.init).process_files = (startAbs cfg).pf := by
        rw [← abs_pf, main_start_abs]
      rcases run_found w cfg prog roots fuel code s hroots hrun with
        ⟨_, h2, h3⟩ | ⟨r, hr, _, _, _, h5, h6⟩
      · cases hres : cfg.resume_file with
        | none =>
          left
          have hp : s.process_files = true := by
            rw [h2, hstart]
            exact startAbs_pf_none cfg hres
          rw [hp] at hc
          exact ⟨by simpa using hc, Or.inl rfl⟩
        | some r =>
          right
          have hp : s.process_files = false := by
            rw [h2, hstart]
            exact startAbs_pf_resume cfg r hres hd2
          rw [hp] at hc
          exact ⟨by simpa using hc, r, rfl, h3 hd2 r hres⟩
      · left
        rw [h5] at hc
        exact ⟨by simpa using hc, Or.inr ⟨r, hr, h6⟩⟩

/-! ## Lemmas: what each function adds to the trace -/

theorem Ext.refl (P : Event → Prop) (t : List Event) : Ext P t t :=
  ⟨[], by simp, by simp⟩

theorem Ext.snoc {P : Event → Prop} {t1 t2 : List Event} (h : Ext P t1 t2) {e : Event}
    (he : P e) : Ext P t1 (t2 ++ [e]) := by
  obtain ⟨Δ, h1, h2⟩ := h
  refine ⟨Δ ++ [e], by rw [h1, List.append_assoc], ?_⟩
  intro x hx
  rcases List.mem_append.1 hx with hx | hx
  · exact h2 x hx
  · simp only [List.mem_singleton] at hx
    subst hx
    exact he

theorem Ext.trans {P : Event → Prop} {t1 t2 t3 : List Event} (h : Ext P t1 t2)
    (h2 : Ext P t2 t3) : Ext P t1 t3 := by
  obtain ⟨Δ1, e1, p1⟩ := h
  obtain ⟨Δ2, e2, p2⟩ := h2
  refine ⟨Δ1 ++ Δ2, by rw [e2, e1, List.append_assoc], ?_⟩
  intro x hx
  rcases List.mem_append.1 hx with hx | hx
  · exact p1 x hx
  · exact p2 x hx

theorem Ext.mono {P Q : Event → Prop} {t1 t2 : List Event} (h : Ext P t1 t2)
    (hPQ : ∀ e, P e → Q e) : Ext Q t1 t2 := by
  obtain ⟨Δ, e1, p1⟩ := h
  exact ⟨Δ, e1, fun e he => hPQ e (p1 e he)⟩

theorem execute_rewrite_ext (w : World) (cfg : Config) (p : String) (s : State) :
    Ext (fun e => isOutput e = true) s.trace (execute_rewrite w cfg p s).trace := by
  unfold execute_rewrite
  simp only [State.emit]
  have h0 : Ext (fun e => isOutput e = true) s.trace (s.trace ++ [Event.execute_rewrite p]) :=
    (Ext.refl _ _).snoc (by rfl)
  split
  · exact h0.snoc (by rfl)
  · split
    · exact (h0.snoc (by rfl)).snoc (by rfl)
    · exact h0.snoc (by rfl)

theorem handle_file_ext (w : World) (cfg : Config) (p : String) (s : State) :
    Ext (fun e => isOutput e = true ∨ e = Event.handle_file p) s.trace
      (handle_file w cfg p s).state.trace := by
  have h0 : Ext (fun e => isOutput e = true ∨ e = Event.handle_file p) s.trace
      (s.trace ++ [Event.handle_file p]) := (Ext.refl _ _).snoc (Or.inr rfl)
  unfold handle_file
  by_cases hd : cfg.dry_run_flag = true
  · simp only [hd, if_true]
    by_cases hv : strstr cfg.zfs_opts "-v" = true
    · by_cases hr : cfg.resume_file = some p
      · simp only [hv, hr, if_true, Ctl.state, State.emit]
        exact (h0.snoc (by exact Or.inl rfl)).snoc (by exact Or.inl rfl)
      · simp only [hv, hr, if_true, if_false, Ctl.state, State.emit]
        exact h0.snoc (by exact Or.inl rfl)
    · by_cases hr : cfg.resume_file = some p
      · simp only [hv, hr, if_true, if_false, Ctl.state, State.emit]
        exact h0.snoc (by exact Or.inl rfl)
      · simp only [hv, hr, if_false, Ctl.state, State.emit]
        exact h0
  · simp only [hd, if_false]
    by_cases hp : s.process_files = true
    · have e1 : (s.emit (Event.handle_file p)).process_files = true := hp
      simp only [e1, Bool.not_true, Bool.false_eq_true, if_false, if_true, Ctl.state]
      exact h0.trans ((execute_rewrite_ext w cfg p (s.emit (Event.handle_file p))).mono
        (fun e he => Or.inl he))
    · have hp2 : s.process_files = false := by simpa using hp
      have e1 : (s.emit (Event.handle_file p)).process_files = false := hp2
      simp only [e1, Bool.not_false, if_true]
      by_cases hr : cfg.resume_file = some p
      · simp only [hr, if_true, Ctl.state]
        have h1 : Ext (fun e => isOutput e = true ∨ e = Event.handle_file p) s.trace
            (s.trace ++ [Event.handle_file p] ++ [Event.stderr (Msg.resumeFound p)]) :=
          h0.snoc (by exact Or.inl rfl)
        exact h1.trans ((execute_rewrite_ext w cfg p _).mono (fun e he => Or.inl he))
      · simp only [hr, if_false, e1, Bool.false_eq_true, Ctl.state]
        exact h0

theorem handle_directory_entry_ext (w : World) (cfg : Config) (path : String) (dev : Nat)
    (name : String) (s : State) :
    Ext (fun e => isOutput e = true ∨
        ∃ i, entryItem w cfg.xdev_flag path dev name = some i ∧ e = i.event) s.trace
      (handle_directory_entry w cfg path dev name s).state.trace := by
  unfold handle_directory_entry entryItem
  by_cases hn : name = "." ∨ name = ".."
  · simp only [hn, if_true, Ctl.state]
    exact Ext.refl _ _
  · simp only [hn, if_false]
    by_cases hl : (path ++ "/" ++ name).length ≥ PATH_MAX
    · simp only [hl, if_true, Ctl.state, State.emit]
      exact (Ext.refl _ _).snoc (by exact Or.inl rfl)
    · simp only [hl, if_false]
      cases hst : w.lstat (path ++ "/" ++ name) with
      | none =>
        simp only [Ctl.state, State.emit]
        exact (Ext.refl _ _).snoc (by exact Or.inl rfl)
      | some st =>
        simp only []
        by_cases hx : (cfg.xdev_flag && st.st_dev != dev) = true
        · simp only [hx, if_true, Ctl.state]
          exact Ext.refl _ _
        · simp only [hx, if_false]
          cases hm : st.st_mode with
          | reg =>
            simp only []
            refine (handle_file_ext w cfg (path ++ "/" ++ name) s).mono ?_
            rintro e (h | h)
            · exact Or.inl h
            · exact Or.inr ⟨_, rfl, h⟩
          | dir =>
            simp only [Ctl.state, add_to_dir_queue, State.emit]
            exact (Ext.refl _ _).snoc (Or.inr ⟨_, rfl, rfl⟩)
          | other =>
            simp only [Ctl.state]
            exact Ext.refl _ _

theorem handle_directory_loop_ext (w : World) (cfg : Config) (path : String) (dev : Nat)
    (names : List String) (s : State) :
    Ext (fun e => isOutput e = true ∨
        ∃ i ∈ names.filterMap (entryItem w cfg.xdev_flag path dev), e = i.event) s.trace
      (handle_directory_loop w cfg path dev names s).state.trace := by
  induction names generalizing s with
  | nil => exact Ext.refl _ _
  | cons name rest ih =>
    have h1 := (handle_directory_entry_ext w cfg path dev name s).mono
      (Q := fun e => isOutput e = true ∨
        ∃ i ∈ (name :: rest).filterMap (entryItem w cfg.xdev_flag path dev), e = i.event)
      (by
        rintro e (h | ⟨i, hi, he⟩)
        · exact Or.inl h
        · exact Or.inr ⟨i, List.mem_filterMap.2 ⟨name, by simp, hi⟩, he⟩)
    unfold handle_directory_loop
    cases hr : handle_directory_entry w cfg path dev name s with
    | ret a s1 =>
      rw [hr] at h1
      refine h1.trans ((ih s1).mono ?_)
      rintro e (h | ⟨i, hi, hie⟩)
      · exact Or.inl h
      · obtain ⟨n, hn, hni⟩ := List.mem_filterMap.1 hi
        exact Or.inr ⟨i, List.mem_filterMap.2 ⟨n, by simp [hn], hni⟩, hie⟩
    | exit c s1 =>
      rw [hr] at h1
      exact h1

theorem handle_directory_ext (w : World) (cfg : Config) (path : String) (dev : Nat)
    (s : State) :
    Ext (fun e => isOutput e = true ∨ FromDir w cfg.xdev_flag path dev e) s.trace
      (handle_directory w cfg path dev s).state.trace := by
  have h0 : Ext (fun e => isOutput e = true ∨ FromDir w cfg.xdev_flag path dev e) s.trace
      (s.trace ++ [Event.handle_directory path dev]) :=
    (Ext.refl _ _).snoc (Or.inr (by exact Or.inl rfl))
  unfold handle_directory
  cases hrd : w.readdir path with
  | none =>
    simp only [Ctl.state, State.emit]
    exact h0.snoc (by exact Or.inl rfl)
  | some names =>
    simp only []
    have h1 := (handle_directory_loop_ext w cfg path dev names
      (s.emit (Event.handle_directory path dev))).mono
      (Q := fun e => isOutput e = true ∨ FromDir w cfg.xdev_flag path dev e)
      (by
        rintro e (h | ⟨i, hi, he⟩)
        · exact Or.inl h
        · refine Or.inr (Or.inr ⟨i, ?_, he⟩)
          unfold dirItems
          rw [hrd]
          exact hi)
    cases hr : handle_directory_loop w cfg path dev names
        (s.emit (Event.handle_directory path dev)) with
    | ret a s1 =>
      rw [hr] at h1
      exact h0.trans h1
    | exit c s1 =>
      rw [hr] at h1
      exact h0.trans h1

theorem process_path_ext (w : World) (cfg : Config) (path : String) (s : State) :
    Ext (fun e => isOutput e = true ∨ FromRoot w cfg.xdev_flag path e) s.trace
      (process_path w cfg path s).state.trace := by
  have h0 : Ext (fun e => isOutput e = true ∨ FromRoot w cfg.xdev_flag path e) s.trace
      (s.trace ++ [Event.process_path path]) :=
    (Ext.refl _ _).snoc (Or.inr (by exact Or.inl rfl))
  unfold process_path
  cases hst : w.lstat path with
  | none =>
    simp only [Ctl.state, State.emit]
    exact h0.snoc (by exact Or.inl rfl)
  | some st =>
    simp only []
    cases hm : st.st_mode with
    | reg =>
      simp only []
      have h1 := (handle_file_ext w cfg path (s.emit (Event.process_path path))).mono
        (Q := fun e => isOutput e = true ∨ FromRoot w cfg.xdev_flag path e)
        (by
          rintro e (h | h)
          · exact Or.inl h
          · exact Or.inr (Or.inr (Or.inl ⟨h, st, hst, hm⟩)))
      cases hr : handle_file w cfg path (s.emit (Event.process_path path)) with
      | ret a s1 => rw [hr] at h1; exact h0.trans h1
      | exit c s1 => rw [hr] at h1; exact h0.trans h1
    | dir =>
      simp only []
      have h1 := (handle_directory_ext w cfg path st.st_dev
        (s.emit (Event.process_path path))).mono
        (Q := fun e => isOutput e = true ∨ FromRoot w cfg.xdev_flag path e)
        (by
          rintro e (h | h)
          · exact Or.inl h
          · exact Or.inr (Or.inr (Or.inr ⟨st, hst, hm, h⟩)))
      cases hr : handle_directory w cfg path st.st_dev (s.emit (Event.process_path path)) with
      | ret a s1 => rw [hr] at h1; exact h0.trans h1
      | exit c s1 => rw [hr] at h1; exact h0.trans h1
    | other =>
      simp only [Ctl.state]
      exact h0

theorem walkOrder_append (a b : List Event) : walkOrder (a ++ b) = walkOrder a ++ walkOrder b := by
  simp [walkOrder]

theorem isWalk_of_output (e : Event) (h : isOutput e = true) : isWalk e = false := by
  cases e <;> simp_all [isOutput, isWalk]

theorem isWalk_of_fromDir (w : World) (xdev : Bool) (D : String) (dev : Nat) (e : Event)
    (h : FromDir w xdev D dev e) : isWalk e = false := by
  rcases h with rfl | ⟨i, _, rfl⟩
  · rfl
  · cases i <;> rfl

theorem Ext.walkOrder_eq {P : Event → Prop} {t1 t2 : List Event} (h : Ext P t1 t2)
    (hP : ∀ e, P e → isWalk e = false) : walkOrder t2 = walkOrder t1 := by
  obtain ⟨Δ, h1, h2⟩ := h
  rw [h1, walkOrder_append]
  have : walkOrder Δ = [] := by
    unfold walkOrder
    rw [List.filter_eq_nil_iff]
    intro e he
    rw [hP e (h2 e he)]
    simp
  rw [this, List.append_nil]

theorem handle_directory_walk (w : World) (cfg : Config) (path : String) (dev : Nat)
    (s : State) :
    walkOrder (handle_directory w cfg path dev s).state.trace = walkOrder s.trace := by
  refine (handle_directory_ext w cfg path dev s).walkOrder_eq ?_
  rintro e (h | h)
  · exact isWalk_of_output e h
  · exact isWalk_of_fromDir w _ _ _ e h

theorem handle_file_walk (w : World) (cfg : Config) (p : String) (s : State) :
    walkOrder (handle_file w cfg p s).state.trace = walkOrder s.trace := by
  refine (handle_file_ext w cfg p s).walkOrder_eq ?_
  rintro e (h | rfl)
  · exact isWalk_of_output e h
  · rfl

theorem process_path_walk (w : World) (cfg : Config) (path : String) (s : State) :
    walkOrder (process_path w cfg path s).state.trace =
      walkOrder s.trace ++ [Event.process_path path] := by
  have e0 : walkOrder (s.emit (Event.process_path path)).trace =
      walkOrder s.trace ++ [Event.process_path path] := by
    simp [State.emit, walkOrder, isWalk]
  unfold process_path
  cases hst : w.lstat path with
  | none =>
    simp only [Ctl.state]
    rw [← e0]
    simp [State.emit, walkOrder, isWalk]
  | some st =>
    simp only []
    cases hm : st.st_mode with
    | reg =>
      simp only []
      have h := handle_file_walk w cfg path (s.emit (Event.process_path path))
      cases hr : handle_file w cfg path (s.emit (Event.process_path path)) with
      | ret a s1 => rw [hr] at h; simp only [Ctl.state] at h ⊢; rw [h, e0]
      | exit c s1 => rw [hr] at h; simp only [Ctl.state] at h ⊢; rw [h, e0]
    | dir =>
      simp only []
      have h := handle_directory_walk w cfg path st.st_dev (s.emit (Event.process_path path))
      cases hr : handle_directory w cfg path st.st_dev (s.emit (Event.process_path path)) with
      | ret a s1 => rw [hr] at h; simp only [Ctl.state] at h ⊢; rw [h, e0]
      | exit c s1 => rw [hr] at h; simp only [Ctl.state] at h ⊢; rw [h, e0]
    | other =>
      simp only [Ctl.state]
      exact e0

theorem main_roots_trace (w : World) (cfg : Config) (roots : List String) (s : State) :
    Ext (fun e => isOutput e = true ∨ ∃ p ∈ roots, FromRoot w cfg.xdev_flag p e) s.trace
        (main_roots w cfg roots s).state.trace ∧
      ∃ done, done <+: roots ∧
        walkOrder (main_roots w cfg roots s).state.trace =
          walkOrder s.trace ++ done.map Event.process_path ∧
        ((main_roots w cfg roots s).returned = true → done = roots) := by
  induction roots generalizing s with
  | nil =>
    exact ⟨Ext.refl _ _, [], List.prefix_refl _, by simp [main_roots, Ctl.state], fun _ => rfl⟩
  | cons r rest ih =>
    have h1 := (process_path_ext w cfg r s).mono
      (Q := fun e => isOutput e = true ∨ ∃ p ∈ r :: rest, FromRoot w cfg.xdev_flag p e)
      (by
        rintro e (h | h)
        · exact Or.inl h
        · exact Or.inr ⟨r, by simp, h⟩)
    have h2 := process_path_walk w cfg r s
    unfold main_roots
    cases hr : process_path w cfg r s with
    | ret a s1 =>
      rw [hr] at h1 h2
      simp only [Ctl.state] at h1 h2
      obtain ⟨h3, done, h4, h5, h6⟩ := ih s1
      simp only []
      refine ⟨h1.trans (h3.mono ?_), r :: done, ?_, ?_, ?_⟩
      · rintro e (h | ⟨p, hp, h⟩)
        · exact Or.inl h
        · exact Or.inr ⟨p, by simp [hp], h⟩
      · exact List.prefix_cons_inj r |>.2 h4
      · rw [h5, h2]
        simp
      · intro h
        rw [h6 h]
    | exit c s1 =>
      rw [hr] at h1 h2
      simp only [Ctl.state] at h1 h2 ⊢
      refine ⟨h1, [r], ?_, ?_, ?_⟩
      · exact List.prefix_cons_inj r |>.2 (List.nil_prefix)
      · rw [h2]
        rfl
      · intro h
        simp [Ctl.returned] at h

theorem Sim.queue_grows {α : Type} {cfg : Config} {s : State} {L : List Item} {r : Ctl α}
    (h : Sim cfg s L r) : ∃ X, r.state.dir_queue = s.dir_queue ++ X := by
  cases r with
  | ret a s1 =>
    have := congrArg Abs.queue h.2
    rw [feedAll_queue] at this
    exact ⟨_, this⟩
  | exit c s1 =>
    have := congrArg Abs.queue h.2.2.1
    rw [feedAll_queue] at this
    exact ⟨_, this⟩

theorem drop_of_getElem? (l : List String) (idx : Nat) (d : String) (X : List String)
    (h : l[idx]? = some d) : (l ++ X).drop idx = d :: (l ++ X).drop (idx + 1) := by
  have hlt : idx < l.length := (List.getElem?_eq_some_iff.1 h).1
  have hlt2 : idx < (l ++ X).length := by
    rw [List.length_append]
    omega
  rw [List.drop_eq_getElem_cons hlt2]
  congr 1
  rw [List.getElem_append_left hlt]
  exact (List.getElem?_eq_some_iff.1 h).2

theorem main_drain_trace (w : World) (cfg : Config) (fuel idx : Nat) (s : State)
    (r : Ctl Unit) (h : main_drain w cfg fuel idx s = some r) :
    (∃ X, r.state.dir_queue = s.dir_queue ++ X) ∧
      Ext (fun e => isOutput e = true ∨
          ∃ d ∈ r.state.dir_queue, FromQueued w cfg.xdev_flag d e) s.trace r.state.trace ∧
      ∃ done, done <+: r.state.dir_queue.drop idx ∧
        walkOrder r.state.trace = walkOrder s.trace ++ done.map Event.dequeue ∧
        (r.returned = true → done = r.state.dir_queue.drop idx) := by
  induction fuel generalizing idx s with
  | zero =>
    unfold main_drain at h
    cases hq : s.dir_queue[idx]? with
    | none =>
      rw [hq] at h
      simp only [Option.some.injEq] at h
      subst h
      have hd : s.dir_queue.drop idx = [] := by
        rw [List.drop_eq_nil_iff]
        exact List.getElem?_eq_none_iff.1 hq
      exact ⟨⟨[], by simp [Ctl.state]⟩, Ext.refl _ _, [], by simp [Ctl.state, hd],
        by simp [Ctl.state], fun _ => by simp [Ctl.state, hd]⟩
    | some d =>
      rw [hq] at h
      exact absurd h (by simp)
  | succ fuel ih =>
    unfold main_drain at h
    cases hq : s.dir_queue[idx]? with
    | none =>
      rw [hq] at h
      simp only [Option.some.injEq] at h
      subst h
      have hd : s.dir_queue.drop idx = [] := by
        rw [List.drop_eq_nil_iff]
        exact List.getElem?_eq_none_iff.1 hq
      exact ⟨⟨[], by simp [Ctl.state]⟩, Ext.refl _ _, [], by simp [Ctl.state, hd],
        by simp [Ctl.state], fun _ => by simp [Ctl.state, hd]⟩
    | some d =>
      rw [hq] at h
      simp only [] at h
      have hdin : d ∈ s.dir_queue := List.mem_iff_getElem?.2 ⟨idx, hq⟩
      have w0 : walkOrder (s.emit (Event.dequeue d)).trace =
          walkOrder s.trace ++ [Event.dequeue d] := by
        simp [State.emit, walkOrder, isWalk]
      cases hst : w.lstat d with
      | none =>
        rw [hst] at h
        simp only [] at h
        obtain ⟨⟨X, hX⟩, h2, done, h3, h4, h5⟩ := ih _ _ h
        have hX2 : r.state.dir_queue = s.dir_queue ++ X := hX
        have hdrop := drop_of_getElem? s.dir_queue idx d X hq
        rw [← hX2] at hdrop
        refine ⟨⟨X, hX2⟩, ?_, d :: done, ?_, ?_, ?_⟩
        · have h0 : Ext (fun e => isOutput e = true ∨
              ∃ d ∈ r.state.dir_queue, FromQueued w cfg.xdev_flag d e) s.trace
              (s.trace ++ [Event.dequeue d] ++ [Event.stderr (Msg.cannotStatQueued d)]) :=
            ((Ext.refl _ _).snoc (Or.inr ⟨d, by rw [hX2]; simp [hdin], Or.inl rfl⟩)).snoc
              (by exact Or.inl rfl)
          exact h0.trans h2
        · rw [hdrop]
          exact (List.prefix_cons_inj d).2 h3
        · rw [h4]
          simp [State.emit, walkOrder, isWalk]
        · intro hr
          rw [h5 hr, hdrop]
      | some st =>
        rw [hst] at h
        simp only [] at h
        have hsim := handle_directory_sim w cfg d st.st_dev (s.emit (Event.dequeue d))
        have hext := (handle_directory_ext w cfg d st.st_dev (s.emit (Event.dequeue d)))
        have hwalk := handle_directory_walk w cfg d st.st_dev (s.emit (Event.dequeue d))
        cases hr : handle_directory w cfg d st.st_dev (s.emit (Event.dequeue d)) with
        | ret a s1 =>
          rw [hr] at h hsim hext hwalk
          simp only [] at h
          simp only [Ctl.state] at hext hwalk
          obtain ⟨Y, hY⟩ := hsim.queue_grows
          have hY2 : s1.dir_queue = s.dir_queue ++ Y := hY
          obtain ⟨⟨X, hX⟩, h2, done, h3, h4, h5⟩ := ih _ _ h
          have hX2 : r.state.dir_queue = s.dir_queue ++ (Y ++ X) := by
            rw [hX, hY2, List.append_assoc]
          have hdrop := drop_of_getElem? s.dir_queue idx d (Y ++ X) hq
          rw [← hX2] at hdrop
          have hdr : d ∈ r.state.dir_queue := by rw [hX2]; simp [hdin]
          refine ⟨⟨_, hX2⟩, ?_, d :: done, ?_, ?_, ?_⟩
          · have h0 : Ext (fun e => isOutput e = true ∨
                ∃ d ∈ r.state.dir_queue, FromQueued w cfg.xdev_flag d e) s.trace
                (s.emit (Event.dequeue d)).trace :=
              (Ext.refl _ _).snoc (Or.inr ⟨d, hdr, Or.inl rfl⟩)
            refine (h0.trans (hext.mono ?_)).trans h2
            rintro e (he | he)
            · exact Or.inl he
            · exact Or.inr ⟨d, hdr, Or.inr ⟨st, hst, he⟩⟩
          · rw [hdrop]
            exact (List.prefix_cons_inj d).2 h3
          · rw [h4, hwalk, w0]
            simp
          · intro hr
            rw [h5 hr, hdrop]
        | exit c s1 =>
          rw [hr] at h hsim hext hwalk
          simp only [Option.some.injEq] at h
          subst h
          simp only [Ctl.state] at hext hwalk ⊢
          obtain ⟨Y, hY⟩ := hsim.queue_grows
          have hY2 : s1.dir_queue = s.dir_queue ++ Y := hY
          have hdrop := drop_of_getElem? s.dir_queue idx d Y hq
          rw [← hY2] at hdrop
          have hdr : d ∈ s1.dir_queue := by rw [hY2]; simp [hdin]
          refine ⟨⟨_, hY2⟩, ?_, [d], ?_, ?_, ?_⟩
          · have h0 : Ext (fun e => isOutput e = true ∨
                ∃ d ∈ s1.dir_queue, FromQueued w cfg.xdev_flag d e) s.trace
                (s.emit (Event.dequeue d)).trace :=
              (Ext.refl _ _).snoc (Or.inr ⟨d, hdr, Or.inl rfl⟩)
            refine h0.trans (hext.mono ?_)
            rintro e (he | he)
            · exact Or.inl he
            · exact Or.inr ⟨d, hdr, Or.inr ⟨st, hst, he⟩⟩
          · rw [hdrop]
            exact (List.prefix_cons_inj d).2 List.nil_prefix
          · rw [hwalk, w0]
            rfl
          · intro hr
            simp [Ctl.returned] at hr

theorem main_start_ext (cfg : Config) (s : State) :
    Ext (fun e => isOutput e = true) s.trace (main_start cfg s).trace := by
  unfold main_start
  cases hr : cfg.resume_file <;> cases hd : cfg.dry_run_flag <;>
    simp only [Bool.not_true, Bool.not_false, Bool.false_eq_true, if_false, if_true,
      Option.isSome, Bool.and_true, Bool.and_false, Bool.true_and, Bool.false_and, State.emit]
  · exact Ext.refl _ _
  · exact (Ext.refl _ _).snoc (by rfl)
  · exact (Ext.refl _ _).snoc (by rfl)
  · exact (Ext.refl _ _).snoc (by rfl)

theorem main_finish_ext (cfg : Config) (s : State) :
    Ext (fun e => isOutput e = true) s.trace (main_finish cfg s).2.trace := by
  unfold main_finish
  split
  · exact (Ext.refl _ _).snoc (by rfl)
  · split
    · exact (Ext.refl _ _).snoc (by rfl)
    · exact (Ext.refl _ _).snoc (by rfl)

theorem main_finish_queue (cfg : Config) (s : State) :
    (main_finish cfg s).2.dir_queue = s.dir_queue := by
  unfold main_finish
  split
  · rfl
  · split <;> rfl

theorem Ext.mem {P : Event → Prop} {t1 t2 : List Event} (h : Ext P t1 t2)
    (h1 : ∀ e ∈ t1, P e) : ∀ e ∈ t2, P e := by
  obtain ⟨Δ, e1, p1⟩ := h
  intro e he
  rw [e1] at he
  rcases List.mem_append.1 he with he | he
  · exact h1 e he
  · exact p1 e he

/-- What the trace of a run with operands consists of, and the order of the
steps of the two loops in it. -/
theorem main_run_trace (w : World) (cfg : Config) (prog : String) (roots : List String)
    (fuel : Nat) (code : Nat) (s : State) (hroots : roots ≠ [])
    (hrun : main_run w cfg prog roots fuel State.init = some (code, s)) :
    (∀ e ∈ s.trace, isOutput e = true ∨ (∃ p ∈ roots, FromRoot w cfg.xdev_flag p e) ∨
        ∃ d ∈ s.dir_queue, FromQueued w cfg.xdev_flag d e) ∧
      ∃ doneR doneQ, doneR <+: roots ∧ doneQ <+: s.dir_queue ∧
        walkOrder s.trace = doneR.map Event.process_path ++ doneQ.map Event.dequeue ∧
        (doneQ ≠ [] → doneR = roots) ∧
        (¬ EndsAtMatch cfg s.trace → doneR = roots ∧ doneQ = s.dir_queue) := by
  rw [main_run_eq w cfg prog roots fuel State.init hroots] at hrun
  have hst := main_start_ext cfg State.init
  have hw0 : walkOrder (main_start cfg State.init).trace = [] := by
    rw [hst.walkOrder_eq (fun e he => isWalk_of_output e he)]
    rfl
  obtain ⟨hR, doneR, hR1, hR2, hR3⟩ := main_roots_trace w cfg roots (main_start cfg State.init)
  have hsimR := main_roots_sim w cfg roots (main_start cfg State.init)
  rw [hw0, List.nil_append] at hR2
  cases hr : main_roots w cfg roots (main_start cfg State.init) with
  | exit c s1 =>
    rw [hr] at hrun hR hR2 hR3 hsimR
    simp only [Option.some.injEq, Prod.mk.injEq] at hrun
    obtain ⟨rfl, rfl⟩ := hrun
    simp only [Ctl.state] at hR hR2
    refine ⟨?_, doneR, [], hR1, List.nil_prefix, by simpa using hR2, fun h => absurd rfl h, ?_⟩
    · have h1 : Ext (fun e => isOutput e = true ∨
          (∃ p ∈ roots, FromRoot w cfg.xdev_flag p e) ∨
          ∃ d ∈ s1.dir_queue, FromQueued w cfg.xdev_flag d e) [] s1.trace := by
        have hs0 : Ext (fun e => isOutput e = true) [] (main_start cfg State.init).trace := hst
        refine (hs0.mono (fun e he => Or.inl he)).trans (hR.mono ?_)
        rintro e (h | h)
        · exact Or.inl h
        · exact Or.inr (Or.inl h)
      exact h1.mem (by simp)
    · intro hne
      exact absurd hsimR.2.2.2 hne
  | ret a s1 =>
    rw [hr] at hrun hR hR2 hR3 hsimR
    simp only [Ctl.state] at hR hR2
    have hdR : doneR = roots := hR3 rfl
    subst hdR
    simp only [] at hrun
    cases hd : main_drain w cfg fuel 0 s1 with
    | none =>
      rw [hd] at hrun
      exact absurd hrun (by simp)
    | some r =>
      obtain ⟨⟨X, hX⟩, hQ, doneQ, hQ1, hQ2, hQ3⟩ := main_drain_trace w cfg fuel 0 s1 r hd
      rw [List.drop_zero] at hQ1 hQ3
      rw [hd] at hrun
      have hall : ∀ e ∈ r.state.trace, isOutput e = true ∨
          (∃ p ∈ doneR, FromRoot w cfg.xdev_flag p e) ∨
          ∃ d ∈ r.state.dir_queue, FromQueued w cfg.xdev_flag d e := by
        have h1 : Ext (fun e => isOutput e = true ∨
            (∃ p ∈ doneR, FromRoot w cfg.xdev_flag p e) ∨
            ∃ d ∈ r.state.dir_queue, FromQueued w cfg.xdev_flag d e) [] r.state.trace := by
          have hs0 : Ext (fun e => isOutput e = true) [] (main_start cfg State.init).trace := hst
          refine ((hs0.mono (fun e he => Or.inl he)).trans (hR.mono ?_)).trans (hQ.mono ?_)
          · rintro e (h | h)
            · exact Or.inl h
            · exact Or.inr (Or.inl h)
          · rintro e (h | h)
            · exact Or.inl h
            · exact Or.inr (Or.inr h)
        exact h1.mem (by simp)
      cases r with
      | exit c s2 =>
        have hsimQ := main_drain_sim w cfg fuel 0 s1
        rw [hd] at hsimQ
        have h3 : Sim cfg s1 _ (Ctl.exit c s2 : Ctl Unit) := hsimQ
        have hend : EndsAtMatch cfg s2.trace := h3.2.2.2
        simp only [Option.some.injEq, Prod.mk.injEq] at hrun
        obtain ⟨rfl, rfl⟩ := hrun
        simp only [Ctl.state] at hall hQ1 hQ2
        refine ⟨hall, doneR, doneQ, List.prefix_refl _, hQ1, by rw [hQ2, hR2],
          fun _ => rfl, ?_⟩
        intro hne
        exact absurd hend hne
      | ret b s2 =>
        simp only [Option.some.injEq] at hrun
        have hs2 : s = (main_finish cfg s2).2 := by rw [hrun]
        simp only [Ctl.state] at hall hQ1 hQ2 hQ3
        have hq : s.dir_queue = s2.dir_queue := by rw [hs2, main_finish_queue]
        have hf := main_finish_ext cfg s2
        rw [← hs2] at hf
        refine ⟨?_, doneR, doneQ, List.prefix_refl _, by rw [hq]; exact hQ1, ?_,
          fun _ => rfl, fun _ => ⟨rfl, by rw [hq]; exact hQ3 rfl⟩⟩
        · rw [hq]
          exact (hf.mono (fun e he => Or.inl he)).mem hall
        · rw [hf.walkOrder_eq (fun e he => isWalk_of_output e he), hQ2, hR2]

theorem forwarded_nil_of_miss (w : World) (cfg : Config) (prog : String)
    (roots : List String) (fuel : Nat) (code : Nat) (s : State) (r : String)
    (hres : cfg.resume_file = some r)
    (hrun : main_run w cfg prog roots fuel State.init = some (code, s))
    (hmiss : r ∉ emitted s.trace) : forwarded s.trace = [] := by
  by_cases hroots : roots = []
  · subst hroots
    have h := (main_run_no_roots w cfg prog fuel code s hrun).2
    rw [← abs_forwarded, h]
    rfl
  · obtain ⟨L, hL⟩ := main_run_abs w cfg prog roots fuel code s hroots hrun
    by_cases hd : cfg.dry_run_flag = true
    · rw [feedAll_dry cfg hd] at hL
      rw [← abs_forwarded, hL]
      rfl
    · have hd2 : cfg.dry_run_flag = false := by simpa using hd
      have hin : r ∉ files L := by
        intro hin
        apply hmiss
        rw [← abs_emitted, hL, feedAll_emitted]
        simp [startAbs, hin]
      have hm : ∀ p ∈ files L, cfg.resume_file ≠ some p := by
        intro p hp hc
        rw [hres] at hc
        exact hin (Option.some.inj hc ▸ hp)
      rw [feedAll_off cfg hd2 _ _ (startAbs_pf_resume cfg r hres hd2) hm] at hL
      rw [← abs_forwarded, hL]
      rfl

/-! ## Lemmas: the reference traversal -/

theorem entryItem_eq_levelEntry (w : World) (hlen : LstatBounded w) (xdev : Bool)
    (dir : String) (vol : Nat) (name : String) :
    entryItem w xdev dir vol name = levelEntry w xdev dir vol name := by
  unfold entryItem levelEntry classify
  by_cases hn : name = "." ∨ name = ".."
  · simp only [hn, if_true]
  · simp only [hn, if_false]
    by_cases hl : (dir ++ "/" ++ name).length ≥ PATH_MAX
    · simp only [hl, if_true, hlen _ hl]
    · rw [if_neg hl]

theorem dirItems_eq_levelList (w : World) (hlen : LstatBounded w) (xdev : Bool)
    (dir : String) (vol : Nat) : dirItems w xdev dir vol = levelList w xdev dir vol := by
  unfold dirItems levelList
  cases w.readdir dir with
  | none => rfl
  | some names =>
    simp only []
    congr 1
    funext name
    exact entryItem_eq_levelEntry w hlen xdev dir vol name

theorem rootsItems_eq_levelRoots (w : World) (hlen : LstatBounded w) (xdev : Bool)
    (roots : List String) : rootsItems w xdev roots = levelRoots w xdev roots := by
  induction roots with
  | nil => rfl
  | cons r rest ih =>
    unfold rootsItems levelRoots rootItems levelRoot classify
    rw [ih]
    congr 1
    cases w.lstat r with
    | none => rfl
    | some st =>
      simp only []
      cases st.st_mode with
      | reg => rfl
      | dir => exact dirItems_eq_levelList w hlen xdev r st.st_dev
      | other => rfl

theorem drainItems_eq_levelDrain (w : World) (hlen : LstatBounded w) (xdev : Bool)
    (fuel : Nat) (pending : List String) (h : (drainItems w xdev fuel pending).2 = true) :
    levelDrain w xdev fuel pending = some (files (drainItems w xdev fuel pending).1) := by
  induction fuel generalizing pending with
  | zero =>
    cases pending with
    | nil => rfl
    | cons d rest => simp [drainItems] at h
  | succ fuel ih =>
    cases pending with
    | nil => rfl
    | cons d rest =>
      have hq : queuedItems w xdev d = (match classify w d with
          | none => []
          | some st => levelList w xdev d st.st_dev) := by
        unfold queuedItems classify
        cases w.lstat d with
        | none => rfl
        | some st => exact dirItems_eq_levelList w hlen xdev d st.st_dev
      simp only [drainItems] at h ⊢
      unfold levelDrain
      simp only []
      rw [← hq, ih _ h]
      simp

theorem drainItems_initial (w : World) (xdev : Bool) (f0 : Nat) (pending : List String)
    (h : (drainItems w xdev f0 pending).2 = true) (f : Nat) :
    (drainItems w xdev f pending).1 <+: (drainItems w xdev f0 pending).1 := by
  induction f0 generalizing pending f with
  | zero =>
    cases pending with
    | nil => cases f <;> exact List.prefix_refl _
    | cons d rest => simp [drainItems] at h
  | succ n ih =>
    cases pending with
    | nil => cases f <;> exact List.prefix_refl _
    | cons d rest =>
      cases f with
      | zero => exact List.nil_prefix
      | succ m =>
        simp only [drainItems] at h ⊢
        exact (List.prefix_append_right_inj _).2 (ih _ h m)

theorem files_initial (a b : List Item) (h : a <+: b) : files a <+: files b := by
  obtain ⟨c, rfl⟩ := h
  rw [files_append]
  exact List.prefix_append _ _

theorem cutAt_initial (cfg : Config) (L : List Item) : cutAt cfg L <+: L := by
  induction L with
  | nil => exact List.prefix_refl _
  | cons i t ih =>
    unfold cutAt
    split
    · exact (List.prefix_cons_inj i).2 List.nil_prefix
    · exact (List.prefix_cons_inj i).2 ih

theorem levelOrder_of_done (w : World) (hlen : LstatBounded w) (xdev : Bool)
    (roots : List String) (fuel : Nat) (h : (walkItems w xdev roots fuel).2 = true) :
    levelOrder w xdev roots fuel = some (files (walkItems w xdev roots fuel).1) := by
  unfold walkItems at h ⊢
  simp only [] at h ⊢
  unfold levelOrder
  rw [← rootsItems_eq_levelRoots w hlen, drainItems_eq_levelDrain w hlen _ _ _ h]
  simp

theorem exampleWorld_bounded : LstatBounded exampleWorld := by
  intro p hp
  simp only [exampleWorld]
  have h : ∀ q : String, q.length < PATH_MAX → p ≠ q := by
    intro q hq he
    rw [he] at hp
    omega
  rw [if_neg (h _ (by decide)), if_neg (h _ (by decide)), if_neg (h _ (by decide)),
    if_neg (h _ (by decide)), if_neg (h _ (by decide))]

/-! ## Lemmas: paths -/

theorem list_join_inj (a b n m : List Char) (hn : '/' ∉ n) (hm : '/' ∉ m)
    (h : a ++ '/' :: n = b ++ '/' :: m) : a = b ∧ n = m := by
  induction a generalizing b with
  | nil =>
    cases b with
    | nil => simpa using h
    | cons c b =>
      simp only [List.nil_append, List.cons_append, List.cons.injEq] at h
      obtain ⟨rfl, h2⟩ := h
      exact absurd (by rw [h2]; simp) hn
  | cons x a ih =>
    cases b with
    | nil =>
      simp only [List.nil_append, List.cons_append, List.cons.injEq] at h
      obtain ⟨rfl, h2⟩ := h
      exact absurd (by rw [← h2]; simp) hm
    | cons c b =>
      simp only [List.cons_append, List.cons.injEq] at h
      obtain ⟨rfl, h2⟩ := h
      obtain ⟨h3, h4⟩ := ih b h2
      exact ⟨by rw [h3], h4⟩

theorem join_data (D n : String) : (D ++ "/" ++ n).data = D.data ++ '/' :: n.data := by
  simp [String.data_append]

theorem join_inj (D1 D2 n1 n2 : String) (h1 : '/' ∉ n1.data) (h2 : '/' ∉ n2.data)
    (h : D1 ++ "/" ++ n1 = D2 ++ "/" ++ n2) : D1 = D2 ∧ n1 = n2 := by
  have hd := congrArg String.data h
  rw [join_data, join_data] at hd
  obtain ⟨a, b⟩ := list_join_inj _ _ _ _ h1 h2 hd
  exact ⟨String.ext a, String.ext b⟩

theorem below_ne (a b : String) (h : Below a b) : a ≠ b := by
  obtain ⟨s, rfl⟩ := h
  intro e
  have := congrArg String.length e
  simp only [String.length_append] at this
  have h1 : "/".length = 1 := rfl
  omega

theorem below_join (r d n : String) (h : Below r d) : Below r (d ++ "/" ++ n) := by
  obtain ⟨s, rfl⟩ := h
  exact ⟨s ++ "/" ++ n, by simp [String.append_assoc]⟩

theorem below_self_join (d n : String) : Below d (d ++ "/" ++ n) := ⟨n, rfl⟩

theorem workDrain_queued (w : World) (xdev : Bool) (fuel : Nat) (Q : List String) :
    workDrain w xdev fuel (Q.map Work.queued) = (drainItems w xdev fuel Q).1 := by
  induction fuel generalizing Q with
  | zero => cases Q <;> rfl
  | succ fuel ih =>
    cases Q with
    | nil => rfl
    | cons d rest =>
      simp only [List.map_cons, workDrain, drainItems, workItems]
      rw [← ih]
      simp

theorem workDrain_roots (w : World) (xdev : Bool) (roots : List String) (Q : List String)
    (fuel : Nat) :
    workDrain w xdev (roots.length + fuel) (roots.map Work.root ++ Q.map Work.queued) =
      rootsItems w xdev roots ++
        workDrain w xdev fuel ((Q ++ dirs (rootsItems w xdev roots)).map Work.queued) := by
  induction roots generalizing Q with
  | nil => simp [rootsItems, dirs]
  | cons r rest ih =>
    have e : (r :: rest).length + fuel = (rest.length + fuel) + 1 := by
      simp only [List.length_cons]
      omega
    rw [e]
    show workItems w xdev (Work.root r) ++ workDrain w xdev (rest.length + fuel)
        ((rest.map Work.root ++ Q.map Work.queued) ++
          (dirs (workItems w xdev (Work.root r))).map Work.queued) = _
    rw [List.append_assoc, ← List.map_append, ih]
    simp [workItems, rootsItems, dirs_append]

theorem walkItems_eq_workDrain (w : World) (xdev : Bool) (roots : List String) (fuel : Nat) :
    (walkItems w xdev roots fuel).1 =
      workDrain w xdev (roots.length + fuel) (roots.map Work.root) := by
  have := workDrain_roots w xdev roots [] fuel
  simp only [List.map_nil, List.append_nil, List.nil_append] at this
  rw [this, workDrain_queued]
  rfl

/-! ## Lemmas: what an item is -/

theorem entryItem_some (w : World) (xdev : Bool) (p : String) (dev : Nat) (n : String)
    (i : Item) (h : entryItem w xdev p dev n = some i) :
    n ≠ "." ∧ n ≠ ".." ∧ (p ++ "/" ++ n).length < PATH_MAX ∧
      ∃ st, w.lstat (p ++ "/" ++ n) = some st ∧ (xdev = true → st.st_dev = dev) ∧
        ((st.st_mode = FileType.reg ∧ i = Item.file (p ++ "/" ++ n)) ∨
          (st.st_mode = FileType.dir ∧ i = Item.dir (p ++ "/" ++ n))) := by
  unfold entryItem at h
  split at h
  · exact absurd h (by simp)
  · rename_i hn
    simp only [] at h
    split at h
    · exact absurd h (by simp)
    · rename_i hl
      split at h
      · exact absurd h (by simp)
      · rename_i st hst
        split at h
        · exact absurd h (by simp)
        · rename_i hx
          refine ⟨fun e => hn (Or.inl e), fun e => hn (Or.inr e), by omega, st, hst, ?_, ?_⟩
          · intro hxd
            simpa [hxd] using hx
          · split at h
            · rename_i hm
              exact Or.inl ⟨hm, (Option.some.inj h).symm⟩
            · rename_i hm
              exact Or.inr ⟨hm, (Option.some.inj h).symm⟩
            · exact absurd h (by simp)

theorem dirItems_mem (w : World) (xdev : Bool) (D : String) (dev : Nat) (i : Item)
    (h : i ∈ dirItems w xdev D dev) : ∃ n, EntryOf w xdev D dev n i := by
  unfold dirItems at h
  cases hrd : w.readdir D with
  | none => simp [hrd] at h
  | some names =>
    simp only [hrd, List.mem_filterMap] at h
    obtain ⟨n, hn, he⟩ := h
    obtain ⟨h1, h2, _, st, h4, h5, h6⟩ := entryItem_some w xdev D dev n i he
    refine ⟨n, ⟨names, hrd, hn⟩, h1, h2, ?_, st, h4, h5, h6⟩
    rcases h6 with ⟨_, rfl⟩ | ⟨_, rfl⟩ <;> rfl

/-- What an item of a unit of work is: the operand itself, a regular file, or
an entry of the directory the unit processes, whose volume is the one passed
to `handle_directory`. -/
theorem workItems_mem (w : World) (xdev : Bool) (x : Work) (i : Item)
    (h : i ∈ workItems w xdev x) :
    (x = Work.root i.path ∧ i = Item.file i.path ∧
        ∃ st, w.lstat i.path = some st ∧ st.st_mode = FileType.reg) ∨
      ∃ st n, w.lstat x.path = some st ∧ EntryOf w xdev x.path st.st_dev n i := by
  cases x with
  | root p =>
    simp only [workItems, rootItems] at h
    cases hst : w.lstat p with
    | none => simp [hst] at h
    | some st =>
      simp only [hst] at h
      cases hm : st.st_mode with
      | reg =>
        simp only [hm, List.mem_singleton] at h
        subst h
        exact Or.inl ⟨rfl, rfl, st, hst, hm⟩
      | dir =>
        simp only [hm] at h
        obtain ⟨n, hn⟩ := dirItems_mem w xdev p st.st_dev i h
        exact Or.inr ⟨st, n, hst, hn⟩
      | other => simp [hm] at h
  | queued p =>
    simp only [workItems, queuedItems] at h
    cases hst : w.lstat p with
    | none => simp [hst] at h
    | some st =>
      simp only [hst] at h
      obtain ⟨n, hn⟩ := dirItems_mem w xdev p st.st_dev i h
      exact Or.inr ⟨st, n, hst, hn⟩

theorem kid_form (w : World) (xdev : Bool) (x : Work) (c : String)
    (h : c ∈ dirs (workItems w xdev x)) :
    ∃ st n, w.lstat x.path = some st ∧ EntryOf w xdev x.path st.st_dev n (Item.dir c) ∧
      c = x.path ++ "/" ++ n := by
  rw [mem_dirs] at h
  rcases workItems_mem w xdev x _ h with ⟨_, h2, _⟩ | ⟨st, n, h1, h2⟩
  · exact absurd h2 (by simp)
  · exact ⟨st, n, h1, h2, h2.2.2.2.1⟩

/-- Every item of the loop over pending work belongs to work that is visited,
when the pending work is. -/
theorem workDrain_visited (w : World) (xdev : Bool) (roots : List String) (fuel : Nat)
    (pend : List Work) (hp : ∀ x ∈ pend, Visited w xdev roots x) :
    ∀ i ∈ workDrain w xdev fuel pend, ∃ x, Visited w xdev roots x ∧ i ∈ workItems w xdev x := by
  induction fuel generalizing pend with
  | zero => cases pend <;> simp [workDrain]
  | succ fuel ih =>
    cases pend with
    | nil => simp [workDrain]
    | cons x rest =>
      intro i hi
      simp only [workDrain, List.mem_append] at hi
      rcases hi with hi | hi
      · exact ⟨x, hp x (by simp), hi⟩
      · refine ih _ ?_ i hi
        intro y hy
        rcases List.mem_append.1 hy with hy | hy
        · exact hp y (by simp [hy])
        · obtain ⟨c, hc, rfl⟩ := List.mem_map.1 hy
          exact Visited.kid x c (hp x (by simp)) hc

theorem walkItems_visited (w : World) (xdev : Bool) (roots : List String) (fuel : Nat) :
    ∀ i ∈ (walkItems w xdev roots fuel).1,
      ∃ x, Visited w xdev roots x ∧ i ∈ workItems w xdev x := by
  rw [walkItems_eq_workDrain]
  apply workDrain_visited
  intro x hx
  obtain ⟨r, hr, rfl⟩ := List.mem_map.1 hx
  exact Visited.root r hr

/-! ## Lemmas: the mount boundary -/

/-- The queue and the files handed to `handle_file` at the end of a run are
the directories and the files of an initial part of the items of the walk. -/
theorem run_items (w : World) (cfg : Config) (prog : String) (roots : List String)
    (fuel : Nat) (code : Nat) (s : State)
    (hrun : main_run w cfg prog roots fuel State.init = some (code, s)) :
    ∃ L, L <+: (walkItems w cfg.xdev_flag roots fuel).1 ∧ s.dir_queue = dirs L ∧
      emitted s.trace = files L := by
  by_cases hroots : roots = []
  · subst hroots
    have h := (main_run_no_roots w cfg prog fuel code s hrun).2
    refine ⟨[], List.nil_prefix, ?_, ?_⟩
    · rw [← abs_queue, h]; rfl
    · rw [← abs_emitted, h]; rfl
  · have hs := main_run_sim w cfg prog roots fuel hroots
    rw [hrun] at hs
    rcases hs with ⟨_, _, habs, _⟩ | ⟨_, _, habs, _⟩
    · refine ⟨_, cutAt_initial cfg _, ?_, ?_⟩
      · rw [← abs_queue, habs, feedAll_queue]; simp [startAbs]
      · rw [← abs_emitted, habs, feedAll_emitted]; simp [startAbs]
    · refine ⟨_, List.prefix_refl _, ?_, ?_⟩
      · rw [← abs_queue, habs, feedAll_queue]; simp [startAbs]
      · rw [← abs_emitted, habs, feedAll_emitted]; simp [startAbs]

theorem handle_directory_mem_trace (w : World) (cfg : Config) (prog : String)
    (roots : List String) (fuel : Nat) (code : Nat) (s : State)
    (hrun : main_run w cfg prog roots fuel State.init = some (code, s))
    (D : String) (dev : Nat) (h : Event.handle_directory D dev ∈ s.trace) :
    (∃ st, w.lstat D = some st ∧ st.st_dev = dev) ∧ (D ∈ roots ∨ D ∈ s.dir_queue) := by
  by_cases hroots : roots = []
  · subst hroots
    unfold main_run at hrun
    rw [if_pos rfl] at hrun
    simp only [Option.some.injEq, Prod.mk.injEq] at hrun
    obtain ⟨_, rfl⟩ := hrun
    simp [State.emit, State.init] at h
  · obtain ⟨hall, _⟩ := main_run_trace w cfg prog roots fuel code s hroots hrun
    have hitem : ∀ (D2 : String) (dev2 : Nat),
        (∃ i ∈ dirItems w cfg.xdev_flag D2 dev2, Event.handle_directory D dev = i.event) →
          False := by
      rintro D2 dev2 ⟨i, _, hi⟩
      cases i <;> simp [Item.event] at hi
    rcases hall _ h with ho | ⟨p, hp, hr⟩ | ⟨d, hd, hq⟩
    · simp [isOutput] at ho
    · rcases hr with hr | ⟨hr, _⟩ | ⟨st, hst, _, hr⟩
      · simp at hr
      · simp at hr
      · rcases hr with hr | hr
        · simp only [Event.handle_directory.injEq] at hr
          obtain ⟨rfl, rfl⟩ := hr
          exact ⟨⟨st, hst, rfl⟩, Or.inl hp⟩
        · exact absurd hr (hitem _ _)
    · rcases hq with hq | ⟨st, hst, hr⟩
      · simp at hq
      · rcases hr with hr | hr
        · simp only [Event.handle_directory.injEq] at hr
          obtain ⟨rfl, rfl⟩ := hr
          exact ⟨⟨st, hst, rfl⟩, Or.inr hd⟩
        · exact absurd hr (hitem _ _)

theorem visited_under (w : World) (xdev : Bool) (roots : List String) (x : Work)
    (h : Visited w xdev roots x) : ∃ r ∈ roots, x.path = r ∨ Below r x.path := by
  induction h with
  | root r hr => exact ⟨r, hr, Or.inl rfl⟩
  | kid y c _ hc ih =>
    obtain ⟨r, hr, h⟩ := ih
    obtain ⟨_, n, _, _, hcf⟩ := kid_form w xdev y c hc
    refine ⟨r, hr, Or.inr ?_⟩
    simp only [Work.path]
    rw [hcf]
    rcases h with h | h
    · rw [h]
      exact below_self_join r n
    · exact below_join r _ n h

theorem not_root_of_below (roots : List String) (hsep : Separate roots) (r p : String)
    (hr : r ∈ roots) (h : Below r p) : p ∉ roots :=
  fun hp => hsep.2 r hr p hp h

theorem dirs_filterMap_nodup (w : World) (xdev : Bool) (D : String) (dev : Nat)
    (names : List String) (hnd : names.Nodup) (hs : ∀ n ∈ names, '/' ∉ n.data) :
    (dirs (names.filterMap (entryItem w xdev D dev))).Nodup := by
  induction names with
  | nil => simp [dirs]
  | cons n rest ih =>
    have hrest := ih (List.nodup_cons.1 hnd).2 (fun m hm => hs m (by simp [hm]))
    cases he : entryItem w xdev D dev n with
    | none => simpa [List.filterMap_cons, he] using hrest
    | some i =>
      obtain ⟨_, _, _, st, _, _, h6⟩ := entryItem_some w xdev D dev n i he
      rcases h6 with ⟨_, rfl⟩ | ⟨_, rfl⟩
      · simpa [List.filterMap_cons, he, dirs] using hrest
      · simp only [List.filterMap_cons, he, dirs, List.nodup_cons]
        refine ⟨?_, hrest⟩
        intro hin
        rw [mem_dirs, List.mem_filterMap] at hin
        obtain ⟨m, hm, hme⟩ := hin
        obtain ⟨_, _, _, st2, _, _, h7⟩ := entryItem_some w xdev D dev m _ hme
        rcases h7 with ⟨_, h8⟩ | ⟨_, h8⟩
        · exact absurd h8 (by simp)
        · simp only [Item.dir.injEq] at h8
          obtain ⟨_, e⟩ := join_inj _ _ _ _ (hs n (by simp)) (hs m (by simp [hm])) h8
          subst e
          exact (List.nodup_cons.1 hnd).1 hm

theorem dirItems_dirs_nodup (w : World) (hwf : WellFormed w) (xdev : Bool) (D : String)
    (dev : Nat) : (dirs (dirItems w xdev D dev)).Nodup := by
  unfold dirItems
  cases hrd : w.readdir D with
  | none => simp [dirs]
  | some names =>
    exact dirs_filterMap_nodup w xdev D dev names (hwf D names hrd).1 (hwf D names hrd).2

theorem kids_nodup (w : World) (hwf : WellFormed w) (xdev : Bool) (x : Work) :
    (dirs (workItems w xdev x)).Nodup := by
  cases x with
  | root p =>
    simp only [workItems, rootItems]
    cases w.lstat p with
    | none => simp [dirs]
    | some st =>
      simp only []
      cases st.st_mode with
      | reg => simp [dirs]
      | dir => exact dirItems_dirs_nodup w hwf xdev p st.st_dev
      | other => simp [dirs]
  | queued p =>
    simp only [workItems, queuedItems]
    cases w.lstat p with
    | none => simp [dirs]
    | some st => exact dirItems_dirs_nodup w hwf xdev p st.st_dev

theorem kid_slashfree (w : World) (hwf : WellFormed w) (xdev : Bool) (x : Work) (c : String)
    (h : c ∈ dirs (workItems w xdev x)) :
    ∃ n, '/' ∉ n.data ∧ c = x.path ++ "/" ++ n := by
  obtain ⟨_, n, _, hent, hcf⟩ := kid_form w xdev x c h
  obtain ⟨⟨names, hrd, hn⟩, _⟩ := hent
  exact ⟨n, (hwf _ _ hrd).2 n hn, hcf⟩

theorem BfsInv.init (w : World) (xdev : Bool) (roots : List String) (hsep : Separate roots) :
    BfsInv w xdev roots [] (roots.map Work.root) := by
  refine ⟨?_, ?_, ?_⟩
  · simpa [List.map_map, Function.comp_def, Work.path] using hsep.1
  · intro x hx
    simp only [List.nil_append, List.mem_map] at hx
    obtain ⟨r, hr, rfl⟩ := hx
    exact Or.inl ⟨r, hr, rfl⟩
  · intro x hx
    simp only [List.nil_append, List.mem_map] at hx
    obtain ⟨r, hr, rfl⟩ := hx
    exact Visited.root r hr

/-- A directory found by the head of the pending work is new: its path is
that of no processed or pending unit. -/
theorem kid_fresh (w : World) (hwf : WellFormed w) (xdev : Bool) (roots : List String)
    (hsep : Separate roots) (done : List Work) (x : Work) (rest : List Work)
    (inv : BfsInv w xdev roots done (x :: rest)) (c : String)
    (hc : c ∈ dirs (workItems w xdev x)) :
    c ∉ (done ++ x :: rest).map Work.path := by
  intro hin
  obtain ⟨y, hy, hyc⟩ := List.mem_map.1 hin
  obtain ⟨n, hn, hcf⟩ := kid_slashfree w hwf xdev x c hc
  obtain ⟨r, hr, hxr⟩ := visited_under w xdev roots x (inv.visited x (by simp))
  have hbelow : Below r c := by
    rw [hcf]
    rcases hxr with h | h
    · rw [h]
      exact below_self_join r n
    · exact below_join r _ n h
  rcases inv.origin y hy with ⟨r2, hr2, rfl⟩ | ⟨d, hd, c2, hc2, rfl⟩
  · simp only [Work.path] at hyc
    subst hyc
    exact not_root_of_below roots hsep r _ hr hbelow hr2
  · simp only [Work.path] at hyc
    subst hyc
    obtain ⟨n2, hn2, hcf2⟩ := kid_slashfree w hwf xdev d _ hc2
    rw [hcf] at hcf2
    obtain ⟨e, _⟩ := join_inj _ _ _ _ hn hn2 hcf2
    have hnd := inv.nodup
    rw [List.map_append, List.map_cons] at hnd
    have hdis := (List.nodup_append.1 hnd).2.2
    exact hdis (List.mem_map.2 ⟨d, hd, rfl⟩) (by rw [← e]; simp)

theorem BfsInv.step (w : World) (hwf : WellFormed w) (xdev : Bool) (roots : List String)
    (hsep : Separate roots) (done : List Work) (x : Work) (rest : List Work)
    (inv : BfsInv w xdev roots done (x :: rest)) :
    BfsInv w xdev roots (done ++ [x])
      (rest ++ (dirs (workItems w xdev x)).map Work.queued) := by
  have hlist : (done ++ [x]) ++ (rest ++ (dirs (workItems w xdev x)).map Work.queued) =
      (done ++ x :: rest) ++ (dirs (workItems w xdev x)).map Work.queued := by
    simp
  refine ⟨?_, ?_, ?_⟩
  · rw [hlist, List.map_append, List.map_map]
    have hid : (Work.path ∘ Work.queued) = id := by
      funext c
      rfl
    rw [hid, List.map_id]
    refine List.nodup_append.2 ⟨inv.nodup, kids_nodup w hwf xdev x, ?_⟩
    intro p hp hk
    exact kid_fresh w hwf xdev roots hsep done x rest inv p hk hp
  · intro y hy
    rw [hlist] at hy
    rcases List.mem_append.1 hy with hy | hy
    · rcases inv.origin y hy with h | ⟨d, hd, h⟩
      · exact Or.inl h
      · exact Or.inr ⟨d, by simp [hd], h⟩
    · obtain ⟨c, hc, rfl⟩ := List.mem_map.1 hy
      exact Or.inr ⟨x, by simp, c, hc, rfl⟩
  · intro y hy
    rw [hlist] at hy
    rcases List.mem_append.1 hy with hy | hy
    · exact inv.visited y hy
    · obtain ⟨c, hc, rfl⟩ := List.mem_map.1 hy
      exact Visited.kid x c (inv.visited x (by simp)) hc

/-- No path occurs twice among the processed work, the pending work and the
directories the loop finds. -/
theorem workDrain_nodup (w : World) (hwf : WellFormed w) (xdev : Bool) (roots : List String)
    (hsep : Separate roots) (fuel : Nat) (done pend : List Work)
    (inv : BfsInv w xdev roots done pend) :
    ((done ++ pend).map Work.path ++ dirs (workDrain w xdev fuel pend)).Nodup := by
  induction fuel generalizing done pend with
  | zero =>
    cases pend with
    | nil => simpa [workDrain, dirs] using inv.nodup
    | cons x rest => simpa [workDrain, dirs] using inv.nodup
  | succ fuel ih =>
    cases pend with
    | nil => simpa [workDrain, dirs] using inv.nodup
    | cons x rest =>
      have h := ih _ _ (BfsInv.step w hwf xdev roots hsep done x rest inv)
      simp only [workDrain, dirs_append]
      have hid : (Work.path ∘ Work.queued) = id := by
        funext c
        rfl
      simpa [List.map_append, List.map_map, hid, List.append_assoc] using h

/-! ## Lemmas: the order of the files -/

/-- Where an item of the loop over pending work comes from: a pending unit,
or a directory the loop finds. -/
theorem workDrain_source (w : World) (xdev : Bool) (fuel : Nat) (pend : List Work) (i : Item)
    (h : i ∈ workDrain w xdev fuel pend) :
    ∃ y, (y ∈ pend ∨ ∃ c ∈ dirs (workDrain w xdev fuel pend), y = Work.queued c) ∧
      i ∈ workItems w xdev y := by
  induction fuel generalizing pend with
  | zero => cases pend <;> simp [workDrain] at h
  | succ fuel ih =>
    cases pend with
    | nil => simp [workDrain] at h
    | cons x rest =>
      simp only [workDrain, List.mem_append] at h
      rcases h with h | h
      · exact ⟨x, Or.inl (by simp), h⟩
      · obtain ⟨y, hy, hi⟩ := ih _ h
        refine ⟨y, ?_, hi⟩
        rcases hy with hy | ⟨c, hc, rfl⟩
        · rcases List.mem_append.1 hy with hy | hy
          · exact Or.inl (by simp [hy])
          · obtain ⟨c, hc, rfl⟩ := List.mem_map.1 hy
            exact Or.inr ⟨c, by simp [workDrain, dirs_append, hc], rfl⟩
        · exact Or.inr ⟨c, by simp [workDrain, dirs_append, hc], rfl⟩

theorem workDrain_dirs_visited (w : World) (xdev : Bool) (roots : List String) (fuel : Nat)
    (pend : List Work) (hp : ∀ x ∈ pend, Visited w xdev roots x) (c : String)
    (h : c ∈ dirs (workDrain w xdev fuel pend)) : Visited w xdev roots (Work.queued c) := by
  rw [mem_dirs] at h
  obtain ⟨x, hx, hi⟩ := workDrain_visited w xdev roots fuel pend hp _ h
  exact Visited.kid x c hx ((mem_dirs _ _).2 hi)

/-- A file `y/m` among the items of a unit of work: the unit processes `y`,
unless the file is an operand. -/
theorem file_parent (w : World) (hwf : WellFormed w) (xdev : Bool) (x : Work) (D m : String)
    (hm : '/' ∉ m.data) (h : Item.file (D ++ "/" ++ m) ∈ workItems w xdev x) :
    x = Work.root (D ++ "/" ++ m) ∨ x.path = D := by
  rcases workItems_mem w xdev x _ h with ⟨h1, _, _⟩ | ⟨_, n, _, hent⟩
  · exact Or.inl h1
  · right
    obtain ⟨⟨names, hrd, hn⟩, _, _, hp, _⟩ := hent
    have hns := (hwf _ _ hrd).2 n hn
    simp only [Item.path] at hp
    exact (join_inj _ _ _ _ hm hns hp).1.symm

/-- In the loop over pending work no file of a directory comes after a file
of one of its subdirectories. -/
theorem workDrain_order (w : World) (hwf : WellFormed w) (xdev : Bool) (roots : List String)
    (hsep : Separate roots) (D1 n m1 m2 : String) (hn : '/' ∉ n.data)
    (hm1 : '/' ∉ m1.data) (hm2 : '/' ∉ m2.data)
    (hf1 : D1 ++ "/" ++ m1 ∉ roots) (hf2 : D1 ++ "/" ++ n ++ "/" ++ m2 ∉ roots)
    (fuel : Nat) (done pend : List Work) (inv : BfsInv w xdev roots done pend)
    (a b : List String)
    (h : files (workDrain w xdev fuel pend) = a ++ (D1 ++ "/" ++ n ++ "/" ++ m2) :: b) :
    D1 ++ "/" ++ m1 ∉ b := by
  induction fuel generalizing done pend a b with
  | zero => cases pend <;> simp [workDrain, files] at h
  | succ fuel ih =>
    cases pend with
    | nil => simp [workDrain, files] at h
    | cons x rest =>
      have inv2 := BfsInv.step w hwf xdev roots hsep done x rest inv
      simp only [workDrain, files_append] at h
      rcases List.append_eq_append_iff.1 h with ⟨a2, _, h2⟩ | ⟨c2, h1, h2⟩
      · exact ih _ _ inv2 a2 b h2
      · cases c2 with
        | nil =>
          simp only [List.nil_append] at h2
          exact ih _ _ inv2 [] b h2.symm
        | cons f c3 =>
          simp only [List.cons_append, List.cons.injEq] at h2
          obtain ⟨rfl, hb⟩ := h2
          have hx2 : Item.file (D1 ++ "/" ++ n ++ "/" ++ m2) ∈ workItems w xdev x := by
            rw [← mem_files, h1]
            simp
          have hxp : x.path = D1 ++ "/" ++ n := by
            rcases file_parent w hwf xdev x _ m2 hm2 hx2 with hr | hp
            · exfalso
              rcases inv.origin x (by simp) with ⟨r, hr2, hxr⟩ | ⟨_, _, _, _, hxq⟩
              · rw [hr] at hxr
                simp only [Work.root.injEq] at hxr
                rw [hxr] at hf2
                exact hf2 hr2
              · rw [hr] at hxq
                simp at hxq
            · exact hp
          intro hin
          rw [hb] at hin
          rcases List.mem_append.1 hin with hin | hin
          · have hx1 : Item.file (D1 ++ "/" ++ m1) ∈ workItems w xdev x := by
              rw [← mem_files, h1]
              simp [hin]
            rcases file_parent w hwf xdev x _ m1 hm1 hx1 with hr | hp
            · have hv := inv.visited x (by simp)
              rw [hr] at hv
              cases hv
              exact hf1 (by assumption)
            · rw [hxp] at hp
              exact below_ne D1 (D1 ++ "/" ++ n) (below_self_join D1 n) hp.symm
          · rw [mem_files] at hin
            obtain ⟨y, hy, hiy⟩ := workDrain_source w xdev fuel _ _ hin
            have hyv : Visited w xdev roots y := by
              rcases hy with hy | ⟨c, hc, rfl⟩
              · exact inv2.visited y (List.mem_append_right _ hy)
              · exact workDrain_dirs_visited w xdev roots fuel _
                  (fun z hz => inv2.visited z (List.mem_append_right _ hz)) c hc
            have hyp : y.path = D1 := by
              rcases file_parent w hwf xdev y _ m1 hm1 hiy with hr | hp
              · exfalso
                rw [hr] at hyv
                cases hyv
                exact hf1 (by assumption)
              · exact hp
            have hnd := workDrain_nodup w hwf xdev roots hsep fuel _ _ inv2
            have hyin : D1 ∈ (rest ++ (dirs (workItems w xdev x)).map Work.queued).map
                Work.path ++ dirs (workDrain w xdev fuel
                  (rest ++ (dirs (workItems w xdev x)).map Work.queued)) := by
              rcases hy with hy | ⟨c, hc, rfl⟩
              · exact List.mem_append_left _ (List.mem_map.2 ⟨y, hy, hyp⟩)
              · simp only [Work.path] at hyp
                rw [hyp] at hc
                exact List.mem_append_right _ hc
            rcases inv.origin x (by simp) with ⟨r, hr, hxr⟩ | ⟨d, hd, c, hc, hxq⟩
            · obtain ⟨r2, hr2, hu⟩ := visited_under w xdev roots y hyv
              rw [hyp] at hu
              have hbel : Below r2 (D1 ++ "/" ++ n) := by
                rcases hu with hu | hu
                · rw [hu]
                  exact below_self_join r2 n
                · exact below_join r2 _ n hu
              rw [hxr] at hxp
              simp only [Work.path] at hxp
              rw [← hxp] at hbel
              exact hsep.2 r2 hr2 r hr hbel
            · obtain ⟨n4, hn4, hcf⟩ := kid_slashfree w hwf xdev d c hc
              rw [hxq] at hxp
              simp only [Work.path] at hxp
              rw [hxp] at hcf
              obtain ⟨e, _⟩ := join_inj _ _ _ _ hn hn4 hcf
              have hdin : D1 ∈ (done ++ [x]).map Work.path := by
                rw [e]
                exact List.mem_map.2 ⟨d, by simp [hd], rfl⟩
              rw [List.map_append, List.append_assoc] at hnd
              exact (List.nodup_append.1 hnd).2.2 hdin hyin

theorem dirs_initial (a b : List Item) (h : a <+: b) : dirs a <+: dirs b := by
  obtain ⟨c, rfl⟩ := h
  rw [dirs_append]
  exact List.prefix_append _ _

theorem separate_singleton (r : String) : Separate [r] := by
  refine ⟨by simp, ?_⟩
  intro r1 h1 r2 h2 hb
  simp only [List.mem_singleton] at h1 h2
  subst h1 h2
  exact below_ne _ _ hb rfl

theorem exampleWorld_wellFormed : WellFormed exampleWorld := by
  intro p names h
  simp only [exampleWorld] at h
  split at h
  · simp only [Option.some.injEq] at h
    subst h
    decide
  · split at h
    · simp only [Option.some.injEq] at h
      subst h
      decide
    · exact absurd h (by simp)

theorem walk_nodup (w : World) (hwf : WellFormed w) (xdev : Bool) (roots : List String)
    (hsep : Separate roots) (fuel : Nat) :
    (roots ++ dirs (walkItems w xdev roots fuel).1).Nodup := by
  have h := workDrain_nodup w hwf xdev roots hsep (roots.length + fuel) []
    (roots.map Work.root) (BfsInv.init w xdev roots hsep)
  rw [walkItems_eq_workDrain]
  have hid : (Work.path ∘ Work.root) = id := by
    funext c
    rfl
  simpa [List.map_map, hid] using h

theorem queued_under (w : World) (xdev : Bool) (roots : List String) (fuel : Nat) (q : String)
    (h : q ∈ dirs (walkItems w xdev roots fuel).1) : ∃ r ∈ roots, Below r q := by
  rw [mem_dirs] at h
  obtain ⟨x, hx, hi⟩ := walkItems_visited w xdev roots fuel _ h
  obtain ⟨r, hr, hu⟩ := visited_under w xdev roots x hx
  obtain ⟨_, n, _, _, hcf⟩ := kid_form w xdev x q ((mem_dirs _ _).2 hi)
  refine ⟨r, hr, ?_⟩
  rw [hcf]
  rcases hu with hu | hu
  · rw [hu]
    exact below_self_join r n
  · exact below_join r _ n hu

/-! ## Worlds that give the same walk -/

theorem runSim_unique (cfg : Config) (ref : List Item × Bool) (r1 r2 : Option (Nat × State))
    (h1 : RunSim cfg ref r1) (h2 : RunSim cfg ref r2) : observe r1 = observe r2 := by
  cases r1 with
  | none =>
    cases r2 with
    | none => rfl
    | some x2 =>
      obtain ⟨c2, s2⟩ := x2
      obtain ⟨hd, hn⟩ := h1
      rcases h2 with ⟨⟨i, hi, hh⟩, _⟩ | ⟨_, hd2, _⟩
      · rw [hn i hi] at hh; cases hh
      · rw [hd] at hd2; cases hd2
  | some x1 =>
    obtain ⟨c1, s1⟩ := x1
    cases r2 with
    | none =>
      obtain ⟨hd, hn⟩ := h2
      rcases h1 with ⟨⟨i, hi, hh⟩, _⟩ | ⟨_, hd1, _⟩
      · rw [hn i hi] at hh; cases hh
      · rw [hd] at hd1; cases hd1
    | some x2 =>
      obtain ⟨c2, s2⟩ := x2
      rcases h1 with ⟨⟨i, hi, hh⟩, hc1, ha1, _⟩ | ⟨hn1, _, ha1, hc1⟩
      · rcases h2 with ⟨_, hc2, ha2, _⟩ | ⟨hn2, _⟩
        · simp only [observe, Option.map_some', hc1, hc2, ha1, ha2]
        · rw [hn2 i hi] at hh; cases hh
      · rcases h2 with ⟨⟨i, hi, hh⟩, _⟩ | ⟨_, _, ha2, hc2⟩
        · rw [hn1 i hi] at hh; cases hh
        · have hpf : s1.process_files = s2.process_files := by
            have e1 := congrArg Abs.pf ha1
            have e2 := congrArg Abs.pf ha2
            simp only [State.abs] at e1 e2
            rw [e1, e2]
          have hcode : (main_finish cfg s1).1 = (main_finish cfg s2).1 := by
            unfold main_finish
            rw [hpf]
            split
            · rfl
            · split <;> rfl
          simp only [observe, Option.map_some', hc1, hc2, ha1, ha2, hcode]

theorem main_run_observe_congr (w1 w2 : World) (cfg : Config) (prog : String)
    (roots : List String) (fuel : Nat)
    (h : walkItems w1 cfg.xdev_flag roots fuel = walkItems w2 cfg.xdev_flag roots fuel) :
    observe (main_run w1 cfg prog roots fuel State.init) =
      observe (main_run w2 cfg prog roots fuel State.init) := by
  by_cases hroots : roots = []
  · subst hroots
    unfold main_run
    rw [if_pos rfl, if_pos rfl]
  · have h1 := main_run_sim w1 cfg prog roots fuel hroots
    have h2 := main_run_sim w2 cfg prog roots fuel hroots
    rw [h] at h1
    exact runSim_unique cfg _ _ _ h1 h2

/-- Two worlds whose directory listings give the same items, and whose queued
paths of the class `Good` give the same items, give the same drain. -/
theorem drainItems_congr (w1 w2 : World) (xdev : Bool) (Good : String → Prop)
    (hq : ∀ d, Good d → queuedItems w1 xdev d = queuedItems w2 xdev d)
    (hk : ∀ d, Good d → ∀ c ∈ dirs (queuedItems w1 xdev d), Good c) :
    ∀ (fuel : Nat) (pending : List String), (∀ d ∈ pending, Good d) →
      drainItems w1 xdev fuel pending = drainItems w2 xdev fuel pending := by
  intro fuel
  induction fuel with
  | zero =>
    intro pending _
    cases pending <;> rfl
  | succ n ih =>
    intro pending hp
    cases pending with
    | nil => rfl
    | cons d rest =>
      have hd := hq d (hp d (List.mem_cons_self _ _))
      have hrec := ih (rest ++ dirs (queuedItems w1 xdev d)) (by
        intro c hc
        rcases List.mem_append.1 hc with hc | hc
        · exact hp c (List.mem_cons_of_mem _ hc)
        · exact hk d (hp d (List.mem_cons_self _ _)) c hc)
      simp only [drainItems]
      rw [← hd, hrec]

theorem rootsItems_congr (w1 w2 : World) (xdev : Bool)
    (hr : ∀ r, rootItems w1 xdev r = rootItems w2 xdev r) (roots : List String) :
    rootsItems w1 xdev roots = rootsItems w2 xdev roots := by
  induction roots with
  | nil => rfl
  | cons r rest ih => simp only [rootsItems, hr, ih]

theorem walkItems_congr (w1 w2 : World) (xdev : Bool) (Good : String → Prop)
    (hr : ∀ r, rootItems w1 xdev r = rootItems w2 xdev r)
    (hg : ∀ r, ∀ c ∈ dirs (rootItems w1 xdev r), Good c)
    (hq : ∀ d, Good d → queuedItems w1 xdev d = queuedItems w2 xdev d)
    (hk : ∀ d, Good d → ∀ c ∈ dirs (queuedItems w1 xdev d), Good c)
    (roots : List String) (fuel : Nat) :
    walkItems w1 xdev roots fuel = walkItems w2 xdev roots fuel := by
  have h1 := rootsItems_congr w1 w2 xdev hr roots
  have hgood : ∀ c ∈ dirs (rootsItems w1 xdev roots), Good c := by
    clear h1
    induction roots with
    | nil => intro c hc; simp [rootsItems, dirs] at hc
    | cons r rest ih =>
      intro c hc
      simp only [rootsItems, dirs_append] at hc
      rcases List.mem_append.1 hc with hc | hc
      · exact hg r c hc
      · exact ih c hc
  have h2 := drainItems_congr w1 w2 xdev Good hq hk fuel _ hgood
  unfold walkItems
  simp only
  rw [← h1, h2]

theorem walkItems_withSystem (w : World) (sys : Nat → String → Int) (xdev : Bool)
    (roots : List String) (fuel : Nat) :
    walkItems (w.withSystem sys) xdev roots fuel = walkItems w xdev roots fuel := by
  apply walkItems_congr _ _ xdev (fun _ => True)
  · intro r; rfl
  · intro _ _ _; trivial
  · intro d _; rfl
  · intro _ _ _ _; trivial

theorem dirItems_emptied (w : World) (D : String) (h : w.readdir D = none) (xdev : Bool)
    (p : String) (dev : Nat) :
    dirItems (w.emptied D) xdev p dev = dirItems w xdev p dev := by
  unfold dirItems
  by_cases hp : p = D
  · subst hp
    rw [h]
    simp [World.emptied]
  · have hrd : (w.emptied D).readdir p = w.readdir p := by
      simp [World.emptied, hp]
    rw [hrd]
    rfl

theorem walkItems_emptied (w : World) (D : String) (h : w.readdir D = none) (xdev : Bool)
    (roots : List String) (fuel : Nat) :
    walkItems (w.emptied D) xdev roots fuel = walkItems w xdev roots fuel := by
  apply walkItems_congr _ _ xdev (fun _ => True)
  · intro r
    unfold rootItems
    have hl : (w.emptied D).lstat r = w.lstat r := rfl
    rw [hl]
    cases w.lstat r with
    | none => rfl
    | some st =>
      simp only
      cases st.st_mode with
      | reg => rfl
      | dir => exact dirItems_emptied w D h xdev r st.st_dev
      | other => rfl
  · intro _ _ _; trivial
  · intro d _
    unfold queuedItems
    have hl : (w.emptied D).lstat d = w.lstat d := rfl
    rw [hl]
    cases w.lstat d with
    | none => rfl
    | some st => exact dirItems_emptied w D h xdev d st.st_dev
  · intro _ _ _ _; trivial

theorem entryItem_of_other (w : World) (xdev : Bool) (p : String) (dev : Nat) (n : String)
    (h : isOther w (p ++ "/" ++ n) = true) : entryItem w xdev p dev n = none := by
  unfold isOther at h
  unfold entryItem
  cases hst : w.lstat (p ++ "/" ++ n) with
  | none => rw [hst] at h; cases h
  | some st =>
    rw [hst] at h
    have hm : st.st_mode = FileType.other := by simpa using h
    split
    · rfl
    · simp only []
      split
      · rfl
      · rw [hst]
        simp only [hm]
        split <;> rfl

theorem entryItem_stripped (w : World) (xdev : Bool) (p : String) (dev : Nat) (n : String)
    (h : isOther w (p ++ "/" ++ n) = false) :
    entryItem w.stripped xdev p dev n = entryItem w xdev p dev n := by
  have hl : w.stripped.lstat (p ++ "/" ++ n) = w.lstat (p ++ "/" ++ n) := by
    simp [World.stripped, h]
  unfold entryItem
  simp only [hl]

theorem dirItems_stripped (w : World) (xdev : Bool) (p : String) (dev : Nat) :
    dirItems w.stripped xdev p dev = dirItems w xdev p dev := by
  unfold dirItems
  have hrd : w.stripped.readdir p =
      (w.readdir p).map (fun names => names.filter (fun n => !isOther w (p ++ "/" ++ n))) := rfl
  rw [hrd]
  cases w.readdir p with
  | none => rfl
  | some names =>
    simp only [Option.map_some']
    induction names with
    | nil => rfl
    | cons n t ih =>
      cases hn : isOther w (p ++ "/" ++ n) with
      | true =>
        rw [List.filter_cons_of_neg (by simp [hn]), List.filterMap_cons,
          entryItem_of_other w xdev p dev n hn]
        exact ih
      | false =>
        rw [List.filter_cons_of_pos (by simp [hn]), List.filterMap_cons, List.filterMap_cons,
          entryItem_stripped w xdev p dev n hn, ih]

theorem rootItems_stripped (w : World) (xdev : Bool) (r : String) :
    rootItems w.stripped xdev r = rootItems w xdev r := by
  unfold rootItems
  have hl : w.stripped.lstat r = if isOther w r then none else w.lstat r := rfl
  rw [hl]
  unfold isOther
  cases hst : w.lstat r with
  | none => simp
  | some st =>
    cases hm : st.st_mode with
    | reg => simp [hm, hst]
    | dir => simp [hm, hst, dirItems_stripped]
    | other => simp [hm]

theorem queuedItems_stripped (w : World) (xdev : Bool) (d : String) (st : Stat)
    (hst : w.lstat d = some st) (hm : st.st_mode = FileType.dir) :
    queuedItems w.stripped xdev d = queuedItems w xdev d := by
  unfold queuedItems
  have hl : w.stripped.lstat d = if isOther w d then none else w.lstat d := rfl
  rw [hl]
  unfold isOther
  simp [hst, hm, dirItems_stripped]

theorem walkItems_stripped (w : World) (xdev : Bool) (roots : List String) (fuel : Nat) :
    walkItems w.stripped xdev roots fuel = walkItems w xdev roots fuel := by
  apply walkItems_congr _ _ xdev
    (fun d => ∃ st, w.lstat d = some st ∧ st.st_mode = FileType.dir)
  · exact rootItems_stripped w xdev
  · intro r c hc
    rw [rootItems_stripped] at hc
    have := kid_form w xdev (Work.root r) c hc
    obtain ⟨_, n, _, ⟨_, _, _, _, st, hst, _, hk⟩, hcf⟩ := this
    rcases hk with ⟨_, hk⟩ | ⟨hm, _⟩
    · cases hk
    · exact ⟨st, by rw [hcf]; exact hst, hm⟩
  · intro d ⟨st, hst, hm⟩
    exact queuedItems_stripped w xdev d st hst hm
  · intro d ⟨st0, hst0, hm0⟩ c hc
    rw [queuedItems_stripped w xdev d st0 hst0 hm0] at hc
    have := kid_form w xdev (Work.queued d) c hc
    obtain ⟨_, n, _, ⟨_, _, _, _, st, hst, _, hk⟩, hcf⟩ := this
    rcases hk with ⟨_, hk⟩ | ⟨hm, _⟩
    · cases hk
    · exact ⟨st, by rw [hcf]; exact hst, hm⟩

theorem queued_is_dir (w : World) (xdev : Bool) (roots : List String) (fuel : Nat) (q : String)
    (h : q ∈ dirs (walkItems w xdev roots fuel).1) :
    ∃ st, w.lstat q = some st ∧ st.st_mode = FileType.dir := by
  rw [mem_dirs] at h
  obtain ⟨x, _, hi⟩ := walkItems_visited w xdev roots fuel _ h
  obtain ⟨_, n, _, ⟨_, _, _, _, st, hst, _, hk⟩, hcf⟩ :=
    kid_form w xdev x q ((mem_dirs _ _).2 hi)
  rcases hk with ⟨_, hk⟩ | ⟨hm, _⟩
  · cases hk
  · exact ⟨st, by rw [hcf]; exact hst, hm⟩

theorem handle_directory_on_dir (w : World) (cfg : Config) (prog : String)
    (roots : List String) (fuel : Nat) (code : Nat) (s : State)
    (hrun : main_run w cfg prog roots fuel State.init = some (code, s))
    (D : String) (dev : Nat) (h : Event.handle_directory D dev ∈ s.trace) :
    ∃ st, w.lstat D = some st ∧ st.st_mode = FileType.dir := by
  by_cases hroots : roots = []
  · subst hroots
    unfold main_run at hrun
    rw [if_pos rfl] at hrun
    simp only [Option.some.injEq, Prod.mk.injEq] at hrun
    obtain ⟨_, rfl⟩ := hrun
    simp [State.emit, State.init] at h
  · obtain ⟨hall, _⟩ := main_run_trace w cfg prog roots fuel code s hroots hrun
    have hitem : ∀ (D2 : String) (dev2 : Nat),
        ¬ (∃ i ∈ dirItems w cfg.xdev_flag D2 dev2, Event.handle_directory D dev = i.event) := by
      rintro D2 dev2 ⟨i, _, hi⟩
      cases i <;> cases hi
    rcases hall _ h with ho | ⟨p, _, hp⟩ | ⟨d, hd, hq⟩
    · cases ho
    · rcases hp with hp | ⟨hp, _⟩ | ⟨st, hst, hm, hp | hp⟩
      · cases hp
      · cases hp
      · cases hp
        exact ⟨st, hst, hm⟩
      · exact absurd hp (hitem _ _)
    · rcases hq with hq | ⟨st, hst, hq | hq⟩
      · cases hq
      · cases hq
        obtain ⟨L, hL, hqueue, _⟩ := run_items w cfg prog roots fuel code s hrun
        rw [hqueue] at hd
        have hmem : D ∈ dirs (walkItems w cfg.xdev_flag roots fuel).1 := by
          rw [mem_dirs] at hd ⊢
          exact hL.subset hd
        exact queued_is_dir w cfg.xdev_flag roots fuel D hmem
      · exact absurd hq (hitem _ _)

/-! ## Lemmas: the reference of the enqueuing directory -/

theorem entryItem_dev_irrelevant (w : World) (p : String) (d1 d2 : Nat) (n : String) :
    entryItem w false p d1 n = entryItem w false p d2 n := by
  unfold entryItem
  simp

theorem dirItems_dev_irrelevant (w : World) (p : String) (d1 d2 : Nat) :
    dirItems w false p d1 = dirItems w false p d2 := by
  unfold dirItems
  cases w.readdir p with
  | none => rfl
  | some names =>
    have h : entryItem w false p d1 = entryItem w false p d2 :=
      funext (entryItem_dev_irrelevant w p d1 d2)
    simp only [h]

theorem queuedItems_eq_ref (w : World) (xdev : Bool) (d : String) (st : Stat) (ref : Nat)
    (hst : w.lstat d = some st) (h : xdev = true → st.st_dev = ref) :
    queuedItems w xdev d = dirItems w xdev d ref := by
  unfold queuedItems
  rw [hst]
  cases xdev with
  | true => simp only; rw [h rfl]
  | false => exact dirItems_dev_irrelevant w d _ _

theorem dirItems_kid_volume (w : World) (xdev : Bool) (d : String) (ref : Nat) (c : String)
    (hc : c ∈ dirs (dirItems w xdev d ref)) :
    ∃ st, w.lstat c = some st ∧ (xdev = true → st.st_dev = ref) := by
  rw [mem_dirs] at hc
  unfold dirItems at hc
  cases hrd : w.readdir d with
  | none => simp [hrd] at hc
  | some names =>
    simp only [hrd, List.mem_filterMap] at hc
    obtain ⟨n, _, he⟩ := hc
    obtain ⟨_, _, _, _, st, h5, _, h7⟩ := entryItem_dir w xdev d ref n c he
    exact ⟨st, h5, h7⟩

theorem parentBoundaryDrain_eq (w : World) (xdev : Bool) (fuel : Nat)
    (P : List (String × Nat))
    (hP : ∀ x ∈ P, ∃ st, w.lstat x.1 = some st ∧ (xdev = true → st.st_dev = x.2)) :
    parentBoundaryDrain w xdev fuel P = drainItems w xdev fuel (P.map Prod.fst) := by
  induction fuel generalizing P with
  | zero => cases P <;> rfl
  | succ fuel ih =>
    cases P with
    | nil => rfl
    | cons x rest =>
      obtain ⟨d, ref⟩ := x
      obtain ⟨st, hst, hdev⟩ := hP (d, ref) (List.mem_cons_self _ _)
      have hq := queuedItems_eq_ref w xdev d st ref hst hdev
      have hvol : volumeOf w d = st.st_dev := by
        simp [volumeOf, classify, hst]
      simp only [parentBoundaryDrain, List.map_cons, drainItems]
      rw [hq, ih]
      · simp [List.map_append, List.map_map, Function.comp_def]
      · intro y hy
        rcases List.mem_append.1 hy with hy | hy
        · exact hP y (List.mem_cons_of_mem _ hy)
        · obtain ⟨c, hc, rfl⟩ := List.mem_map.1 hy
          obtain ⟨stc, hstc, hdevc⟩ := dirItems_kid_volume w xdev d ref c hc
          refine ⟨stc, hstc, ?_⟩
          intro hx
          show stc.st_dev = volumeOf w d
          rw [hvol, hdevc hx, hdev hx]

theorem parentBoundaryRoots_eq (w : World) (xdev : Bool) (roots : List String) :
    (parentBoundaryRoots w xdev roots).1 = rootsItems w xdev roots ∧
      (parentBoundaryRoots w xdev roots).2.map Prod.fst = dirs (rootsItems w xdev roots) ∧
      ∀ x ∈ (parentBoundaryRoots w xdev roots).2,
        ∃ st, w.lstat x.1 = some st ∧ (xdev = true → st.st_dev = x.2) := by
  induction roots with
  | nil => simp [parentBoundaryRoots, rootsItems, dirs]
  | cons r rest ih =>
    obtain ⟨h1, h2, h3⟩ := ih
    refine ⟨?_, ?_, ?_⟩
    · simp only [parentBoundaryRoots, rootsItems, h1]
    · simp only [parentBoundaryRoots, rootsItems, dirs_append, List.map_append, h2,
        List.map_map, Function.comp_def, List.map_id']
    · intro x hx
      simp only [parentBoundaryRoots] at hx
      rcases List.mem_append.1 hx with hx | hx
      · obtain ⟨c, hc, rfl⟩ := List.mem_map.1 hx
        unfold rootItems at hc
        cases hst : w.lstat r with
        | none => simp [hst, dirs] at hc
        | some st =>
          simp only [hst] at hc
          cases hm : st.st_mode with
          | reg => simp [hm, dirs] at hc
          | other => simp [hm, dirs] at hc
          | dir =>
            simp only [hm] at hc
            obtain ⟨stc, hstc, hdevc⟩ := dirItems_kid_volume w xdev r st.st_dev c hc
            refine ⟨stc, hstc, ?_⟩
            intro hx
            show stc.st_dev = volumeOf w r
            simp [volumeOf, classify, hst, hdevc hx]
      · exact h3 x hx

theorem parentBoundaryWalk_eq (w : World) (xdev : Bool) (roots : List String) (fuel : Nat) :
    parentBoundaryWalk w xdev roots fuel = walkItems w xdev roots fuel := by
  obtain ⟨h1, h2, h3⟩ := parentBoundaryRoots_eq w xdev roots
  unfold parentBoundaryWalk walkItems
  simp only
  rw [parentBoundaryDrain_eq w xdev fuel _ h3, h1, h2]

/-! ## Lemmas: the gate on a sequence of paths -/

theorem files_map_file (ps : List String) : files (ps.map Item.file) = ps := by
  induction ps with
  | nil => rfl
  | cons p t ih => simp [files, ih]

theorem dirs_map_file (ps : List String) : dirs (ps.map Item.file) = [] := by
  induction ps with
  | nil => rfl
  | cons p t ih => simp [dirs, ih]

theorem handle_files_sim (w : World) (cfg : Config) (ps : List String) (s : State) :
    Sim cfg s (ps.map Item.file) (handle_files w cfg ps s) := by
  induction ps generalizing s with
  | nil => exact Sim.nil cfg s ()
  | cons p rest ih =>
    have h1 := handle_file_sim w cfg p s
    simp only [handle_files, List.map_cons]
    cases hr : handle_file w cfg p s with
    | ret a s1 =>
      rw [hr] at h1
      simp only
      have := Sim.seq h1 (ih s1)
      simpa using this
    | exit c s1 =>
      rw [hr] at h1
      simp only
      have h2 : Sim cfg s ([Item.file p] ++ rest.map Item.file) (Ctl.exit c s1 : Ctl Unit) :=
        Sim.halt h1 (rest.map Item.file)
      simpa using h2

/-- The gate of a real run with resume path `r`, started skipping, on any
items: what is forwarded is the files from the first one equal to `r` on,
and the gate ends processing exactly when some file equals `r`. -/
theorem gate_feedAll (cfg : Config) (r : String) (hd : cfg.dry_run_flag = false)
    (hr : cfg.resume_file = some r) (L : List Item) (a : Abs) (hp : a.pf = false) :
    (feedAll cfg L a).forwarded = a.forwarded ++ (files L).dropWhile (fun p => p != r) ∧
      (feedAll cfg L a).emitted = a.emitted ++ files L ∧
      ((feedAll cfg L a).pf = true ↔ r ∈ files L) := by
  by_cases hin : r ∈ files L
  · rw [feedAll_hit cfg hd r hr L a hp hin]
    exact ⟨rfl, rfl, by simp [hin]⟩
  · have hmiss : ∀ p ∈ files L, cfg.resume_file ≠ some p := by
      intro p hpin he
      rw [hr] at he
      cases he
      exact hin hpin
    rw [feedAll_off cfg hd L a hp hmiss]
    have hnil : (files L).dropWhile (fun p => p != r) = [] := by
      rw [List.dropWhile_eq_nil_iff]
      intro x hx
      have : x ≠ r := fun e => hin (e ▸ hx)
      simpa using this
    refine ⟨by simp [hnil], rfl, ?_⟩
    simp [hp, hin]

theorem emitted_origin (w : World) (cfg : Config) (prog : String) (roots : List String)
    (fuel : Nat) (code : Nat) (s : State)
    (hrun : main_run w cfg prog roots fuel State.init = some (code, s))
    (f : String) (hf : f ∈ emitted s.trace) :
    (f ∈ roots ∧ ∃ st, w.lstat f = some st ∧ st.st_mode = FileType.reg) ∨
      ∃ x n names, Visited w cfg.xdev_flag roots x ∧ w.readdir x.path = some names ∧
        n ∈ names ∧ f = x.path ++ "/" ++ n := by
  obtain ⟨L, hL, _, hem⟩ := run_items w cfg prog roots fuel code s hrun
  rw [hem, mem_files] at hf
  obtain ⟨x, hx, hi⟩ := walkItems_visited w cfg.xdev_flag roots fuel _ (hL.subset hf)
  rcases workItems_mem w cfg.xdev_flag x _ hi with ⟨h1, _, h3⟩ | ⟨st, n, _, h2⟩
  · left
    rw [h1] at hx
    cases hx with
    | root r hr => exact ⟨hr, h3⟩
  · right
    obtain ⟨⟨names, hrd, hn⟩, _, _, hp, _⟩ := h2
    exact ⟨x, n, names, hx, hrd, hn, hp⟩

/-! ## Lemmas: every forwarded file reaches the command -/

theorem commands_append (a b : List Event) : commands (a ++ b) = commands a ++ commands b := by
  induction a with
  | nil => rfl
  | cons e t ih => cases e <;> simp [commands, ih]

theorem Reaches.same (cfg : Config) (t : List Event) : Reaches cfg t t :=
  ⟨[], by simp, rfl, by simp⟩

theorem Reaches.andThen {cfg : Config} {t1 t2 t3 : List Event} (h : Reaches cfg t1 t2)
    (h2 : Reaches cfg t2 t3) : Reaches cfg t1 t3 := by
  obtain ⟨Δ1, e1, c1, p1⟩ := h
  obtain ⟨Δ2, e2, c2, p2⟩ := h2
  refine ⟨Δ1 ++ Δ2, by rw [e2, e1, List.append_assoc], ?_, ?_⟩
  · rw [commands_append, forwarded_append, List.map_append, c1, c2]
  · intro x hx
    rcases List.mem_append.1 hx with hx | hx
    · exact p1 x hx
    · exact p2 x hx

theorem Reaches.one (cfg : Config) (t : List Event) (e : Event) (he : isNeutral e = true) :
    Reaches cfg t (t ++ [e]) := by
  refine ⟨[e], rfl, ?_, ?_⟩
  · cases e <;> first | rfl | cases he
  · intro x hx
    simp only [List.mem_singleton] at hx
    subst hx
    cases x with
    | stderr m => cases m <;> first | rfl | cases he
    | _ => rfl

theorem rewrite_command_length (cfg : Config) (path : String) :
    (rewrite_command cfg path).length = 18 + cfg.zfs_opts.length + path.length := by
  unfold rewrite_command
  simp only [String.length_append]
  have h1 : "zfs rewrite ".length = 12 := by decide
  have h2 : " -- \"".length = 5 := by decide
  have h3 : "\"".length = 1 := by decide
  rw [h1, h2, h3]
  omega

theorem rewrite_command_fits (cfg : Config) (path : String) (hopts : cfg.zfs_opts.length ≤ 511)
    (hp : path.length < PATH_MAX) : (rewrite_command cfg path).length < PATH_MAX + 1024 := by
  rw [rewrite_command_length]
  unfold PATH_MAX at hp ⊢
  omega

theorem execute_rewrite_trace (w : World) (cfg : Config) (path : String) (s : State)
    (hfit : (rewrite_command cfg path).length < PATH_MAX + 1024) :
    ∃ ret, (execute_rewrite w cfg path s).trace =
      s.trace ++ (Event.execute_rewrite path :: Event.system (rewrite_command cfg path) ret ::
        (if ret ≠ 0 then [Event.stderr (Msg.commandFailed path ret)] else [])) := by
  unfold execute_rewrite
  simp only [State.emit]
  rw [if_neg (by omega)]
  refine ⟨w.system (sysCalls (s.trace ++ [Event.execute_rewrite path]))
    (rewrite_command cfg path), ?_⟩
  split <;> simp

theorem execute_rewrite_reaches (w : World) (cfg : Config) (path : String) (s : State)
    (hfit : (rewrite_command cfg path).length < PATH_MAX + 1024) :
    Reaches cfg s.trace (execute_rewrite w cfg path s).trace := by
  obtain ⟨ret, h⟩ := execute_rewrite_trace w cfg path s hfit
  refine ⟨_, h, ?_, ?_⟩
  · split <;> rfl
  · intro e he
    split at he
    · simp only [List.mem_cons, List.mem_singleton, List.not_mem_nil, or_false] at he
      rcases he with rfl | rfl | rfl <;> rfl
    · simp only [List.mem_cons, List.not_mem_nil, or_false] at he
      rcases he with rfl | rfl <;> rfl

theorem handle_file_reaches (w : World) (cfg : Config) (path : String) (s : State)
    (hfit : (rewrite_command cfg path).length < PATH_MAX + 1024) :
    Reaches cfg s.trace (handle_file w cfg path s).state.trace := by
  have h0 : Reaches cfg s.trace (s.emit (Event.handle_file path)).trace :=
    Reaches.one cfg s.trace _ rfl
  unfold handle_file
  by_cases hd : cfg.dry_run_flag = true
  · simp only [hd, if_true]
    have h1 : Reaches cfg s.trace
        (if strstr cfg.zfs_opts "-v" = true then
          (s.emit (Event.handle_file path)).emit (Event.stdout path)
         else s.emit (Event.handle_file path)).trace := by
      split
      · exact h0.andThen (Reaches.one cfg _ _ rfl)
      · exact h0
    split
    · exact h1.andThen (Reaches.one cfg _ _ rfl)
    · exact h1
  · simp only [hd, Bool.false_eq_true, if_false]
    by_cases hpf : s.process_files = true
    · have e1 : (s.emit (Event.handle_file path)).process_files = true := hpf
      simp only [e1, Bool.not_true, Bool.false_eq_true, if_false, if_true, Ctl.state]
      exact h0.andThen (execute_rewrite_reaches w cfg path _ hfit)
    · have e1 : (s.emit (Event.handle_file path)).process_files = false := by
        simpa [State.emit] using hpf
      by_cases hr : cfg.resume_file = some path
      · simp only [e1, hr, Bool.not_false, if_true, Ctl.state]
        have h2 : Reaches cfg s.trace
            ({ (s.emit (Event.handle_file path)).emit (Event.stderr (Msg.resumeFound path)) with
              process_files := true } : State).trace :=
          h0.andThen (Reaches.one cfg _ _ rfl)
        exact h2.andThen (execute_rewrite_reaches w cfg path _ hfit)
      · simp only [e1, hr, Bool.not_false, if_true, if_false, Bool.false_eq_true, Ctl.state]
        exact h0

theorem handle_directory_entry_reaches (w : World) (cfg : Config) (path : String) (dev : Nat)
    (name : String) (s : State) (hopts : cfg.zfs_opts.length ≤ 511) :
    Reaches cfg s.trace (handle_directory_entry w cfg path dev name s).state.trace := by
  unfold handle_directory_entry
  split
  · exact Reaches.same cfg _
  · simp only []
    split
    · exact Reaches.one cfg _ _ rfl
    · rename_i hl
      split
      · exact Reaches.one cfg _ _ rfl
      · split
        · exact Reaches.same cfg _
        · split
          · exact handle_file_reaches w cfg _ s
              (rewrite_command_fits cfg _ hopts (by omega))
          · exact Reaches.one cfg _ _ rfl
          · exact Reaches.same cfg _

theorem handle_directory_loop_reaches (w : World) (cfg : Config) (path : String) (dev : Nat)
    (names : List String) (s : State) (hopts : cfg.zfs_opts.length ≤ 511) :
    Reaches cfg s.trace (handle_directory_loop w cfg path dev names s).state.trace := by
  induction names generalizing s with
  | nil => exact Reaches.same cfg _
  | cons name rest ih =>
    have h1 := handle_directory_entry_reaches w cfg path dev name s hopts
    simp only [handle_directory_loop]
    cases hr : handle_directory_entry w cfg path dev name s with
    | ret a s1 =>
      rw [hr] at h1
      exact h1.andThen (ih s1)
    | exit c s1 =>
      rw [hr] at h1
      exact h1

theorem handle_directory_reaches (w : World) (cfg : Config) (path : String) (dev : Nat)
    (s : State) (hopts : cfg.zfs_opts.length ≤ 511) :
    Reaches cfg s.trace (handle_directory w cfg path dev s).state.trace := by
  have h0 : Reaches cfg s.trace (s.emit (Event.handle_directory path dev)).trace :=
    Reaches.one cfg s.trace _ rfl
  unfold handle_directory
  cases hrd : w.readdir path with
  | none => exact h0.andThen (Reaches.one cfg _ _ rfl)
  | some names =>
    have h1 := handle_directory_loop_reaches w cfg path dev names
      (s.emit (Event.handle_directory path dev)) hopts
    simp only []
    cases hr : handle_directory_loop w cfg path dev names
        (s.emit (Event.handle_directory path dev)) with
    | ret a s1 =>
      rw [hr] at h1
      exact h0.andThen h1
    | exit c s1 =>
      rw [hr] at h1
      exact h0.andThen h1

theorem process_path_reaches (w : World) (cfg : Config) (path : String) (s : State)
    (hopts : cfg.zfs_opts.length ≤ 511) (hb : LstatBounded w) :
    Reaches cfg s.trace (process_path w cfg path s).state.trace := by
  have h0 : Reaches cfg s.trace (s.emit (Event.process_path path)).trace :=
    Reaches.one cfg s.trace _ rfl
  unfold process_path
  cases hst : w.lstat path with
  | none => exact h0.andThen (Reaches.one cfg _ _ rfl)
  | some st =>
    have hlen : path.length < PATH_MAX := by
      by_contra hc
      rw [hb path (by omega)] at hst
      cases hst
    simp only []
    cases hm : st.st_mode with
    | reg =>
      have h1 := handle_file_reaches w cfg path (s.emit (Event.process_path path))
        (rewrite_command_fits cfg path hopts hlen)
      simp only []
      cases hr : handle_file w cfg path (s.emit (Event.process_path path)) with
      | ret a s1 =>
        rw [hr] at h1
        exact h0.andThen h1
      | exit c s1 =>
        rw [hr] at h1
        exact h0.andThen h1
    | dir =>
      have h1 := handle_directory_reaches w cfg path st.st_dev
        (s.emit (Event.process_path path)) hopts
      simp only []
      cases hr : handle_directory w cfg path st.st_dev (s.emit (Event.process_path path)) with
      | ret a s1 =>
        rw [hr] at h1
        exact h0.andThen h1
      | exit c s1 =>
        rw [hr] at h1
        exact h0.andThen h1
    | other => exact h0

theorem main_roots_reaches (w : World) (cfg : Config) (roots : List String) (s : State)
    (hopts : cfg.zfs_opts.length ≤ 511) (hb : LstatBounded w) :
    Reaches cfg s.trace (main_roots w cfg roots s).state.trace := by
  induction roots generalizing s with
  | nil => exact Reaches.same cfg _
  | cons r rest ih =>
    have h1 := process_path_reaches w cfg r s hopts hb
    simp only [main_roots]
    cases hr : process_path w cfg r s with
    | ret a s1 =>
      rw [hr] at h1
      exact h1.andThen (ih s1)
    | exit c s1 =>
      rw [hr] at h1
      exact h1

theorem main_drain_reaches (w : World) (cfg : Config) (fuel idx : Nat) (s : State)
    (r : Ctl Unit) (hopts : cfg.zfs_opts.length ≤ 511)
    (h : main_drain w cfg fuel idx s = some r) : Reaches cfg s.trace r.state.trace := by
  induction fuel generalizing idx s with
  | zero =>
    unfold main_drain at h
    cases hq : s.dir_queue[idx]? with
    | none =>
      simp only [hq, Option.some.injEq] at h
      subst h
      exact Reaches.same cfg _
    | some d => simp [hq] at h
  | succ fuel ih =>
    unfold main_drain at h
    cases hq : s.dir_queue[idx]? with
    | none =>
      simp only [hq, Option.some.injEq] at h
      subst h
      exact Reaches.same cfg _
    | some d =>
      simp only [hq] at h
      have h0 : Reaches cfg s.trace (s.emit (Event.dequeue d)).trace :=
        Reaches.one cfg s.trace _ rfl
      cases hst : w.lstat d with
      | none =>
        simp only [hst] at h
        have h1 : Reaches cfg (s.emit (Event.dequeue d)).trace
            ((s.emit (Event.dequeue d)).emit (Event.stderr (Msg.cannotStatQueued d))).trace :=
          Reaches.one cfg _ _ rfl
        exact (h0.andThen h1).andThen (ih _ _ h)
      | some st =>
        simp only [hst] at h
        have h1 := handle_directory_reaches w cfg d st.st_dev (s.emit (Event.dequeue d)) hopts
        cases hr : handle_directory w cfg d st.st_dev (s.emit (Event.dequeue d)) with
        | ret a s1 =>
          rw [hr] at h1 h
          exact (h0.andThen h1).andThen (ih _ _ h)
        | exit c s1 =>
          rw [hr] at h1 h
          simp only [Option.some.injEq] at h
          subst h
          exact h0.andThen h1

theorem main_start_reaches (cfg : Config) (s : State) :
    Reaches cfg s.trace (main_start cfg s).trace := by
  unfold main_start
  cases hr : cfg.resume_file <;> cases hd : cfg.dry_run_flag <;>
    simp only [Bool.not_true, Bool.not_false, Bool.false_eq_true, if_false, if_true,
      Option.isSome, Bool.and_true, Bool.and_false, Bool.true_and, Bool.false_and, State.emit]
  · exact Reaches.same cfg _
  · exact Reaches.one cfg _ _ rfl
  · exact Reaches.one cfg _ _ rfl
  · exact Reaches.one cfg _ _ rfl

theorem main_finish_reaches (cfg : Config) (s : State) :
    Reaches cfg s.trace (main_finish cfg s).2.trace := by
  unfold main_finish
  split
  · exact Reaches.one cfg _ _ rfl
  · split
    · exact Reaches.one cfg _ _ rfl
    · exact Reaches.one cfg _ _ rfl

theorem main_run_reaches (w : World) (cfg : Config) (prog : String) (roots : List String)
    (fuel : Nat) (code : Nat) (s : State) (hopts : cfg.zfs_opts.length ≤ 511)
    (hb : LstatBounded w)
    (hrun : main_run w cfg prog roots fuel State.init = some (code, s)) :
    Reaches cfg [] s.trace := by
  by_cases hroots : roots = []
  · subst hroots
    unfold main_run at hrun
    rw [if_pos rfl] at hrun
    simp only [Option.some.injEq, Prod.mk.injEq] at hrun
    obtain ⟨_, rfl⟩ := hrun
    have h1 : Reaches cfg [] (State.init.emit (Event.stderr Msg.missingTarget)).trace :=
      Reaches.one cfg [] _ rfl
    have h2 : Reaches cfg (State.init.emit (Event.stderr Msg.missingTarget)).trace
        ((State.init.emit (Event.stderr Msg.missingTarget)).emit
          (Event.stderr (Msg.usage prog))).trace := Reaches.one cfg _ _ rfl
    exact h1.andThen h2
  · rw [main_run_eq w cfg prog roots fuel State.init hroots] at hrun
    have hs : Reaches cfg [] (main_start cfg State.init).trace :=
      main_start_reaches cfg State.init
    have hR := main_roots_reaches w cfg roots (main_start cfg State.init) hopts hb
    cases hr : main_roots w cfg roots (main_start cfg State.init) with
    | exit c s1 =>
      rw [hr] at hrun hR
      simp only [Option.some.injEq, Prod.mk.injEq] at hrun
      obtain ⟨_, rfl⟩ := hrun
      exact hs.andThen hR
    | ret a s1 =>
      rw [hr] at hrun hR
      simp only [] at hrun
      cases hdr : main_drain w cfg fuel 0 s1 with
      | none => simp [hdr] at hrun
      | some r =>
        have hD := main_drain_reaches w cfg fuel 0 s1 r hopts hdr
        cases r with
        | exit c s2 =>
          simp only [hdr, Option.some.injEq, Prod.mk.injEq] at hrun
          obtain ⟨_, rfl⟩ := hrun
          exact (hs.andThen hR).andThen hD
        | ret a s2 =>
          simp only [hdr, Option.some.injEq] at hrun
          have hF := main_finish_reaches cfg s2
          rw [hrun] at hF
          exact ((hs.andThen hR).andThen hD).andThen hF

/-! ## Lemmas: the number of queued directories -/

theorem tagRoots_snd (roots : List String) :
    (tagRoots roots).map Prod.snd = roots.map Work.root := by
  unfold tagRoots
  rw [List.map_map]
  have h : (Prod.snd ∘ fun y : Nat × String => (y.1, Work.root y.2)) =
      Work.root ∘ Prod.snd := by
    funext y
    rfl
  rw [h, ← List.map_map, List.enum_map_snd]

theorem tagRoots_mem (roots : List String) (y : Nat × Work) (h : y ∈ tagRoots roots) :
    ∃ r, roots[y.1]? = some r ∧ y.2 = Work.root r := by
  unfold tagRoots at h
  obtain ⟨z, hz, rfl⟩ := List.mem_map.1 h
  obtain ⟨i, r⟩ := z
  exact ⟨r, List.mk_mem_enum_iff_getElem?.1 hz, rfl⟩

theorem tagRoots_nodup (roots : List String) : ((tagRoots roots).map tagKey).Nodup := by
  apply List.Nodup.of_map Prod.fst
  unfold tagRoots
  rw [List.map_map, List.map_map]
  have h : ((Prod.fst ∘ tagKey) ∘ fun y : Nat × String => (y.1, Work.root y.2)) =
      Prod.fst := by
    funext y
    rfl
  rw [h, List.enum_map_fst]
  exact List.nodup_range _

theorem TagInv.start (w : World) (xdev : Bool) (roots : List String) :
    TagInv w xdev roots [] (tagRoots roots) := by
  refine ⟨by simpa using tagRoots_nodup roots, ?_, ?_⟩
  · intro y hy
    exact Or.inl (tagRoots_mem roots y (by simpa using hy))
  · intro y hy
    obtain ⟨r, hr, hy2⟩ := tagRoots_mem roots y (by simpa using hy)
    exact ⟨r, hr, Or.inl (by rw [hy2]; rfl)⟩

theorem kid_subdir (w : World) (xdev : Bool) (x : Work) (c : String)
    (h : c ∈ dirs (workItems w xdev x)) : IsSubdir w x.path c := by
  cases x with
  | queued p => exact queuedItems_subdir w xdev p c h
  | root p =>
    simp only [workItems, rootItems] at h
    cases hst : w.lstat p with
    | none => simp [hst, dirs] at h
    | some st =>
      simp only [hst] at h
      cases hm : st.st_mode with
      | reg => simp [hm, dirs] at h
      | other => simp [hm, dirs] at h
      | dir =>
        simp only [hm] at h
        exact dirItems_subdir w xdev p st.st_dev c h

/-- A directory found by the head of the tagged pending work is new under
the head's index. -/
theorem tag_kid_fresh (w : World) (hwf : WellFormed w) (xdev : Bool) (roots : List String)
    (done : List (Nat × Work)) (x : Nat × Work) (rest : List (Nat × Work))
    (inv : TagInv w xdev roots done (x :: rest)) (c : String)
    (hc : c ∈ dirs (workItems w xdev x.2)) :
    (x.1, c) ∉ (done ++ x :: rest).map tagKey := by
  intro hin
  obtain ⟨y, hy, hyc⟩ := List.mem_map.1 hin
  have hy1 : y.1 = x.1 := by
    have := congrArg Prod.fst hyc
    simpa [tagKey] using this
  have hy2 : y.2.path = c := by
    have := congrArg Prod.snd hyc
    simpa [tagKey] using this
  obtain ⟨n, hn, hcf⟩ := kid_slashfree w hwf xdev x.2 c hc
  obtain ⟨r, hr, hxr⟩ := inv.under x (by simp)
  have hbelow : Below r c := by
    rw [hcf]
    rcases hxr with h | h
    · rw [h]
      exact below_self_join r n
    · exact below_join r _ n h
  rcases inv.origin y hy with ⟨r2, hr2, hroot⟩ | ⟨d, hd, hd1, c2, hc2, hq⟩
  · rw [hy1, hr] at hr2
    cases hr2
    rw [hroot] at hy2
    exact below_ne r c hbelow hy2
  · rw [hq] at hy2
    simp only [Work.path] at hy2
    subst hy2
    obtain ⟨n2, hn2, hcf2⟩ := kid_slashfree w hwf xdev d.2 _ hc2
    rw [hcf] at hcf2
    obtain ⟨e, _⟩ := join_inj _ _ _ _ hn hn2 hcf2
    have hkey : tagKey d = tagKey x := by
      unfold tagKey
      rw [hd1, hy1, e]
    have hnd := inv.nodup
    rw [List.map_append, List.map_cons] at hnd
    have hdis := (List.nodup_append.1 hnd).2.2
    exact hdis (List.mem_map.2 ⟨d, hd, rfl⟩) (by rw [hkey]; simp)

theorem TagInv.next (w : World) (hwf : WellFormed w) (xdev : Bool) (roots : List String)
    (done : List (Nat × Work)) (x : Nat × Work) (rest : List (Nat × Work))
    (inv : TagInv w xdev roots done (x :: rest)) :
    TagInv w xdev roots (done ++ [x])
      (rest ++ (dirs (workItems w xdev x.2)).map (fun c => (x.1, Work.queued c))) := by
  have hlist : (done ++ [x]) ++
      (rest ++ (dirs (workItems w xdev x.2)).map (fun c => (x.1, Work.queued c))) =
      (done ++ x :: rest) ++
        (dirs (workItems w xdev x.2)).map (fun c => (x.1, Work.queued c)) := by
    simp
  have hkeys : ((dirs (workItems w xdev x.2)).map (fun c => (x.1, Work.queued c))).map tagKey =
      (dirs (workItems w xdev x.2)).map (fun c => (x.1, c)) := by
    rw [List.map_map]
    rfl
  refine ⟨?_, ?_, ?_⟩
  · rw [hlist, List.map_append, hkeys]
    refine List.nodup_append.2 ⟨inv.nodup, ?_, ?_⟩
    · exact (kids_nodup w hwf xdev x.2).map (fun a b h => congrArg Prod.snd h)
    · intro p hp hk
      obtain ⟨c, hc, rfl⟩ := List.mem_map.1 hk
      exact tag_kid_fresh w hwf xdev roots done x rest inv c hc hp
  · intro y hy
    rw [hlist] at hy
    rcases List.mem_append.1 hy with hy | hy
    · rcases inv.origin y hy with h | ⟨d, hd, h⟩
      · exact Or.inl h
      · exact Or.inr ⟨d, by simp [hd], h⟩
    · obtain ⟨c, hc, rfl⟩ := List.mem_map.1 hy
      exact Or.inr ⟨x, by simp, rfl, c, hc, rfl⟩
  · intro y hy
    rw [hlist] at hy
    rcases List.mem_append.1 hy with hy | hy
    · exact inv.under y hy
    · obtain ⟨c, hc, rfl⟩ := List.mem_map.1 hy
      obtain ⟨r, hr, hxr⟩ := inv.under x (by simp)
      obtain ⟨n, _, hcf⟩ := kid_slashfree w hwf xdev x.2 c hc
      refine ⟨r, hr, Or.inr ?_⟩
      simp only [Work.path]
      rw [hcf]
      rcases hxr with h | h
      · rw [h]
        exact below_self_join r n
      · exact below_join r _ n h

theorem tagDrain_snd (w : World) (xdev : Bool) (fuel : Nat) (P : List (Nat × Work)) :
    (tagDrain w xdev fuel P).map Prod.snd = dirs (workDrain w xdev fuel (P.map Prod.snd)) := by
  induction fuel generalizing P with
  | zero => cases P <;> rfl
  | succ fuel ih =>
    cases P with
    | nil => rfl
    | cons y rest =>
      simp only [tagDrain, List.map_cons, workDrain, dirs_append, List.map_append, ih,
        List.map_map]
      have h1 : (Prod.snd ∘ fun c : String => (y.1, c)) = id := by
        funext c
        rfl
      have h2 : (Prod.snd ∘ fun c : String => (y.1, Work.queued c)) = Work.queued := by
        funext c
        rfl
      rw [h1, h2, List.map_id]

/-- No directory is queued twice under the same operand index, and every
queued directory carries the index of an operand and is a subdirectory. -/
theorem tagDrain_nodup (w : World) (hwf : WellFormed w) (xdev : Bool) (roots : List String)
    (fuel : Nat) (done pend : List (Nat × Work)) (inv : TagInv w xdev roots done pend) :
    ((done ++ pend).map tagKey ++ tagDrain w xdev fuel pend).Nodup ∧
      ∀ t ∈ tagDrain w xdev fuel pend, t.1 < roots.length ∧ ∃ p, IsSubdir w p t.2 := by
  induction fuel generalizing done pend with
  | zero =>
    cases pend with
    | nil => exact ⟨by simpa [tagDrain] using inv.nodup, by simp [tagDrain]⟩
    | cons x rest => exact ⟨by simpa [tagDrain] using inv.nodup, by simp [tagDrain]⟩
  | succ fuel ih =>
    cases pend with
    | nil => exact ⟨by simpa [tagDrain] using inv.nodup, by simp [tagDrain]⟩
    | cons x rest =>
      obtain ⟨h1, h2⟩ := ih _ _ (TagInv.next w hwf xdev roots done x rest inv)
      have hkeys : ((dirs (workItems w xdev x.2)).map
          (fun c => (x.1, Work.queued c))).map tagKey =
          (dirs (workItems w xdev x.2)).map (fun c => (x.1, c)) := by
        rw [List.map_map]
        rfl
      constructor
      · simp only [tagDrain]
        simp only [List.map_append, hkeys] at h1
        simpa [List.map_append, List.append_assoc] using h1
      · intro t ht
        simp only [tagDrain] at ht
        rcases List.mem_append.1 ht with ht | ht
        · obtain ⟨c, hc, rfl⟩ := List.mem_map.1 ht
          obtain ⟨r, hr, _⟩ := inv.under x (by simp)
          obtain ⟨hlt, _⟩ := List.getElem?_eq_some.1 hr
          exact ⟨hlt, x.2.path, kid_subdir w xdev x.2 c hc⟩
        · exact h2 t ht

/-- The number of directories the walk queues is at most the number of
operands times the number of subdirectories. -/
theorem queue_length_bound (w : World) (hwf : WellFormed w) (D : List String)
    (hD : ∀ p c, IsSubdir w p c → c ∈ D) (xdev : Bool) (roots : List String) (fuel : Nat) :
    (dirs (walkItems w xdev roots fuel).1).length ≤ roots.length * D.length := by
  obtain ⟨h1, h2⟩ := tagDrain_nodup w hwf xdev roots (roots.length + fuel) [] (tagRoots roots)
    (TagInv.start w xdev roots)
  have hnd : (tagDrain w xdev (roots.length + fuel) (tagRoots roots)).Nodup :=
    (List.nodup_append.1 h1).2.1
  have hsub : tagDrain w xdev (roots.length + fuel) (tagRoots roots) ⊆
      List.product (List.range roots.length) D := by
    intro t ht
    obtain ⟨hlt, p, hp⟩ := h2 t ht
    obtain ⟨i, c⟩ := t
    exact List.mem_product.2 ⟨List.mem_range.2 hlt, hD p c hp⟩
  have hlen := (List.subperm_of_subset hnd hsub).length_le
  have hp := List.length_product (List.range roots.length) D
  rw [List.length_range] at hp
  have hproj := tagDrain_snd w xdev (roots.length + fuel) (tagRoots roots)
  rw [tagRoots_snd, ← walkItems_eq_workDrain] at hproj
  rw [← hproj, List.length_map]
  exact le_trans hlen (le_of_eq hp)

theorem finiteTree_of_list (w : World) (D : List String)
    (hD : ∀ p c, IsSubdir w p c → c ∈ D) : FiniteTree w := by
  obtain ⟨M, hM⟩ : ∃ M, ∀ c ∈ D, c.length ≤ M := by
    clear hD
    induction D with
    | nil => exact ⟨0, by simp⟩
    | cons a t ih =>
      obtain ⟨M, hM⟩ := ih
      refine ⟨max M a.length, ?_⟩
      intro c hc
      rcases List.mem_cons.1 hc with rfl | hc
      · exact le_max_right _ _
      · exact le_trans (hM c hc) (le_max_left _ _)
  refine ⟨fun p => M + 1 - p.length, ?_⟩
  intro p c h
  have hc := hM c (hD p c h)
  obtain ⟨_, n, _, _, _, _, hcf, _⟩ := h
  have hlen : c.length = p.length + 1 + n.length := by
    rw [hcf]
    simp only [String.length_append]
    have h1 : "/".length = 1 := rfl
    omega
  show M + 1 - c.length < M + 1 - p.length
  omega

/-- A drain that ends within some fuel ends, with the same items, within any
fuel that covers the pending directories and the directories it queues. -/
theorem drainItems_enough (w : World) (xdev : Bool) (f0 : Nat) (P : List String)
    (h : (drainItems w xdev f0 P).2 = true) (f : Nat)
    (hf : P.length + (dirs (drainItems w xdev f0 P).1).length ≤ f) :
    drainItems w xdev f P = drainItems w xdev f0 P := by
  induction f0 generalizing P f with
  | zero =>
    cases P with
    | nil => cases f <;> rfl
    | cons d rest => simp [drainItems] at h
  | succ f0 ih =>
    cases P with
    | nil => cases f <;> rfl
    | cons d rest =>
      simp only [drainItems] at h hf ⊢
      rw [dirs_append] at hf
      simp only [List.length_cons, List.length_append] at hf
      cases f with
      | zero => omega
      | succ f =>
        simp only [drainItems]
        rw [ih _ h f (by simp only [List.length_append]; omega)]

theorem walkItems_enough (w : World) (xdev : Bool) (roots : List String) (f0 : Nat)
    (h : (walkItems w xdev roots f0).2 = true) (f : Nat)
    (hf : (dirs (walkItems w xdev roots f0).1).length ≤ f) :
    walkItems w xdev roots f = walkItems w xdev roots f0 := by
  unfold walkItems at h hf ⊢
  simp only at h hf ⊢
  rw [dirs_append, List.length_append] at hf
  rw [drainItems_enough w xdev f0 _ h f hf]

theorem exampleWorld_subdirs : ∀ p c, IsSubdir exampleWorld p c → c ∈ ["/a/sub"] := by
  rintro p c ⟨names, n, hrd, hn, h1, h2, hc, st, hst, hm⟩
  simp only [exampleWorld] at hrd hst
  split at hrd
  · rename_i hp
    subst hp
    simp only [Option.some.injEq] at hrd
    subst hrd
    simp only [List.mem_cons, List.mem_singleton, List.not_mem_nil, or_false] at hn
    rcases hn with rfl | rfl | rfl | rfl | rfl
    · exact absurd rfl h1
    · exact absurd rfl h2
    · subst hc
      simp at hst
      subst hst
      simp at hm
    · subst hc
      simp at hst
      subst hst
      simp at hm
    · subst hc
      decide
  · split at hrd
    · rename_i hp
      subst hp
      simp only [Option.some.injEq] at hrd
      subst hrd
      simp only [List.mem_cons, List.mem_singleton, List.not_mem_nil, or_false] at hn
      rcases hn with rfl | rfl | rfl
      · exact absurd rfl h1
      · exact absurd rfl h2
      · subst hc
        simp at hst
        subst hst
        simp at hm
    · exact absurd hrd (by simp)

/-! ## Claims -/

/-- C1 (as amended): in a real run with resume path `r`, if `r` first occurs
at index `k` of the sequence of files handed to `handle_file`, the files
handed to `execute_rewrite` are exactly those at indices `k..N-1`, in order:
all of them for `k = 0`, only the last for `k = N-1`. -/
theorem resume_forwards_suffix_from_first_match (w : World) (cfg : Config) (prog : String)
    (roots : List String) (fuel : Nat) (code : Nat) (s : State) (r : String) (k : Nat)
    (hdry : cfg.dry_run_flag = false) (hres : cfg.resume_file = some r)
    (hrun : main_run w cfg prog roots fuel State.init = some (code, s))
    (hk : (emitted s.trace)[k]? = some r)
    (hfirst : ∀ j, j < k → (emitted s.trace)[j]? ≠ some r) :
    forwarded s.trace = (emitted s.trace).drop k ∧
      (forwarded s.trace)[0]? = some r ∧
      (k = 0 → forwarded s.trace = emitted s.trace) ∧
      (k + 1 = (emitted s.trace).length → forwarded s.trace = [r]) := by
  have hmain : forwarded s.trace = (emitted s.trace).drop k := by
    by_cases hroots : roots = []
    · subst hroots
      have h := (main_run_no_roots w cfg prog fuel code s hrun).2
      rw [← abs_emitted, h] at hk
      simp [State.abs, State.init, emitted] at hk
    · have h := (main_run_real w cfg prog roots fuel code s hdry hroots hrun).2.1
      have he : emitted s.trace = files (walkItems w cfg.xdev_flag roots fuel).1 := by
        rw [← abs_emitted, h, feedAll_emitted]
        simp [startAbs]
      have hin : r ∈ files (walkItems w cfg.xdev_flag roots fuel).1 := by
        rw [← he]
        exact List.mem_iff_getElem?.2 ⟨k, hk⟩
      rw [feedAll_hit cfg hdry r hres _ _ (startAbs_pf_resume cfg r hres hdry) hin] at h
      have hf : forwarded s.trace =
          (files (walkItems w cfg.xdev_flag roots fuel).1).dropWhile (fun p => p != r) := by
        rw [← abs_forwarded, h]
        simp [startAbs]
      rw [hf, ← he]
      exact dropWhile_ne_eq_drop r _ k hk hfirst
  refine ⟨hmain, ?_, ?_, ?_⟩
  · rw [hmain]
    simpa using hk
  · intro h0
    rw [hmain, h0, List.drop_zero]
  · intro hN
    rw [hmain]
    have hlt : k < (emitted s.trace).length := by omega
    rw [List.drop_eq_getElem_cons hlt, List.drop_of_length_le (by omega)]
    have := List.getElem?_eq_some_iff.1 hk
    rw [this.2]

/-- Witness of C1 (as amended): resuming at `/a/f2`, index 1 of the walk over
`/a/{f1, f2, sub/{f3}}`. -/
theorem resume_forwards_suffix_from_first_match_witness :
    emitted (runOf exampleWorld (realConfig (some "/a/f2")) ["/a"] 1).2.trace =
        ["/a/f1", "/a/f2", "/a/sub/f3"] ∧
      forwarded (runOf exampleWorld (realConfig (some "/a/f2")) ["/a"] 1).2.trace =
        ["/a/f2", "/a/sub/f3"] ∧
      forwarded (runOf exampleWorld (realConfig (some "/a/f2")) ["/a"] 1).2.trace =
        (emitted (runOf exampleWorld (realConfig (some "/a/f2")) ["/a"] 1).2.trace).drop 1 :=
  ⟨by decide, by decide,
    (resume_forwards_suffix_from_first_match exampleWorld (realConfig (some "/a/f2"))
      "zfs-rewrite-resume" ["/a"] 1
      (runOf exampleWorld (realConfig (some "/a/f2")) ["/a"] 1).1
      (runOf exampleWorld (realConfig (some "/a/f2")) ["/a"] 1).2 "/a/f2" 1 rfl rfl
      (by decide) (by decide) (by decide)).1⟩

/-- Counterexample to C1 as stated: with the operand `/a/f1` given twice the
walk hands `/a/f1` to `handle_file` at indices 0 and 1; resuming at the path
of index 1 forwards both, not only index 1. -/
theorem resume_suffix_fails_on_repeated_path :
    main_run exampleWorld (realConfig (some "/a/f1")) "zfs-rewrite-resume"
        ["/a/f1", "/a/f1"] 0 State.init =
        some (runOf exampleWorld (realConfig (some "/a/f1")) ["/a/f1", "/a/f1"] 0) ∧
      (emitted (runOf exampleWorld (realConfig (some "/a/f1")) ["/a/f1", "/a/f1"] 0).2.trace)[1]?
        = (realConfig (some "/a/f1")).resume_file ∧
      forwarded (runOf exampleWorld (realConfig (some "/a/f1")) ["/a/f1", "/a/f1"] 0).2.trace =
        ["/a/f1", "/a/f1"] ∧
      forwarded (runOf exampleWorld (realConfig (some "/a/f1")) ["/a/f1", "/a/f1"] 0).2.trace ≠
        (emitted (runOf exampleWorld (realConfig (some "/a/f1")) ["/a/f1", "/a/f1"] 0).2.trace).drop
          1 := by
  decide

/-- C2: a dry run never hands a file to `execute_rewrite`, whatever it returns
with; and when the walk (the dry run without a resume path) visits the resume
path, the dry run with it exits with success in the `handle_file` call on the
first such file: the files handed to `handle_file` are those before it and
itself, and the trace ends with that call, so no later file is handed over
and no further queued directory is processed. -/
theorem dry_run_never_forwards_and_halts_at_resume (w : World) (cfg : Config)
    (prog : String) (roots : List String) (fuel : Nat) (code0 : Nat) (s0 : State)
    (hdry : cfg.dry_run_flag = true)
    (hbase : main_run w { cfg with resume_file := none } prog roots fuel State.init =
      some (code0, s0)) :
    (∀ fuel2 code2 s2, main_run w cfg prog roots fuel2 State.init = some (code2, s2) →
      forwarded s2.trace = []) ∧
    ∃ code s, main_run w cfg prog roots fuel State.init = some (code, s) ∧
      forwarded s.trace = [] ∧
      ∀ r, cfg.resume_file = some r → r ∈ emitted s0.trace →
        code = EXIT_SUCCESS ∧
        emitted s.trace = (emitted s0.trace).takeWhile (fun p => p != r) ++ [r] ∧
        ∃ pre, s.trace = pre ++ (Event.handle_file r ::
            ((if strstr cfg.zfs_opts "-v" then [Event.stdout r] else []) ++
              [Event.stderr Msg.dryRunFound])) ∧
          emitted pre = (emitted s0.trace).takeWhile (fun p => p != r) := by
  refine ⟨?_, ?_⟩
  · intro fuel2 code2 s2 hrun2
    by_cases hroots : roots = []
    · subst hroots
      have h := (main_run_no_roots w cfg prog fuel2 code2 s2 hrun2).2
      rw [← abs_forwarded, h]
      rfl
    · obtain ⟨L, hL⟩ := main_run_abs w cfg prog roots fuel2 code2 s2 hroots hrun2
      rw [feedAll_dry cfg hdry] at hL
      rw [← abs_forwarded, hL]
      rfl
  by_cases hroots : roots = []
  · subst hroots
    have h0 := (main_run_no_roots w _ prog fuel code0 s0 hbase).2
    refine ⟨EXIT_FAILURE, (State.init.emit (Event.stderr Msg.missingTarget)).emit
      (Event.stderr (Msg.usage prog)), ?_, ?_, ?_⟩
    · unfold main_run
      rw [if_pos rfl]
    · simp [State.emit, State.init, forwarded]
    · intro r _ hin
      rw [← abs_emitted, h0] at hin
      simp [State.abs, State.init, emitted] at hin
  · have hb := main_run_sim w { cfg with resume_file := none } prog roots fuel hroots
    rw [hbase] at hb
    have hnh : ∀ i, halts { cfg with resume_file := none } i = false :=
      halts_none _ rfl
    rcases hb with ⟨⟨i, _, hi⟩, _⟩ | ⟨_, hdone, habs0, _⟩
    · rw [hnh i] at hi
      exact absurd hi (by simp)
    · have hx : ({ cfg with resume_file := none } : Config).xdev_flag = cfg.xdev_flag := rfl
      rw [hx] at hdone habs0
      have he0 : emitted s0.trace = files (walkItems w cfg.xdev_flag roots fuel).1 := by
        rw [← abs_emitted, habs0, feedAll_emitted]
        simp [startAbs]
      obtain ⟨code, s, hrun⟩ := main_run_returns w cfg prog roots fuel hdone
      refine ⟨code, s, hrun, ?_, ?_⟩
      · obtain ⟨L, hL⟩ := main_run_abs w cfg prog roots fuel code s hroots hrun
        rw [feedAll_dry cfg hdry] at hL
        rw [← abs_forwarded, hL]
        rfl
      · intro r hr hin
        rw [he0] at hin
        have hs := main_run_sim w cfg prog roots fuel hroots
        rw [hrun] at hs
        rcases hs with ⟨_, hc, habs, hend⟩ | ⟨hno, _, _, _⟩
        · have hem : emitted s.trace =
              (emitted s0.trace).takeWhile (fun p => p != r) ++ [r] := by
            rw [← abs_emitted, habs, feedAll_emitted, files_cutAt cfg r hdry hr _ hin, he0]
            simp [startAbs]
          obtain ⟨pre, r2, hr2, ht, hem2⟩ := emitted_of_ends cfg s.trace hend
          have hrr : r2 = r := by
            rw [hr] at hr2
            exact (Option.some.inj hr2).symm
          subst hrr
          refine ⟨hc, hem, pre, ht, ?_⟩
          rw [hem2] at hem
          exact List.append_cancel_right hem
        · obtain ⟨i, hi, hh⟩ := (halts_mem_files cfg r hdry hr _).2 hin
          rw [hno i hi] at hh
          exact absurd hh (by simp)

/-- Witness of C2: the dry run over `/a/{f1, f2, sub/{f3}}` with resume path
`/a/f2` stops at `/a/f2` and never reaches `/a/sub`. -/
theorem dry_run_never_forwards_and_halts_at_resume_witness :
    main_run exampleWorld (dryConfig none) "zfs-rewrite-resume" ["/a"] 1 State.init =
        some (runOf exampleWorld (dryConfig none) ["/a"] 1) ∧
      emitted (runOf exampleWorld (dryConfig none) ["/a"] 1).2.trace =
        ["/a/f1", "/a/f2", "/a/sub/f3"] ∧
      ∃ code s, main_run exampleWorld (dryConfig (some "/a/f2")) "zfs-rewrite-resume" ["/a"] 1
          State.init = some (code, s) ∧
        forwarded s.trace = [] ∧
        ∀ r, (dryConfig (some "/a/f2")).resume_file = some r →
          r ∈ emitted (runOf exampleWorld (dryConfig none) ["/a"] 1).2.trace →
          code = EXIT_SUCCESS ∧
          emitted s.trace =
            (emitted (runOf exampleWorld (dryConfig none) ["/a"] 1).2.trace).takeWhile
              (fun p => p != r) ++ [r] ∧
          ∃ pre, s.trace = pre ++ (Event.handle_file r ::
              ((if strstr (dryConfig (some "/a/f2")).zfs_opts "-v" then [Event.stdout r]
                else []) ++ [Event.stderr Msg.dryRunFound])) ∧
            emitted pre =
              (emitted (runOf exampleWorld (dryConfig none) ["/a"] 1).2.trace).takeWhile
                (fun p => p != r) :=
  ⟨by decide, by decide,
    (dry_run_never_forwards_and_halts_at_resume exampleWorld (dryConfig (some "/a/f2"))
      "zfs-rewrite-resume" ["/a"] 1 (runOf exampleWorld (dryConfig none) ["/a"] 1).1
      (runOf exampleWorld (dryConfig none) ["/a"] 1).2 rfl (by decide)).2⟩

/-- C3: with a resume path that no file handed to `handle_file` equals, a run
over finite trees ends; it has then handed every operand to `process_path`
and dequeued every directory of the queue, in that order; its exit status is
failure, in a dry run and in a real run; and it has not called
`execute_rewrite` at all. -/
theorem missing_resume_exhausts_and_fails (w : World) (hfin : FiniteTree w) (cfg : Config)
    (prog : String) (roots : List String) (r : String)
    (hres : cfg.resume_file = some r) :
    (∃ fuel code s, main_run w cfg prog roots fuel State.init = some (code, s)) ∧
      ∀ fuel code s, main_run w cfg prog roots fuel State.init = some (code, s) →
        r ∉ emitted s.trace →
        walkOrder s.trace = roots.map Event.process_path ++ s.dir_queue.map Event.dequeue ∧
          code = EXIT_FAILURE ∧ forwarded s.trace = [] := by
  refine ⟨main_run_terminates w hfin cfg prog roots, ?_⟩
  intro fuel code s hrun hmiss
  refine ⟨?_, ?_, forwarded_nil_of_miss w cfg prog roots fuel code s r hres hrun hmiss⟩
  · by_cases hroots : roots = []
    · subst hroots
      unfold main_run at hrun
      rw [if_pos rfl] at hrun
      simp only [Option.some.injEq, Prod.mk.injEq] at hrun
      obtain ⟨_, rfl⟩ := hrun
      rfl
    · obtain ⟨_, doneR, doneQ, _, _, h3, _, h5⟩ :=
        main_run_trace w cfg prog roots fuel code s hroots hrun
      have hne : ¬ EndsAtMatch cfg s.trace := by
        intro he
        obtain ⟨r2, hr2, _, hin⟩ := mem_emitted_of_ends cfg s.trace he
        rw [hres] at hr2
        exact hmiss (Option.some.inj hr2 ▸ hin)
      obtain ⟨h6, h7⟩ := h5 hne
      rw [h3, h6, h7]
  · by_cases hroots : roots = []
    · subst hroots
      exact (main_run_no_roots w cfg prog fuel code s hrun).1
    · rcases exit_status_cases w cfg prog roots fuel code s hroots hrun with
        ⟨_, h | ⟨r2, hr2, hin⟩⟩ | ⟨h, _⟩
      · rw [hres] at h
        exact absurd h (by simp)
      · rw [hres] at hr2
        exact absurd (Option.some.inj hr2 ▸ hin) hmiss
      · exact h

/-- Witness of C3: resuming at the absent `/a/f9` in `/a/{f1, f2, sub/{f3}}`, the
real run processes `/a`, dequeues `/a/sub`, forwards nothing and fails. -/
theorem missing_resume_exhausts_and_fails_witness :
    FiniteTree exampleWorld ∧
      "/a/f9" ∉ emitted (runOf exampleWorld (realConfig (some "/a/f9")) ["/a"] 1).2.trace ∧
      walkOrder (runOf exampleWorld (realConfig (some "/a/f9")) ["/a"] 1).2.trace =
        [Event.process_path "/a", Event.dequeue "/a/sub"] ∧
      (walkOrder (runOf exampleWorld (realConfig (some "/a/f9")) ["/a"] 1).2.trace =
          ["/a"].map Event.process_path ++
            (runOf exampleWorld (realConfig (some "/a/f9")) ["/a"] 1).2.dir_queue.map
              Event.dequeue ∧
        (runOf exampleWorld (realConfig (some "/a/f9")) ["/a"] 1).1 = EXIT_FAILURE ∧
        forwarded (runOf exampleWorld (realConfig (some "/a/f9")) ["/a"] 1).2.trace = []) :=
  ⟨exampleWorld_finite, by decide, by decide,
    (missing_resume_exhausts_and_fails exampleWorld exampleWorld_finite
      (realConfig (some "/a/f9")) "zfs-rewrite-resume" ["/a"] "/a/f9" rfl).2 1
      (runOf exampleWorld (realConfig (some "/a/f9")) ["/a"] 1).1
      (runOf exampleWorld (realConfig (some "/a/f9")) ["/a"] 1).2 (by decide) (by decide)⟩

/-- C4: a run with at least one operand over finite trees ends, and its exit
status is success when no resume path was given (dry run or real run) or
when a file handed to `handle_file` equals the resume path, and failure
otherwise, that is exactly when a resume path was given and never met; the
world, failing `lstat`, `opendir` and commands included, has no other say. -/
theorem exit_status_characterisation (w : World) (hfin : FiniteTree w) (cfg : Config)
    (prog : String) (roots : List String) (hroots : roots ≠ []) :
    (∃ fuel code s, main_run w cfg prog roots fuel State.init = some (code, s)) ∧
      ∀ fuel code s, main_run w cfg prog roots fuel State.init = some (code, s) →
        (code = EXIT_SUCCESS ∧
          (cfg.resume_file = none ∨ ∃ r, cfg.resume_file = some r ∧ r ∈ emitted s.trace)) ∨
        (code = EXIT_FAILURE ∧ ∃ r, cfg.resume_file = some r ∧ r ∉ emitted s.trace) :=
  ⟨main_run_terminates w hfin cfg prog roots,
    fun fuel code s h => exit_status_cases w cfg prog roots fuel code s hroots h⟩

/-- Witness of C4: resuming at `/a/sub/f3` in `/a/{f1, f2, sub/{f3}}` ends with
success, resuming at the absent `/a/f9` with failure. -/
theorem exit_status_characterisation_witness :
    (runOf exampleWorld (realConfig (some "/a/sub/f3")) ["/a"] 1).1 = EXIT_SUCCESS ∧
    (runOf exampleWorld (realConfig (some "/a/f9")) ["/a"] 1).1 = EXIT_FAILURE ∧
    (((runOf exampleWorld (realConfig (some "/a/f9")) ["/a"] 1).1 = EXIT_SUCCESS ∧
        ((realConfig (some "/a/f9")).resume_file = none ∨
          ∃ r, (realConfig (some "/a/f9")).resume_file = some r ∧
            r ∈ emitted (runOf exampleWorld (realConfig (some "/a/f9")) ["/a"] 1).2.trace)) ∨
      ((runOf exampleWorld (realConfig (some "/a/f9")) ["/a"] 1).1 = EXIT_FAILURE ∧
        ∃ r, (realConfig (some "/a/f9")).resume_file = some r ∧
          r ∉ emitted (runOf exampleWorld (realConfig (some "/a/f9")) ["/a"] 1).2.trace)) :=
  ⟨by decide, by decide,
    (exit_status_characterisation exampleWorld exampleWorld_finite
      (realConfig (some "/a/f9")) "zfs-rewrite-resume" ["/a"] (by decide)).2 1
      (runOf exampleWorld (realConfig (some "/a/f9")) ["/a"] 1).1
      (runOf exampleWorld (realConfig (some "/a/f9")) ["/a"] 1).2 (by decide)⟩

/-- C5 (as amended): when no operand occurs twice or lies below another, and
no listing has a name twice or a name with a slash, then for directories
`D1` and `D2 = D1/n` that the walk both processes, every file `D1/m1` is
handed to `handle_file` before every file `D2/m2`. -/
theorem files_of_directory_precede_files_of_subdirectory (w : World) (cfg : Config)
    (prog : String) (roots : List String) (fuel : Nat) (code : Nat) (s : State)
    (hwf : WellFormed w) (hsep : Separate roots)
    (hrun : main_run w cfg prog roots fuel State.init = some (code, s))
    (D1 n m1 m2 : String) (dev1 dev2 : Nat) (hn : '/' ∉ n.data) (hm1 : '/' ∉ m1.data)
    (hm2 : '/' ∉ m2.data)
    (hD1 : Event.handle_directory D1 dev1 ∈ s.trace)
    (hD2 : Event.handle_directory (D1 ++ "/" ++ n) dev2 ∈ s.trace)
    (i j : Nat) (hi : (emitted s.trace)[i]? = some (D1 ++ "/" ++ m1))
    (hj : (emitted s.trace)[j]? = some (D1 ++ "/" ++ n ++ "/" ++ m2)) :
    i < j := by
  obtain ⟨L, hL, hq, hem⟩ := run_items w cfg prog roots fuel code s hrun
  have hproc : ∀ D dev m, Event.handle_directory D dev ∈ s.trace → D ++ "/" ++ m ∉ roots := by
    intro D dev m hD
    rcases (handle_directory_mem_trace w cfg prog roots fuel code s hrun D dev hD).2 with h | h
    · exact not_root_of_below roots hsep D _ h (below_self_join D m)
    · rw [hq] at h
      obtain ⟨r, hr, hb⟩ := queued_under w cfg.xdev_flag roots fuel D
        ((dirs_initial _ _ hL).subset h)
      exact not_root_of_below roots hsep r _ hr (below_join r D m hb)
  by_contra hlt
  have hne : i ≠ j := by
    intro e
    rw [e, hj] at hi
    have := (join_inj _ _ _ _ hm2 hm1 (Option.some.inj hi)).1
    exact below_ne D1 _ (below_self_join D1 n) this.symm
  have hji : j < i := by omega
  have hjl : j < (emitted s.trace).length := (List.getElem?_eq_some_iff.1 hj).1
  have hsplit : emitted s.trace = (emitted s.trace).take j ++
      (D1 ++ "/" ++ n ++ "/" ++ m2) :: (emitted s.trace).drop (j + 1) := by
    conv_lhs => rw [← List.take_append_drop j (emitted s.trace)]
    rw [List.drop_eq_getElem_cons hjl, (List.getElem?_eq_some_iff.1 hj).2]
  have hmem : D1 ++ "/" ++ m1 ∈ (emitted s.trace).drop (j + 1) := by
    rw [List.mem_iff_getElem?]
    refine ⟨i - (j + 1), ?_⟩
    rw [List.getElem?_drop]
    have : j + 1 + (i - (j + 1)) = i := by omega
    rw [this]
    exact hi
  obtain ⟨rest, hrest⟩ := files_initial _ _ hL
  rw [← hem, hsplit, List.append_assoc, List.cons_append, walkItems_eq_workDrain] at hrest
  exact workDrain_order w hwf cfg.xdev_flag roots hsep D1 n m1 m2 hn hm1 hm2
    (hproc D1 dev1 m1 hD1) (hproc _ dev2 m2 hD2) _ [] _ (BfsInv.init w _ roots hsep) _ _
    hrest.symm (List.mem_append_left _ hmem)

/-- Witness of C5 (as amended): in the walk over `/a/{f1, f2, sub/{f3}}` from
`/a` the file `/a/f1` comes before `/a/sub/f3`. -/
theorem files_of_directory_precede_files_of_subdirectory_witness :
    WellFormed exampleWorld ∧ Separate ["/a"] ∧
      emitted (runOf exampleWorld (realConfig none) ["/a"] 1).2.trace =
        ["/a" ++ "/" ++ "f1", "/a/f2", "/a" ++ "/" ++ "sub" ++ "/" ++ "f3"] ∧
      0 < 2 :=
  ⟨exampleWorld_wellFormed, separate_singleton "/a", by decide,
    files_of_directory_precede_files_of_subdirectory exampleWorld (realConfig none)
      "zfs-rewrite-resume" ["/a"] 1 (runOf exampleWorld (realConfig none) ["/a"] 1).1
      (runOf exampleWorld (realConfig none) ["/a"] 1).2 exampleWorld_wellFormed
      (separate_singleton "/a") (by decide) "/a" "sub" "f1" "f3" 1 1 (by decide) (by decide)
      (by decide) (by decide) (by decide) 0 2 (by decide) (by decide)⟩

/-- Counterexample to C5 as stated: with the operands `/a/sub`, `/a` the walk
over `/a/{f1, f2, sub/{f3}}` processes `/a` and its child `/a/sub`, and hands
the file `/a/sub/f3` of the child to `handle_file` before the file `/a/f1` of
the parent. -/
theorem child_file_before_parent_file_on_overlapping_roots :
    main_run exampleWorld (realConfig none) "zfs-rewrite-resume" ["/a/sub", "/a"] 1
        State.init = some (runOf exampleWorld (realConfig none) ["/a/sub", "/a"] 1) ∧
      Event.handle_directory "/a" 1 ∈
        (runOf exampleWorld (realConfig none) ["/a/sub", "/a"] 1).2.trace ∧
      Event.handle_directory ("/a" ++ "/" ++ "sub") 1 ∈
        (runOf exampleWorld (realConfig none) ["/a/sub", "/a"] 1).2.trace ∧
      (emitted (runOf exampleWorld (realConfig none) ["/a/sub", "/a"] 1).2.trace)[0]? =
        some ("/a" ++ "/" ++ "sub" ++ "/" ++ "f3") ∧
      (emitted (runOf exampleWorld (realConfig none) ["/a/sub", "/a"] 1).2.trace)[1]? =
        some ("/a" ++ "/" ++ "f1") := by
  decide

/-- C6: in a real run without a resume path, the files handed to
`execute_rewrite` are exactly the files handed to `handle_file`, each once
and in the same order. -/
theorem real_run_forwards_every_file (w : World) (cfg : Config) (prog : String)
    (roots : List String) (fuel : Nat) (code : Nat) (s : State)
    (hdry : cfg.dry_run_flag = false) (hres : cfg.resume_file = none)
    (hrun : main_run w cfg prog roots fuel State.init = some (code, s)) :
    forwarded s.trace = emitted s.trace := by
  by_cases hroots : roots = []
  · subst hroots
    have h := (main_run_no_roots w cfg prog fuel code s hrun).2
    rw [← abs_forwarded, ← abs_emitted, h]
    rfl
  · have h := (main_run_real w cfg prog roots fuel code s hdry hroots hrun).2.1
    rw [feedAll_on cfg hdry _ _ (startAbs_pf_none cfg hres)] at h
    rw [← abs_forwarded, ← abs_emitted, h]
    simp [startAbs]

/-- Witness of C6: the real run over `/a/{f1, f2, sub/{f3}}` from `/a`. -/
theorem real_run_forwards_every_file_witness :
    main_run exampleWorld (realConfig none) "zfs-rewrite-resume" ["/a"] 1 State.init =
        some (runOf exampleWorld (realConfig none) ["/a"] 1) ∧
      emitted (runOf exampleWorld (realConfig none) ["/a"] 1).2.trace =
        ["/a/f1", "/a/f2", "/a/sub/f3"] ∧
      forwarded (runOf exampleWorld (realConfig none) ["/a"] 1).2.trace =
        emitted (runOf exampleWorld (realConfig none) ["/a"] 1).2.trace :=
  ⟨by decide, by decide,
    real_run_forwards_every_file exampleWorld (realConfig none) "zfs-rewrite-resume" ["/a"] 1
      (runOf exampleWorld (realConfig none) ["/a"] 1).1
      (runOf exampleWorld (realConfig none) ["/a"] 1).2 rfl rfl (by decide)⟩

/-- C8 (as amended): when no operand occurs twice or lies below another, and
no listing has a name twice or a name with a slash, no path is appended to
the directory queue twice, and no operand is appended to it. -/
theorem queue_has_no_duplicates (w : World) (cfg : Config) (prog : String)
    (roots : List String) (fuel : Nat) (code : Nat) (s : State) (hwf : WellFormed w)
    (hsep : Separate roots)
    (hrun : main_run w cfg prog roots fuel State.init = some (code, s)) :
    s.dir_queue.Nodup ∧ ∀ q ∈ s.dir_queue, q ∉ roots := by
  obtain ⟨L, hL, hq, _⟩ := run_items w cfg prog roots fuel code s hrun
  have hnd := walk_nodup w hwf cfg.xdev_flag roots hsep fuel
  have hsub : s.dir_queue <+: dirs (walkItems w cfg.xdev_flag roots fuel).1 := by
    rw [hq]
    exact dirs_initial _ _ hL
  obtain ⟨_, h2, h3⟩ := List.nodup_append.1 hnd
  exact ⟨h2.sublist hsub.sublist, fun q hq2 hr => h3 hr (hsub.subset hq2)⟩

/-- Witness of C8 (as amended): the walk over `/a/{f1, f2, sub/{f3}}` from `/a`
queues `/a/sub` once. -/
theorem queue_has_no_duplicates_witness :
    WellFormed exampleWorld ∧ Separate ["/a"] ∧
      (runOf exampleWorld (realConfig none) ["/a"] 1).2.dir_queue = ["/a/sub"] ∧
      ((runOf exampleWorld (realConfig none) ["/a"] 1).2.dir_queue.Nodup ∧
        ∀ q ∈ (runOf exampleWorld (realConfig none) ["/a"] 1).2.dir_queue, q ∉ ["/a"]) :=
  ⟨exampleWorld_wellFormed, separate_singleton "/a", by decide,
    queue_has_no_duplicates exampleWorld (realConfig none) "zfs-rewrite-resume" ["/a"] 1
      (runOf exampleWorld (realConfig none) ["/a"] 1).1
      (runOf exampleWorld (realConfig none) ["/a"] 1).2 exampleWorld_wellFormed
      (separate_singleton "/a") (by decide)⟩

/-- Counterexample to C8 as stated: with the operand `/a` given twice, the
walk over `/a/{f1, f2, sub/{f3}}` appends `/a/sub` to the queue twice. -/
theorem queue_duplicates_on_repeated_root :
    main_run exampleWorld (realConfig none) "zfs-rewrite-resume" ["/a", "/a"] 2 State.init =
        some (runOf exampleWorld (realConfig none) ["/a", "/a"] 2) ∧
      (runOf exampleWorld (realConfig none) ["/a", "/a"] 2).2.dir_queue =
        ["/a/sub", "/a/sub"] ∧
      ¬ (runOf exampleWorld (realConfig none) ["/a", "/a"] 2).2.dir_queue.Nodup := by
  decide

/-- C9: every run over finite trees hands files to `handle_file` in the order
of the reference level-order traversal: the files handed over are an initial
part of it, and all of it unless a dry run exits at its resume path.  The
steps of `main` are operands in caller order followed by queued directories
in queue order, no queued directory before the last operand; in a run that
is not cut short, all operands and then the whole queue. -/
theorem walk_order_is_level_order (w : World) (hfin : FiniteTree w) (hlen : LstatBounded w)
    (cfg : Config) (prog : String) (roots : List String) (hroots : roots ≠ []) :
    (∃ fuel code s, main_run w cfg prog roots fuel State.init = some (code, s)) ∧
      ∀ fuel code s, main_run w cfg prog roots fuel State.init = some (code, s) →
        (∃ fuelE E, levelOrder w cfg.xdev_flag roots fuelE = some E ∧
          emitted s.trace <+: E) ∧
        (∃ doneR doneQ, doneR <+: roots ∧ doneQ <+: s.dir_queue ∧
          walkOrder s.trace = doneR.map Event.process_path ++ doneQ.map Event.dequeue ∧
          (doneQ ≠ [] → doneR = roots)) ∧
        ((∀ r, cfg.dry_run_flag = true → cfg.resume_file = some r → r ∉ emitted s.trace) →
          levelOrder w cfg.xdev_flag roots fuel = some (emitted s.trace) ∧
          walkOrder s.trace =
            roots.map Event.process_path ++ s.dir_queue.map Event.dequeue) := by
  refine ⟨main_run_terminates w hfin cfg prog roots, ?_⟩
  intro fuel code s hrun
  obtain ⟨_, doneR, doneQ, t1, t2, t3, t4, t5⟩ :=
    main_run_trace w cfg prog roots fuel code s hroots hrun
  have hs := main_run_sim w cfg prog roots fuel hroots
  rw [hrun] at hs
  refine ⟨?_, ⟨doneR, doneQ, t1, t2, t3, t4⟩, ?_⟩
  · obtain ⟨fuel0, hdone0⟩ := walkItems_done w hfin cfg.xdev_flag roots
    refine ⟨fuel0, _, levelOrder_of_done w hlen _ roots fuel0 hdone0, ?_⟩
    have hpre : (walkItems w cfg.xdev_flag roots fuel).1 <+:
        (walkItems w cfg.xdev_flag roots fuel0).1 := by
      unfold walkItems at hdone0 ⊢
      exact (List.prefix_append_right_inj _).2 (drainItems_initial w _ fuel0 _ hdone0 fuel)
    rcases hs with ⟨_, _, habs, _⟩ | ⟨_, _, habs, _⟩
    · have hem : emitted s.trace = files (cutAt cfg (walkItems w cfg.xdev_flag roots fuel).1) := by
        rw [← abs_emitted, habs, feedAll_emitted]
        simp [startAbs]
      rw [hem]
      exact files_initial _ _ ((cutAt_initial cfg _).trans hpre)
    · have hem : emitted s.trace = files (walkItems w cfg.xdev_flag roots fuel).1 := by
        rw [← abs_emitted, habs, feedAll_emitted]
        simp [startAbs]
      rw [hem]
      exact files_initial _ _ hpre
  · intro hnormal
    have hne : ¬ EndsAtMatch cfg s.trace := by
      intro he
      obtain ⟨r, hr, hd, hin⟩ := mem_emitted_of_ends cfg s.trace he
      exact hnormal r hd hr hin
    constructor
    · rcases hs with ⟨_, _, _, he⟩ | ⟨_, hdone, habs, _⟩
      · exact absurd he hne
      · have hem : emitted s.trace = files (walkItems w cfg.xdev_flag roots fuel).1 := by
          rw [← abs_emitted, habs, feedAll_emitted]
          simp [startAbs]
        rw [hem]
        exact levelOrder_of_done w hlen _ roots fuel hdone
    · obtain ⟨h6, h7⟩ := t5 hne
      rw [t3, h6, h7]

/-- Witness of C9: for `/a/{f1, f2, sub/{f3}}` with root `/a` and listing order
`f1, f2, sub` the files handed to `handle_file` are `/a/f1, /a/f2, /a/sub/f3`. -/
theorem walk_order_is_level_order_witness :
    FiniteTree exampleWorld ∧ LstatBounded exampleWorld ∧
      emitted (runOf exampleWorld (realConfig none) ["/a"] 1).2.trace =
        ["/a/f1", "/a/f2", "/a/sub/f3"] ∧
      (levelOrder exampleWorld (realConfig none).xdev_flag ["/a"] 1 =
          some (emitted (runOf exampleWorld (realConfig none) ["/a"] 1).2.trace) ∧
        walkOrder (runOf exampleWorld (realConfig none) ["/a"] 1).2.trace =
          ["/a"].map Event.process_path ++
            (runOf exampleWorld (realConfig none) ["/a"] 1).2.dir_queue.map Event.dequeue) :=
  ⟨exampleWorld_finite, exampleWorld_bounded, by decide,
    (walk_order_is_level_order exampleWorld exampleWorld_finite exampleWorld_bounded
      (realConfig none) "zfs-rewrite-resume" ["/a"] (by decide)).2 1
      (runOf exampleWorld (realConfig none) ["/a"] 1).1
      (runOf exampleWorld (realConfig none) ["/a"] 1).2 (by decide) |>.2.2
      (fun r hd => absurd hd (by decide))⟩

/-- C10: the gate mode only ever goes from skipping to active.  Every call of
`handle_file` leaves `process_files` as it is or turns it on, the latter only
in a real run on the resume path; the other writers of the state leave it
alone; the walk loops keep an active gate active; and in a whole run the gate
is turned on at most once, at the resume path, exactly once when the run
starts skipping and meets the resume path. -/
theorem gate_mode_monotone (w : World) (cfg : Config) :
    (∀ p s, (handle_file w cfg p s).state.process_files = s.process_files ∨
      (s.process_files = false ∧ (handle_file w cfg p s).state.process_files = true ∧
        cfg.resume_file = some p ∧ cfg.dry_run_flag = false)) ∧
    (∀ p s, (add_to_dir_queue p s).process_files = s.process_files) ∧
    (∀ p s, (execute_rewrite w cfg p s).process_files = s.process_files) ∧
    (∀ roots s, s.process_files = true →
      (main_roots w cfg roots s).state.process_files = true) ∧
    (∀ fuel idx s r, main_drain w cfg fuel idx s = some r → s.process_files = true →
      r.state.process_files = true) ∧
    (∀ prog roots fuel code s, roots ≠ [] →
      main_run w cfg prog roots fuel State.init = some (code, s) →
        (found s.trace).length ≤ 1 ∧
        (∀ p ∈ found s.trace, cfg.resume_file = some p ∧ cfg.dry_run_flag = false ∧
          p ∈ emitted s.trace) ∧
        (s.process_files = true ↔
          ((main_start cfg State.init).process_files = true ∨ found s.trace ≠ [])) ∧
        (∀ r, cfg.resume_file = some r → cfg.dry_run_flag = false →
          r ∈ emitted s.trace → found s.trace = [r] ∧ s.process_files = true)) := by
  refine ⟨handle_file_mode w cfg, ?_, ?_, ?_, ?_, ?_⟩
  · intro p s
    rfl
  · intro p s
    exact congrArg Abs.pf (execute_rewrite_abs w cfg p s)
  · intro roots s hp
    exact (main_roots_sim w cfg roots s).pf_on hp
  · intro fuel idx s r hr hp
    have h := main_drain_sim w cfg fuel idx s
    rw [hr] at h
    cases r with
    | ret a s1 => exact Sim.pf_on h.2 hp
    | exit c s1 =>
      have h2 : Sim cfg s _ (Ctl.exit c s1 : Ctl Unit) := h
      exact Sim.pf_on h2 hp
  · intro prog roots fuel code s hroots hrun
    rcases run_found w cfg prog roots fuel code s hroots hrun with
      ⟨h1, h2, h3⟩ | ⟨r, hr, hd, h1, h2, h3, h4⟩
    · refine ⟨by simp [h1], by simp [h1], ?_, ?_⟩
      · rw [h2, h1]
        simp
      · intro r hr hd hin
        exact absurd hin (h3 hd r hr)
    · refine ⟨by simp [h1], ?_, ?_, ?_⟩
      · intro p hp
        rw [h1] at hp
        simp at hp
        subst hp
        exact ⟨hr, hd, h4⟩
      · rw [h1]
        simp [h3]
      · intro r2 hr2 _ _
        have : r2 = r := by
          rw [hr] at hr2
          exact (Option.some.inj hr2).symm
        subst this
        exact ⟨h1, h3⟩

/-- Witness of C10: resuming at `/a/f2` in `/a/{f1, f2, sub/{f3}}` the gate is
turned on once, at `/a/f2`, and is on at the end. -/
theorem gate_mode_monotone_witness :
    found (runOf exampleWorld (realConfig (some "/a/f2")) ["/a"] 1).2.trace = ["/a/f2"] ∧
      (main_start (realConfig (some "/a/f2")) State.init).process_files = false ∧
      (runOf exampleWorld (realConfig (some "/a/f2")) ["/a"] 1).2.process_files = true :=
  ⟨((gate_mode_monotone exampleWorld (realConfig (some "/a/f2"))).2.2.2.2.2
      "zfs-rewrite-resume" ["/a"] 1
      (runOf exampleWorld (realConfig (some "/a/f2")) ["/a"] 1).1
      (runOf exampleWorld (realConfig (some "/a/f2")) ["/a"] 1).2 (by decide)
      (by decide)).2.2.2 "/a/f2" rfl rfl (by decide) |>.1,
    by decide, by decide⟩

/-- C11: the results of the external action do not influence the walk.  For
every tree, operand list, configuration and fuel, and any two assignments
`sys1`, `sys2` of results to the commands, the two runs either both run out
of fuel or both end, with the same exit status, the same sequence of files
handed to `handle_file`, the same sequence forwarded to `execute_rewrite`,
the same queue and the same gate mode. -/
theorem action_results_do_not_influence_walk (w : World) (sys1 sys2 : Nat → String → Int)
    (cfg : Config) (prog : String) (roots : List String) (fuel : Nat) :
    observe (main_run (w.withSystem sys1) cfg prog roots fuel State.init) =
      observe (main_run (w.withSystem sys2) cfg prog roots fuel State.init) := by
  apply main_run_observe_congr
  rw [walkItems_withSystem, walkItems_withSystem]

/-- C12: a directory `D` whose listing fails is walked like an empty one.
The call of `handle_directory` on it returns to its caller, with status 1 and
only the diagnostic added; and the run over the tree gives the same exit
status, emitted files, forwarded files and queue as the run over the tree in
which `D` is readable and empty. -/
theorem unreadable_directory_walks_as_empty (w : World) (D : String)
    (h : w.readdir D = none) (cfg : Config) (prog : String) (roots : List String)
    (fuel : Nat) :
    (∀ dev s, handle_directory w cfg D dev s =
        Ctl.ret 1 ((s.emit (Event.handle_directory D dev)).emit
          (Event.stderr (Msg.opendirFailed D)))) ∧
      observe (main_run w cfg prog roots fuel State.init) =
        observe (main_run (w.emptied D) cfg prog roots fuel State.init) := by
  constructor
  · intro dev s
    unfold handle_directory
    simp only [h]
  · apply main_run_observe_congr
    rw [walkItems_emptied w D h]

/-- Witness of C12: with `/a/sub` unreadable the run over `/a` emits `/a/f1`
and `/a/f2`, as with `/a/sub` empty. -/
theorem unreadable_directory_walks_as_empty_witness :
    unreadableWorld.readdir "/a/sub" = none ∧
      ((∀ dev s, handle_directory unreadableWorld (realConfig none) "/a/sub" dev s =
          Ctl.ret 1 ((s.emit (Event.handle_directory "/a/sub" dev)).emit
            (Event.stderr (Msg.opendirFailed "/a/sub")))) ∧
        observe (main_run unreadableWorld (realConfig none) "zfs-rewrite-resume" ["/a"] 5
            State.init) =
          observe (main_run (unreadableWorld.emptied "/a/sub") (realConfig none)
            "zfs-rewrite-resume" ["/a"] 5 State.init)) ∧
      emitted (runOf unreadableWorld (realConfig none) ["/a"] 5).2.trace = ["/a/f1", "/a/f2"] :=
  ⟨by decide,
    unreadable_directory_walks_as_empty unreadableWorld "/a/sub" (by decide) (realConfig none)
      "zfs-rewrite-resume" ["/a"] 5,
    by decide⟩

/-- C13: entries that are neither regular files nor directories are skipped.
An entry that `lstat` classifies as such leaves the observation of the state
unchanged; an operand of that kind makes `process_path` return at once; every
call of `handle_directory` in a run is on a path that `lstat` classifies as a
directory; and the run gives the same exit status, emitted files, forwarded
files and queue as the run over the tree with all such entries removed. -/
theorem other_kinds_are_skipped (w : World) (cfg : Config) (prog : String)
    (roots : List String) (fuel : Nat) :
    (∀ path dev name s st, w.lstat (path ++ "/" ++ name) = some st →
        st.st_mode = FileType.other →
        ∃ s1, handle_directory_entry w cfg path dev name s = Ctl.ret () s1 ∧ s1.abs = s.abs) ∧
      (∀ path s st, w.lstat path = some st → st.st_mode = FileType.other →
        process_path w cfg path s = Ctl.ret 0 (s.emit (Event.process_path path))) ∧
      (∀ code s, main_run w cfg prog roots fuel State.init = some (code, s) →
        ∀ D dev, Event.handle_directory D dev ∈ s.trace →
          ∃ st, w.lstat D = some st ∧ st.st_mode = FileType.dir) ∧
      observe (main_run w cfg prog roots fuel State.init) =
        observe (main_run w.stripped cfg prog roots fuel State.init) := by
  refine ⟨?_, ?_, ?_, ?_⟩
  · intro path dev name s st hst hm
    unfold handle_directory_entry
    split
    · exact ⟨s, rfl, rfl⟩
    · simp only []
      split
      · exact ⟨_, rfl, emit_abs_stderr s _ (by simp)⟩
      · rw [hst]
        simp only [hm]
        split
        · exact ⟨s, rfl, rfl⟩
        · exact ⟨s, rfl, rfl⟩
  · intro path s st hst hm
    unfold process_path
    simp only [hst, hm]
  · intro code s hrun D dev h
    exact handle_directory_on_dir w cfg prog roots fuel code s hrun D dev h
  · apply main_run_observe_congr
    rw [walkItems_stripped]

/-- Witness of C13: in the tree where `/a/link` is a symbolic link to the
directory `/a/sub`, the run over `/a` emits `/a/f1` and `/a/sub/f3`, never
`/a/link/f3`, and queues `/a/sub` only. -/
theorem other_kinds_are_skipped_witness :
    ((∀ path dev name s st, linkWorld.lstat (path ++ "/" ++ name) = some st →
        st.st_mode = FileType.other →
        ∃ s1, handle_directory_entry linkWorld (realConfig none) path dev name s =
          Ctl.ret () s1 ∧ s1.abs = s.abs) ∧
      (∀ path s st, linkWorld.lstat path = some st → st.st_mode = FileType.other →
        process_path linkWorld (realConfig none) path s =
          Ctl.ret 0 (s.emit (Event.process_path path))) ∧
      (∀ code s, main_run linkWorld (realConfig none) "zfs-rewrite-resume" ["/a"] 5
          State.init = some (code, s) →
        ∀ D dev, Event.handle_directory D dev ∈ s.trace →
          ∃ st, linkWorld.lstat D = some st ∧ st.st_mode = FileType.dir) ∧
      observe (main_run linkWorld (realConfig none) "zfs-rewrite-resume" ["/a"] 5
          State.init) =
        observe (main_run linkWorld.stripped (realConfig none) "zfs-rewrite-resume" ["/a"] 5
          State.init)) ∧
      emitted (runOf linkWorld (realConfig none) ["/a"] 5).2.trace = ["/a/f1", "/a/sub/f3"] ∧
      (runOf linkWorld (realConfig none) ["/a"] 5).2.dir_queue = ["/a/sub"] ∧
      (runOf linkWorld (realConfig none) ["/a", "/a/link"] 5).2.dir_queue = ["/a/sub"] :=
  ⟨other_kinds_are_skipped linkWorld (realConfig none) "zfs-rewrite-resume" ["/a"] 5,
    by decide, by decide, by decide⟩

/-- C14: the mount-boundary reference of queued directories.  For every
tree, either setting of the cross-mount flag, every operand list and fuel,
the walk that processes each dequeued directory with the volume id of the
directory that enqueued it (`parentBoundaryWalk`) produces the same items,
files and queued directories, in the same order, as the walk of `main`, which
takes the dequeued directory's own volume id; so the run of `main` is the gate
applied to the items of `parentBoundaryWalk`, and a run that was not ended
at the resume point emitted its files and queued its directories. -/
theorem own_volume_reference_matches_enqueuer_reference (w : World) (cfg : Config)
    (prog : String) (roots : List String) (fuel : Nat) (hroots : roots ≠ []) :
    parentBoundaryWalk w cfg.xdev_flag roots fuel = walkItems w cfg.xdev_flag roots fuel ∧
      RunSim cfg (parentBoundaryWalk w cfg.xdev_flag roots fuel)
        (main_run w cfg prog roots fuel State.init) ∧
      ∀ code s, main_run w cfg prog roots fuel State.init = some (code, s) →
        ¬ EndsAtMatch cfg s.trace →
        emitted s.trace = files (parentBoundaryWalk w cfg.xdev_flag roots fuel).1 ∧
          s.dir_queue = dirs (parentBoundaryWalk w cfg.xdev_flag roots fuel).1 := by
  have heq := parentBoundaryWalk_eq w cfg.xdev_flag roots fuel
  have hsim := main_run_sim w cfg prog roots fuel hroots
  refine ⟨heq, by rw [heq]; exact hsim, ?_⟩
  intro code s hrun hne
  rw [hrun] at hsim
  rw [heq]
  rcases hsim with ⟨_, _, _, he⟩ | ⟨_, _, ha, _⟩
  · exact absurd he hne
  · have h1 := congrArg Abs.emitted ha
    have h2 := congrArg Abs.queue ha
    rw [feedAll_emitted] at h1
    rw [feedAll_queue] at h2
    simp only [abs_emitted, startAbs, List.nil_append] at h1
    simp only [abs_queue, startAbs, List.nil_append] at h2
    exact ⟨h1, h2⟩

/-- Witness of C14: without `-x` the mount point `/a/mnt` of `mountWorld` is
queued and processed, with reference 1 in the one walk and 2 in the other,
and both give the files `/a/f1`, `/a/mnt/g`. -/
theorem own_volume_reference_matches_enqueuer_reference_witness :
    (parentBoundaryWalk mountWorld (realConfig none).xdev_flag ["/a"] 5 =
        walkItems mountWorld (realConfig none).xdev_flag ["/a"] 5 ∧
      RunSim (realConfig none) (parentBoundaryWalk mountWorld (realConfig none).xdev_flag ["/a"] 5)
        (main_run mountWorld (realConfig none) "zfs-rewrite-resume" ["/a"] 5 State.init) ∧
      ∀ code s, main_run mountWorld (realConfig none) "zfs-rewrite-resume" ["/a"] 5
          State.init = some (code, s) →
        ¬ EndsAtMatch (realConfig none) s.trace →
        emitted s.trace =
            files (parentBoundaryWalk mountWorld (realConfig none).xdev_flag ["/a"] 5).1 ∧
          s.dir_queue =
            dirs (parentBoundaryWalk mountWorld (realConfig none).xdev_flag ["/a"] 5).1) ∧
      parentBoundaryRoots mountWorld false ["/a"] =
        ([Item.file "/a/f1", Item.dir "/a/mnt"], [("/a/mnt", 1)]) ∧
      files (parentBoundaryWalk mountWorld false ["/a"] 5).1 = ["/a/f1", "/a/mnt/g"] ∧
      files (parentBoundaryWalk mountWorld true ["/a"] 5).1 = ["/a/f1"] :=
  ⟨own_volume_reference_matches_enqueuer_reference mountWorld (realConfig none)
      "zfs-rewrite-resume" ["/a"] 5 (by decide),
    by decide, by decide, by decide⟩

/-- C15: paths are built and matched literally.  An entry `n` of a directory
`p` that is a regular file is handed to `handle_file` as the string
`p ++ "/" ++ n`; in a real run that is skipping, `handle_file` turns
processing on exactly when that string equals the resume path, and in a dry
run it exits exactly then; and every file a run emits is an operand or the
path of a visited directory followed by `/` and a name of its listing. -/
theorem paths_are_matched_literally (w : World) (cfg : Config) :
    (∀ p dev n s st, n ≠ "." → n ≠ ".." → (p ++ "/" ++ n).length < PATH_MAX →
        w.lstat (p ++ "/" ++ n) = some st → st.st_mode = FileType.reg →
        (cfg.xdev_flag = true → st.st_dev = dev) →
        handle_directory_entry w cfg p dev n s = handle_file w cfg (p ++ "/" ++ n) s) ∧
      (∀ path s, cfg.dry_run_flag = false → s.process_files = false →
        ((handle_file w cfg path s).state.process_files = true ↔
          cfg.resume_file = some path)) ∧
      (∀ path s, cfg.dry_run_flag = true →
        ((handle_file w cfg path s).returned = false ↔ cfg.resume_file = some path)) ∧
      (∀ prog roots fuel code s, main_run w cfg prog roots fuel State.init = some (code, s) →
        ∀ f ∈ emitted s.trace,
          (f ∈ roots ∧ ∃ st, w.lstat f = some st ∧ st.st_mode = FileType.reg) ∨
            ∃ x n names, Visited w cfg.xdev_flag roots x ∧ w.readdir x.path = some names ∧
              n ∈ names ∧ f = x.path ++ "/" ++ n) := by
  refine ⟨?_, ?_, ?_, ?_⟩
  · intro p dev n s st h1 h2 h3 h4 h5 h6
    unfold handle_directory_entry
    rw [if_neg (by simp [h1, h2])]
    simp only []
    rw [if_neg (by omega), h4]
    simp only [h5]
    have hx : (cfg.xdev_flag && st.st_dev != dev) = false := by
      cases hxd : cfg.xdev_flag with
      | false => rfl
      | true => simp [h6 hxd]
    rw [hx]
    rfl
  · intro path s hd hs
    unfold handle_file
    by_cases hr : cfg.resume_file = some path
    · simp [hd, hs, hr, Ctl.state, execute_rewrite, State.emit]
      split
      · rfl
      · split <;> rfl
    · simp [hd, hs, hr, Ctl.state, State.emit]
  · intro path s hd
    unfold handle_file
    by_cases hr : cfg.resume_file = some path
    · simp [hd, hr, Ctl.returned]
    · simp [hd, hr, Ctl.returned]
  · intro prog roots fuel code s hrun f hf
    exact emitted_origin w cfg prog roots fuel code s hrun f hf

/-- Witness of C15: with the operand `/a/` the file `f1` is emitted as
`/a//f1`; the resume path `/a/f1` is never matched, nothing is forwarded and
the run fails; the resume path `/a//f1` is matched. -/
theorem paths_are_matched_literally_witness :
    ((∀ p dev n s st, n ≠ "." → n ≠ ".." → (p ++ "/" ++ n).length < PATH_MAX →
        slashWorld.lstat (p ++ "/" ++ n) = some st → st.st_mode = FileType.reg →
        ((realConfig (some "/a/f1")).xdev_flag = true → st.st_dev = dev) →
        handle_directory_entry slashWorld (realConfig (some "/a/f1")) p dev n s =
          handle_file slashWorld (realConfig (some "/a/f1")) (p ++ "/" ++ n) s) ∧
      (∀ path s, (realConfig (some "/a/f1")).dry_run_flag = false → s.process_files = false →
        ((handle_file slashWorld (realConfig (some "/a/f1")) path s).state.process_files = true ↔
          (realConfig (some "/a/f1")).resume_file = some path)) ∧
      (∀ path s, (realConfig (some "/a/f1")).dry_run_flag = true →
        ((handle_file slashWorld (realConfig (some "/a/f1")) path s).returned = false ↔
          (realConfig (some "/a/f1")).resume_file = some path)) ∧
      (∀ prog roots fuel code s,
        main_run slashWorld (realConfig (some "/a/f1")) prog roots fuel State.init =
          some (code, s) →
        ∀ f ∈ emitted s.trace,
          (f ∈ roots ∧ ∃ st, slashWorld.lstat f = some st ∧ st.st_mode = FileType.reg) ∨
            ∃ x n names, Visited slashWorld (realConfig (some "/a/f1")).xdev_flag roots x ∧
              slashWorld.readdir x.path = some names ∧ n ∈ names ∧
                f = x.path ++ "/" ++ n)) ∧
      emitted (runOf slashWorld (realConfig (some "/a/f1")) ["/a/"] 5).2.trace = ["/a//f1"] ∧
      forwarded (runOf slashWorld (realConfig (some "/a/f1")) ["/a/"] 5).2.trace = [] ∧
      (runOf slashWorld (realConfig (some "/a/f1")) ["/a/"] 5).1 = EXIT_FAILURE ∧
      (runOf slashWorld (dryConfig (some "/a/f1")) ["/a/"] 5).1 = EXIT_FAILURE ∧
      forwarded (runOf slashWorld (realConfig (some "/a//f1")) ["/a/"] 5).2.trace = ["/a//f1"] ∧
      forwarded (runOf slashWorld (realConfig (some "/a/f1")) ["/a"] 5).2.trace = ["/a/f1"] :=
  ⟨paths_are_matched_literally slashWorld (realConfig (some "/a/f1")),
    by decide, by decide, by decide, by decide, by decide, by decide⟩

set_option maxRecDepth 100000 in
/-- C16: a dry run given `-n -l -v /a`, where `-v` is the value of `-l` and
the option `-v` is not given, prints the path of every file handed to
`handle_file`: the test for verbose output is a search for `-v` in the
pass-through option string, which holds the value of `-l`. -/
theorem dry_run_prints_without_verbose_option :
    Opt.v ∉ [Opt.n, Opt.l "-v"] ∧
      (main exampleWorld "zfs-rewrite-resume" [Opt.n, Opt.l "-v"] ["/a"] 5).map
          (fun r => (r.1, emitted r.2.trace, printed r.2.trace)) =
        some (EXIT_SUCCESS, ["/a/f1", "/a/f2", "/a/sub/f3"],
          ["/a/f1", "/a/f2", "/a/sub/f3"]) ∧
      (main exampleWorld "zfs-rewrite-resume" [Opt.n, Opt.l "1"] ["/a"] 5).map
          (fun r => (r.1, emitted r.2.trace, printed r.2.trace)) =
        some (EXIT_SUCCESS, ["/a/f1", "/a/f2", "/a/sub/f3"], []) ∧
      (main exampleWorld "zfs-rewrite-resume" [Opt.n, Opt.o "7-v"] ["/a"] 5).map
          (fun r => printed r.2.trace) =
        some ["/a/f1", "/a/f2", "/a/sub/f3"] := by
  refine ⟨by decide, by decide, by decide, by decide⟩

/-- C17: the gate on an arbitrary sequence.  In a real run with resume path
`r`, started skipping, the calls of `handle_file` on any finite sequence of
paths, repeated paths included, all return; the paths forwarded to
`execute_rewrite` are the sequence with its longest initial part free of `r`
dropped, none when `r` does not occur; and processing is on at the end
exactly when `r` occurs.  The same holds of the files a whole run emits. -/
theorem gate_on_arbitrary_sequence (w : World) (cfg : Config) (r : String)
    (hd : cfg.dry_run_flag = false) (hr : cfg.resume_file = some r) :
    (∀ ps s, s.process_files = false →
        ∃ s1, handle_files w cfg ps s = Ctl.ret () s1 ∧
          emitted s1.trace = emitted s.trace ++ ps ∧
          forwarded s1.trace = forwarded s.trace ++ ps.dropWhile (fun p => p != r) ∧
          (r ∉ ps → forwarded s1.trace = forwarded s.trace) ∧
          (s1.process_files = true ↔ r ∈ ps)) ∧
      (∀ prog roots fuel code s, roots ≠ [] →
        main_run w cfg prog roots fuel State.init = some (code, s) →
        forwarded s.trace = (emitted s.trace).dropWhile (fun p => p != r) ∧
          (r ∉ emitted s.trace → forwarded s.trace = []) ∧
          (s.process_files = true ↔ r ∈ emitted s.trace)) := by
  have hnil : ∀ l : List String, r ∉ l → l.dropWhile (fun p => p != r) = [] := by
    intro l hl
    rw [List.dropWhile_eq_nil_iff]
    intro x hx
    have : x ≠ r := fun e => hl (e ▸ hx)
    simpa using this
  constructor
  · intro ps s hs
    have hsim := handle_files_sim w cfg ps s
    cases hres : handle_files w cfg ps s with
    | exit c s1 =>
      rw [hres] at hsim
      obtain ⟨⟨i, _, hi⟩, _⟩ := hsim
      rw [halts_real cfg hd i] at hi
      cases hi
    | ret a s1 =>
      rw [hres] at hsim
      obtain ⟨_, habs⟩ := hsim
      obtain ⟨g1, g2, g3⟩ := gate_feedAll cfg r hd hr (ps.map Item.file) s.abs hs
      rw [← habs, files_map_file] at g1 g2 g3
      refine ⟨s1, rfl, g2, g1, ?_, g3⟩
      intro hmiss
      have g1b : forwarded s1.trace = forwarded s.trace ++ ps.dropWhile (fun p => p != r) := g1
      rw [g1b, hnil ps hmiss, List.append_nil]
  · intro prog roots fuel code s hroots hrun
    obtain ⟨_, habs, _⟩ := main_run_real w cfg prog roots fuel code s hd hroots hrun
    obtain ⟨g1, g2, g3⟩ := gate_feedAll cfg r hd hr (walkItems w cfg.xdev_flag roots fuel).1
      (startAbs cfg) (startAbs_pf_resume cfg r hr hd)
    rw [← habs] at g1 g2 g3
    have e2 : emitted s.trace = files (walkItems w cfg.xdev_flag roots fuel).1 := by
      have : s.abs.emitted = (startAbs cfg).emitted ++ _ := g2
      simpa [startAbs] using this
    have e1 : forwarded s.trace =
        (files (walkItems w cfg.xdev_flag roots fuel).1).dropWhile (fun p => p != r) := by
      have : s.abs.forwarded = (startAbs cfg).forwarded ++ _ := g1
      simpa [startAbs] using this
    rw [e2]
    refine ⟨e1, ?_, g3⟩
    intro hmiss
    rw [e1, hnil _ hmiss]

/-- Witness of C17: with resume path `/a/f2`, the sequence `/a/f1`, `/a/f2`,
`/a/f1`, `/a/f2` is forwarded from the first `/a/f2` on, the repeated paths
included. -/
theorem gate_on_arbitrary_sequence_witness :
    ((∀ ps s, s.process_files = false →
        ∃ s1, handle_files exampleWorld (realConfig (some "/a/f2")) ps s = Ctl.ret () s1 ∧
          emitted s1.trace = emitted s.trace ++ ps ∧
          forwarded s1.trace = forwarded s.trace ++ ps.dropWhile (fun p => p != "/a/f2") ∧
          ("/a/f2" ∉ ps → forwarded s1.trace = forwarded s.trace) ∧
          (s1.process_files = true ↔ "/a/f2" ∈ ps)) ∧
      (∀ prog roots fuel code s, roots ≠ [] →
        main_run exampleWorld (realConfig (some "/a/f2")) prog roots fuel State.init =
          some (code, s) →
        forwarded s.trace = (emitted s.trace).dropWhile (fun p => p != "/a/f2") ∧
          ("/a/f2" ∉ emitted s.trace → forwarded s.trace = []) ∧
          (s.process_files = true ↔ "/a/f2" ∈ emitted s.trace))) ∧
      forwarded (handle_files exampleWorld (realConfig (some "/a/f2"))
          ["/a/f1", "/a/f2", "/a/f1", "/a/f2"]
          (main_start (realConfig (some "/a/f2")) State.init)).state.trace =
        ["/a/f2", "/a/f1", "/a/f2"] ∧
      forwarded (handle_files exampleWorld (realConfig (some "/a/f2")) ["/a/f1", "/a/f1"]
          (main_start (realConfig (some "/a/f2")) State.init)).state.trace = [] :=
  ⟨gate_on_arbitrary_sequence exampleWorld (realConfig (some "/a/f2")) "/a/f2" rfl rfl,
    by decide, by decide⟩

/-- C18: termination.  Over a tree whose subdirectories are all among the
finitely many paths of `D`, the run of `main` ends for every operand list,
and every path it queues is one that `lstat` classifies as a directory.
When moreover no listing holds a name twice or a name with a slash, the
number of queued directories is at most the number of operands times the
number of directories, and the drain loop is through within that many
iterations. -/
theorem walk_terminates_within_enqueue_bound (w : World) (D : List String)
    (hD : ∀ p c, IsSubdir w p c → c ∈ D) (cfg : Config) (prog : String)
    (roots : List String) :
    (∃ fuel code s, main_run w cfg prog roots fuel State.init = some (code, s)) ∧
      (∀ fuel code s, main_run w cfg prog roots fuel State.init = some (code, s) →
        ∀ d ∈ s.dir_queue, ∃ st, w.lstat d = some st ∧ st.st_mode = FileType.dir) ∧
      (WellFormed w →
        (∃ code s, main_run w cfg prog roots (roots.length * D.length) State.init =
          some (code, s)) ∧
        ∀ fuel code s, main_run w cfg prog roots fuel State.init = some (code, s) →
          s.dir_queue.length ≤ roots.length * D.length) := by
  have hfin := finiteTree_of_list w D hD
  refine ⟨main_run_terminates w hfin cfg prog roots, ?_, ?_⟩
  · intro fuel code s hrun d hd
    obtain ⟨L, hL, hq, _⟩ := run_items w cfg prog roots fuel code s hrun
    rw [hq] at hd
    exact queued_is_dir w cfg.xdev_flag roots fuel d ((dirs_initial _ _ hL).subset hd)
  · intro hwf
    constructor
    · obtain ⟨f0, h0⟩ := walkItems_done w hfin cfg.xdev_flag roots
      have hb := queue_length_bound w hwf D hD cfg.xdev_flag roots f0
      have he := walkItems_enough w cfg.xdev_flag roots f0 h0 (roots.length * D.length) hb
      exact main_run_returns w cfg prog roots (roots.length * D.length) (by rw [he]; exact h0)
    · intro fuel code s hrun
      obtain ⟨L, hL, hq, _⟩ := run_items w cfg prog roots fuel code s hrun
      rw [hq]
      exact le_trans (dirs_initial _ _ hL).length_le
        (queue_length_bound w hwf D hD cfg.xdev_flag roots fuel)

/-- Witness of C18: the tree under `/a` has one subdirectory; with the
operand `/a` given twice the run ends within two iterations of the drain
loop and queues `/a/sub` twice, which meets the bound; one iteration is not
enough. -/
theorem walk_terminates_within_enqueue_bound_witness :
    (∀ p c, IsSubdir exampleWorld p c → c ∈ ["/a/sub"]) ∧ WellFormed exampleWorld ∧
      ((∃ fuel code s, main_run exampleWorld (realConfig none) "zfs-rewrite-resume"
          ["/a", "/a"] fuel State.init = some (code, s)) ∧
        (∀ fuel code s, main_run exampleWorld (realConfig none) "zfs-rewrite-resume"
            ["/a", "/a"] fuel State.init = some (code, s) →
          ∀ d ∈ s.dir_queue,
            ∃ st, exampleWorld.lstat d = some st ∧ st.st_mode = FileType.dir) ∧
        (WellFormed exampleWorld →
          (∃ code s, main_run exampleWorld (realConfig none) "zfs-rewrite-resume"
            ["/a", "/a"] (["/a", "/a"].length * ["/a/sub"].length) State.init =
              some (code, s)) ∧
          ∀ fuel code s, main_run exampleWorld (realConfig none) "zfs-rewrite-resume"
              ["/a", "/a"] fuel State.init = some (code, s) →
            s.dir_queue.length ≤ ["/a", "/a"].length * ["/a/sub"].length)) ∧
      (runOf exampleWorld (realConfig none) ["/a", "/a"] 2).2.dir_queue = ["/a/sub", "/a/sub"] ∧
      main_run exampleWorld (realConfig none) "zfs-rewrite-resume" ["/a", "/a"] 1 State.init =
        none :=
  ⟨exampleWorld_subdirs, exampleWorld_wellFormed,
    walk_terminates_within_enqueue_bound exampleWorld ["/a/sub"] exampleWorld_subdirs
      (realConfig none) "zfs-rewrite-resume" ["/a", "/a"],
    by decide, by decide⟩

/-- C19: the command buffer never overflows.  With an option string of at
most 511 characters the formatted command has 18 + |zfs_opts| + |path|
characters, which for a path of at most `PATH_MAX - 1` characters is less
than `PATH_MAX + 1024`; `execute_rewrite` on such a path runs the command;
every path `handle_directory` builds and hands on has at most `PATH_MAX - 1`
characters; and in a run over a world whose `lstat` fails on longer paths the
commands run are exactly the commands of the forwarded files, in order, and
the diagnostic for a command that is too long never appears. -/
theorem command_buffer_never_overflows (w : World) (cfg : Config)
    (hopts : cfg.zfs_opts.length ≤ 511) :
    (∀ path, (rewrite_command cfg path).length = 18 + cfg.zfs_opts.length + path.length) ∧
      (∀ path : String, path.length ≤ PATH_MAX - 1 →
        (rewrite_command cfg path).length < PATH_MAX + 1024) ∧
      (∀ (path : String) (s : State), path.length ≤ PATH_MAX - 1 →
        ∃ ret, (execute_rewrite w cfg path s).trace =
          s.trace ++ (Event.execute_rewrite path ::
            Event.system (rewrite_command cfg path) ret ::
              (if ret ≠ 0 then [Event.stderr (Msg.commandFailed path ret)] else []))) ∧
      (∀ path dev name i, entryItem w cfg.xdev_flag path dev name = some i →
        i.path.length ≤ PATH_MAX - 1) ∧
      (LstatBounded w → ∀ prog roots fuel code s,
        main_run w cfg prog roots fuel State.init = some (code, s) →
        commands s.trace = (forwarded s.trace).map (rewrite_command cfg) ∧
          ∀ e ∈ s.trace, isTooLong e = false) := by
  have hfit : ∀ path : String, path.length ≤ PATH_MAX - 1 →
      (rewrite_command cfg path).length < PATH_MAX + 1024 := by
    intro path hp
    apply rewrite_command_fits cfg path hopts
    unfold PATH_MAX at hp ⊢
    omega
  refine ⟨rewrite_command_length cfg, hfit, ?_, ?_, ?_⟩
  · intro path s hp
    exact execute_rewrite_trace w cfg path s (hfit path hp)
  · intro path dev name i hi
    obtain ⟨_, _, hlen, _, _, _, hk⟩ := entryItem_some w cfg.xdev_flag path dev name i hi
    have hpath : i.path = path ++ "/" ++ name := by
      rcases hk with ⟨_, rfl⟩ | ⟨_, rfl⟩ <;> rfl
    rw [hpath]
    omega
  · intro hb prog roots fuel code s hrun
    obtain ⟨Δ, h1, h2, h3⟩ := main_run_reaches w cfg prog roots fuel code s hopts hb hrun
    simp only [List.nil_append] at h1
    subst h1
    exact ⟨h2, h3⟩

/-- Witness of C19: the run with `-v` over `/a` runs one command per file,
`zfs rewrite -v  -- "/a/f1"` first. -/
theorem command_buffer_never_overflows_witness :
    verboseConfig.zfs_opts.length ≤ 511 ∧
      ((∀ path, (rewrite_command verboseConfig path).length =
          18 + verboseConfig.zfs_opts.length + path.length) ∧
        (∀ path : String, path.length ≤ PATH_MAX - 1 →
          (rewrite_command verboseConfig path).length < PATH_MAX + 1024) ∧
        (∀ (path : String) (s : State), path.length ≤ PATH_MAX - 1 →
          ∃ ret, (execute_rewrite exampleWorld verboseConfig path s).trace =
            s.trace ++ (Event.execute_rewrite path ::
              Event.system (rewrite_command verboseConfig path) ret ::
                (if ret ≠ 0 then [Event.stderr (Msg.commandFailed path ret)] else []))) ∧
        (∀ path dev name i,
          entryItem exampleWorld verboseConfig.xdev_flag path dev name = some i →
          i.path.length ≤ PATH_MAX - 1) ∧
        (LstatBounded exampleWorld → ∀ prog roots fuel code s,
          main_run exampleWorld verboseConfig prog roots fuel State.init = some (code, s) →
          commands s.trace = (forwarded s.trace).map (rewrite_command verboseConfig) ∧
            ∀ e ∈ s.trace, isTooLong e = false)) ∧
      commands (runOf exampleWorld verboseConfig ["/a"] 5).2.trace =
        ["zfs rewrite -v  -- \"/a/f1\"", "zfs rewrite -v  -- \"/a/f2\"",
          "zfs rewrite -v  -- \"/a/sub/f3\""] :=
  ⟨by decide, command_buffer_never_overflows exampleWorld verboseConfig (by decide),
    by decide⟩

end ZfsRewriteResume
